import Mathlib

/-! # ConsoleCalculatorCPP: the tokenizer and the two-stack evaluator

A shallow embedding of `src/src/calc.cpp` (the same functions are repeated in
`src/ConsoleCalculator.cpp`).

* A `std::string` is a `List Char`; a `std::vector<std::string>` is a list of them.
* `double` and the `<cmath>` / `std::stod` primitives are a parameter
  (`FloatOps F`): every theorem holds for any interpretation of them.
* A thrown exception is `Fault.thrown what`; `top()` / `pop()` on an empty
  `std::stack` is `Fault.undefinedBehaviour`.
* The recursive evaluator and the lexer loop take a fuel argument; `none`
  means the fuel ran out, and the entry points supply enough of it.
* `int bal` in `checkParentheses` is an `Int`: it stays within the length of
  the input, so it cannot overflow for inputs shorter than 2^31 characters.
* The states the evaluator's `while` loop passes through are the relation
  `Reaches`, built on `iteration`, one pass of the loop body.
* The `precedence` map is read through `precedenceAt` and `precedenceCount`;
  a second embedding (`evaluateExpressionOn` and its companions) threads the
  map through every `operator[]` and `count` to show that it is never changed.
-/

namespace Calc

/-- A `std::string`. -/
abbrev Str := List Char

/-! ## Character classes (`<cctype>`, "C" locale) -/

/-- The `std::isspace` of the "C" locale: space, `\t`, `\n`, `\v`, `\f`, `\r`. -/
def isspace (c : Char) : Bool :=
  c.toNat == 32 || (9 ≤ c.toNat && c.toNat ≤ 13)

/-- The `std::isalpha` of the "C" locale: `A`..`Z`, `a`..`z`. -/
def isalpha (c : Char) : Bool :=
  (65 ≤ c.toNat && c.toNat ≤ 90) || (97 ≤ c.toNat && c.toNat ≤ 122)

/-- The `std::isdigit` test: `0`..`9`. -/
def isdigit (c : Char) : Bool :=
  48 ≤ c.toNat && c.toNat ≤ 57

/-! ## Outcomes -/

/-- How a call can fail to return: a C++ exception carrying its `what()`
text, or undefined behaviour (reading an empty `std::stack`). -/
inductive Fault where
  | thrown (what : Str)
  | undefinedBehaviour
  deriving DecidableEq

/-! ## The arithmetic primitives -/

/-- The `double` type with the primitives the calculator calls on it.
`isZero b` is `b == 0.0`, `leZero x` is `x <= 0.0`, and `stod` is `std::stod`,
which returns the converted value or throws an exception whose `what()` text is
the library's. -/
structure FloatOps (F : Type) where
  add : F → F → F
  sub : F → F → F
  mul : F → F → F
  div : F → F → F
  pow : F → F → F
  sqrt : F → F
  log : F → F
  sin : F → F
  cos : F → F
  tan : F → F
  isZero : F → Bool
  leZero : F → Bool
  stod : Str → Except Str F

section Core

variable {F : Type}

/-- The function `applyOperation(a, b, op)`: the `switch` on `op`, case by case. -/
def applyOperation (A : FloatOps F) (a b : F) (op : Char) : Except Fault F :=
  if op = '+' then .ok (A.add a b)
  else if op = '-' then .ok (A.sub a b)
  else if op = '*' then .ok (A.mul a b)
  else if op = '/' then
    if A.isZero b then .error (.thrown "Error: Division by zero!".toList)
    else .ok (A.div a b)
  else if op = '^' then .ok (A.pow a b)
  else .error (.thrown ("Error: Unknown operator '".toList ++ [op] ++ "'!".toList))

/-- The function `applyFunction(fn, x)`: the chain of comparisons of `fn`. -/
def applyFunction (A : FloatOps F) (fn : Str) (x : F) : Except Fault F :=
  if fn = "sqrt".toList then .ok (A.sqrt x)
  else if fn = "log".toList ∨ fn = "ln".toList then
    if A.leZero x then .error (.thrown "Error: log domain error!".toList)
    else .ok (A.log x)
  else if fn = "sin".toList then .ok (A.sin x)
  else if fn = "cos".toList then .ok (A.cos x)
  else if fn = "tan".toList then .ok (A.tan x)
  else .error (.thrown ("Error: Unknown function '".toList ++ fn ++ "'!".toList))

/-- The global `std::map<char, int> precedence`, as its list of entries. -/
def precedence : List (Char × Int) :=
  [('+', 1), ('-', 1), ('*', 2), ('/', 2), ('^', 3)]

/-- The test `precedence.count(c) > 0`. -/
def precedenceCount (c : Char) : Bool :=
  (precedence.lookup c).isSome

/-- The value read by `precedence[c]`: the mapped level, or the
value-initialised `0` that `operator[]` returns for a missing key. -/
def precedenceAt (c : Char) : Int :=
  (precedence.lookup c).getD 0

/-- The loop of `checkParentheses`, from the counter `bal`. -/
def checkParenthesesFrom : Int → Str → Bool
  | bal, [] => bal == 0
  | bal, ch :: rest =>
    if ch = '(' then checkParenthesesFrom (bal + 1) rest
    else if ch = ')' then
      if bal - 1 < 0 then false else checkParenthesesFrom (bal - 1) rest
    else checkParenthesesFrom bal rest

/-- The function `checkParentheses(s)`: the loop from `bal = 0`. -/
def checkParentheses (s : Str) : Bool :=
  checkParenthesesFrom 0 s

/-- The `flush` lambda of `tokenize`: push the pending numeric text `cur`, if
there is any, onto `tokens` (the caller then continues with an empty `cur`). -/
def flush (cur : Str) (tokens : List Str) : List Str :=
  if cur.isEmpty then tokens else tokens ++ [cur]

/-- The `for` loop of `tokenize`. `eq` is the text from index `i` on and `prev`
is `eq[i - 1]` (`none` when `i == 0`); `cur` and `tokens` are the loop's
variables. Every iteration consumes at least one character. -/
def tokenizeFrom : Nat → Option Char → Str → Str → List Str → Option (List Str)
  | 0, _, _, _, _ => none
  | fuel + 1, prev, eq, cur, tokens =>
    match eq with
    | [] => some (flush cur tokens)
    | ch :: rest =>
      if isspace ch then tokenizeFrom fuel (some ch) rest cur tokens
      else if isalpha ch then
        tokenizeFrom fuel ((ch :: rest).takeWhile isalpha).getLast?
          ((ch :: rest).dropWhile isalpha) []
          (flush cur tokens ++ [(ch :: rest).takeWhile isalpha])
      else if isdigit ch || ch == '.' ||
          (ch == '-' && (prev == none || prev == some '(' ||
            (prev.map precedenceCount).getD false)) then
        tokenizeFrom fuel (some ch) rest (cur ++ [ch]) tokens
      else
        tokenizeFrom fuel (some ch) rest [] (flush cur tokens ++ [[ch]])

/-- The function `tokenize(eq)`: the loop from `i = 0` with empty `cur` and `tokens`. -/
def tokenize (eq : Str) : Option (List Str) :=
  tokenizeFrom (eq.length + 1) none eq [] []

/-- The loop of `tokenize` from a given position, with the fuel the rest of
the text calls for. -/
def lex (prev : Option Char) (eq cur : Str) (tokens : List Str) : Option (List Str) :=
  tokenizeFrom (eq.length + 1) prev eq cur tokens

/-- The character `tok[0]`; on an empty `std::string` this is the terminating `'\0'`. -/
def firstChar (tok : Str) : Char :=
  tok.headD (Char.ofNat 0)

/-- The test of the number-literal branch:
`isdigit(tok[0]) || (tok[0] == '-' && tok.size() > 1)`. -/
def isNumberToken (tok : Str) : Bool :=
  isdigit (firstChar tok) || (firstChar tok == '-' && decide (tok.length > 1))

/-- The test of the operator branch: `tok.size() == 1 && precedence.count(tok[0])`. -/
def isOperatorToken (tok : Str) : Bool :=
  decide (tok.length = 1) && precedenceCount (firstChar tok)

/-- The inner `while (!ops.empty())` loop of the operator branch, for the
incoming operator `op`; the stacks are lists with the top first. -/
def popWhile (A : FloatOps F) (op : Char) : List F → List Char → Except Fault (List F × List Char)
  | nums, [] => .ok (nums, [])
  | nums, top :: ops =>
    if (op = '^' ∧ precedenceAt op < precedenceAt top) ∨
        (op ≠ '^' ∧ precedenceAt op ≤ precedenceAt top) then
      match nums with
      | b :: a :: nums' =>
        match applyOperation A a b top with
        | .error e => .error e
        | .ok r => popWhile A op (r :: nums') ops
      | _ => .error .undefinedBehaviour
    else .ok (nums, top :: ops)

/-- The final `while (!ops.empty())` loop ("flush remaining ops"). -/
def drain (A : FloatOps F) : List F → List Char → Except Fault (List F)
  | nums, [] => .ok nums
  | nums, op :: ops =>
    match nums with
    | b :: a :: nums' =>
      match applyOperation A a b op with
      | .error e => .error e
      | .ok r => drain A (r :: nums') ops
    | _ => .error .undefinedBehaviour

/-- The end of `evaluateExpression`, after the main loop has stopped with the
cursor at `rest`: drain the operators, then return the top operand. -/
def finish (A : FloatOps F) (nums : List F) (ops : List Char) (rest : List Str) :
    Except Fault (F × List Str) :=
  match drain A nums ops with
  | .error e => .error e
  | .ok [] => .error (.thrown "Error: Empty expression!".toList)
  | .ok (v :: _) => .ok (v, rest)

/-- The main `while` loop of `evaluateExpression` followed by its end, from
the cursor `toks` (the tokens from `it` to `end`) and the stacks `nums`,
`ops`. The result is the returned value with the cursor the call leaves. -/
def evaluateExpressionFrom (A : FloatOps F) :
    Nat → List Str → List F → List Char → Option (Except Fault (F × List Str))
  | 0, _, _, _ => none
  | fuel + 1, toks, nums, ops =>
    match toks with
    | [] => some (finish A nums ops [])
    | tok :: rest =>
      if tok = [')'] then some (finish A nums ops rest)
      else if isalpha (firstChar tok) then
        match rest with
        | [] => some (.error (.thrown ("Error: Expected '(' after ".toList ++ tok)))
        | paren :: rest' =>
          if paren ≠ ['('] then
            some (.error (.thrown ("Error: Expected '(' after ".toList ++ tok)))
          else
            match evaluateExpressionFrom A fuel rest' [] [] with
            | none => none
            | some (.error e) => some (.error e)
            | some (.ok (arg, rest'')) =>
              match applyFunction A tok arg with
              | .error e => some (.error e)
              | .ok v => evaluateExpressionFrom A fuel rest'' (v :: nums) ops
      else if tok = ['('] then
        match evaluateExpressionFrom A fuel rest [] [] with
        | none => none
        | some (.error e) => some (.error e)
        | some (.ok (v, rest'')) => evaluateExpressionFrom A fuel rest'' (v :: nums) ops
      else if isNumberToken tok then
        match A.stod tok with
        | .error what => some (.error (.thrown what))
        | .ok v => evaluateExpressionFrom A fuel rest (v :: nums) ops
      else if isOperatorToken tok then
        match popWhile A (firstChar tok) nums ops with
        | .error e => some (.error e)
        | .ok (nums', ops') =>
          evaluateExpressionFrom A fuel rest nums' (firstChar tok :: ops')
      else some (.error (.thrown ("Error: Invalid token '".toList ++ tok ++ "'".toList)))

/-- The loop of `evaluateExpression` from a given cursor and stacks, with the
fuel the cursor calls for. -/
def run (A : FloatOps F) (toks : List Str) (nums : List F) (ops : List Char) :
    Option (Except Fault (F × List Str)) :=
  evaluateExpressionFrom A (toks.length + 1) toks nums ops

/-- What the loop does with the outcome `sub` of a recursive call: a fault
propagates; a value is passed through `f` (the identity for a parenthesis,
`applyFunction` for a call), pushed, and the loop goes on from the cursor the
call left. -/
def resume (A : FloatOps F) (nums : List F) (ops : List Char)
    (sub : Option (Except Fault (F × List Str))) (f : F → Except Fault F) :
    Option (Except Fault (F × List Str)) :=
  match sub with
  | none => none
  | some (.error e) => some (.error e)
  | some (.ok (arg, rest)) =>
    match f arg with
    | .error e => some (.error e)
    | .ok v => run A rest (v :: nums) ops

/-- The function `evaluateExpression(it, end)`: both stacks start empty. -/
def evaluateExpression (A : FloatOps F) (toks : List Str) :
    Option (Except Fault (F × List Str)) :=
  run A toks [] []

/-- The function `evaluate(tokens)`: the value of `evaluateExpression` from
`tokens.begin()`. -/
def evaluate (A : FloatOps F) (tokens : List Str) : Option (Except Fault F) :=
  (evaluateExpression A tokens).map (fun r => r.map Prod.fst)

/-- The `try` block shared by `argumentMode`, `InlineSingleMode`,
`InlineMultipleMode` and the `main` of `ConsoleCalculator.cpp`: the value that
is printed, or the fault that reaches the `catch`. -/
def argumentMode (A : FloatOps F) (arg : Str) : Option (Except Fault F) :=
  if !checkParentheses arg then
    some (.error (.thrown "Error: Mismatched parentheses.".toList))
  else
    match tokenize arg with
    | none => none
    | some tokens => evaluate A tokens

end Core

/-! ## A reference interpretation of the primitives

Exact rational arithmetic, used to run the calculator on concrete inputs. It
agrees with IEEE doubles wherever the double result is exact; the theorems
below are stated for every `FloatOps` and do not depend on it. -/

/-- The number written by a string of decimal digits. -/
def digitsValue (ds : Str) : Nat :=
  ds.foldl (fun n c => 10 * n + (c.toNat - 48)) 0

/-- The unsigned part of a decimal literal: its longest prefix of the form
`digits`, `digits.digits` or `.digits`; `none` when that prefix has no digit. -/
def decimalPrefix (s : Str) : Option ℚ :=
  let ip := s.takeWhile isdigit
  let fp := match s.dropWhile isdigit with
    | '.' :: t => t.takeWhile isdigit
    | _ => []
  if ip.isEmpty && fp.isEmpty then none
  else some ((digitsValue ip : ℚ) + (digitsValue fp : ℚ) / (10 : ℚ) ^ fp.length)

/-- The conversion `std::stod` performs on plain decimal text: an optional sign,
then the longest decimal prefix. Without a digit it throws
`std::invalid_argument`, whose `what()` is `"stod"` in libstdc++. Exponents,
hexadecimal text, `inf`/`nan` and range errors are outside this interpretation. -/
def stodDecimal (s : Str) : Except Str ℚ :=
  match s with
  | '-' :: t => match decimalPrefix t with
    | some q => .ok (-q)
    | none => .error "stod".toList
  | '+' :: t => match decimalPrefix t with
    | some q => .ok q
    | none => .error "stod".toList
  | _ => match decimalPrefix s with
    | some q => .ok q
    | none => .error "stod".toList

/-- The exact square root of a natural number that is a perfect square. -/
def exactSqrt (n : Nat) : Option Nat :=
  (List.range (n + 1)).find? (fun r => r * r == n)

/-- Exact rational arithmetic as a `FloatOps`. `pow` is exact for integer
exponents (with a nonzero base when the exponent is negative) and `sqrt` for
squares of rationals; `log`, `sin`, `cos`, `tan` are exact at the one rational
argument where their value is rational. At every other argument the value is
a fixed stand-in (`0`). -/
def exactOps : FloatOps ℚ where
  add a b := a + b
  sub a b := a - b
  mul a b := a * b
  div a b := a / b
  pow a b := if b.den = 1 then a ^ b.num else 0
  sqrt x :=
    if 0 ≤ x.num then
      match exactSqrt x.num.toNat, exactSqrt x.den with
      | some n, some d => (n : ℚ) / (d : ℚ)
      | _, _ => 0
    else 0
  log _ := 0
  sin _ := 0
  cos x := if x = 0 then 1 else 0
  tan _ := 0
  isZero b := decide (b = 0)
  leZero x := decide (x ≤ 0)
  stod := stodDecimal

/-! ## The grammar of the specification -/

section Grammar

variable {F : Type}

/-- The nonterminals of the expression grammar. -/
inductive Level where
  | expr
  | term
  | factor
  | atom
  deriving DecidableEq

/-- The function names of the grammar. -/
def functionNames : List Str :=
  ["sqrt".toList, "log".toList, "ln".toList, "sin".toList, "cos".toList, "tan".toList]

/-- The grammar of the specification, with the value it assigns:
`Derives A L ts v` says that the token sequence `ts` is derived from the
nonterminal `L` and that its value is `v`, every leaf being computed by
`applyOperation` / `applyFunction` without failing.

* `expr := term (('+'|'-') term)*`, grouped to the left;
* `term := factor (('*'|'/') factor)*`, grouped to the left;
* `factor := atom ('^' factor)?`, so `^` groups to the right;
* `atom := number | '(' expr ')' | fname '(' expr ')'`.

A `number` is a token the evaluator takes as a numeric literal and that
`std::stod` converts. -/
inductive Derives (A : FloatOps F) : Level → List Str → F → Prop where
  | number (tok : Str) (v : F) :
      isNumberToken tok = true → A.stod tok = .ok v → Derives A .atom [tok] v
  | paren (ts : List Str) (v : F) :
      Derives A .expr ts v → Derives A .atom (['('] :: (ts ++ [[')']])) v
  | call (fn : Str) (ts : List Str) (x v : F) :
      fn ∈ functionNames → Derives A .expr ts x → applyFunction A fn x = .ok v →
      Derives A .atom (fn :: ['('] :: (ts ++ [[')']])) v
  | ofAtom (ts : List Str) (v : F) :
      Derives A .atom ts v → Derives A .factor ts v
  | power (ts us : List Str) (a b v : F) :
      Derives A .atom ts a → Derives A .factor us b → applyOperation A a b '^' = .ok v →
      Derives A .factor (ts ++ [['^']] ++ us) v
  | ofFactor (ts : List Str) (v : F) :
      Derives A .factor ts v → Derives A .term ts v
  | product (op : Char) (ts us : List Str) (a b v : F) :
      op = '*' ∨ op = '/' → Derives A .term ts a → Derives A .factor us b →
      applyOperation A a b op = .ok v → Derives A .term (ts ++ [[op]] ++ us) v
  | ofTerm (ts : List Str) (v : F) :
      Derives A .term ts v → Derives A .expr ts v
  | sum (op : Char) (ts us : List Str) (a b v : F) :
      op = '+' ∨ op = '-' → Derives A .expr ts a → Derives A .term us b →
      applyOperation A a b op = .ok v → Derives A .expr (ts ++ [[op]] ++ us) v

/-- The tokens that may follow a phrase of level `L` without regrouping it:
the end of the input, a `)`, or an operator that binds no tighter than `L`. -/
def mayFollow (L : Level) (rest : List Str) : Prop :=
  match rest with
  | [] => True
  | t :: _ =>
    t = [')'] ∨ t = ['+'] ∨ t = ['-'] ∨
      (L ≠ .expr ∧ (t = ['*'] ∨ t = ['/'])) ∨ (L = .atom ∧ t = ['^'])

/-- The operator stacks on which a phrase of level `L` may start: an `expr`
starts a call (empty stack), a `term` follows `+` or `-` or starts a call. -/
def mayPrecede (L : Level) (ops : List Char) : Prop :=
  match L with
  | .expr => ops = []
  | .term => ops = [] ∨ ∃ o, (∃ t, ops = o :: t) ∧ (o = '+' ∨ o = '-')
  | _ => True

end Grammar

/-! ## Literals of the input text -/

/-- A non-empty text of digits and `.` characters: what the lexer
accumulates into one numeric token. -/
def numericText (s : Str) : Bool :=
  !s.isEmpty && s.all (fun c => isdigit c || c == '.')

/-- An unsigned numeric literal: a text of digits and `.` characters that
starts with a digit (`10`, `3.25`). -/
def unsignedLiteral (s : Str) : Bool :=
  isdigit (firstChar s) && s.all (fun c => isdigit c || c == '.')

/-- An unsigned decimal literal of digits only: a non-empty digit string. -/
def digitString (s : Str) : Bool :=
  !s.isEmpty && s.all isdigit

/-- A numeric literal: an unsigned one, or `-` followed by a numeric text. -/
def numericLiteral (s : Str) : Bool :=
  unsignedLiteral s ||
    match s with
    | '-' :: body => numericText body
    | _ => false

/-- An alphabetic name: a non-empty string of letters. -/
def alphabetic (s : Str) : Bool :=
  !s.isEmpty && s.all isalpha

deriving instance DecidableEq for Except

/-! ## Auxiliary notions for the later properties -/

/-- The lookback test of the lexer on the character before a `-`: true at the
start of the input, after `(` and after an operator character, where the `-`
is a sign. -/
def signContext (prev : Option Char) : Bool :=
  prev == none || prev == some '(' || (prev.map precedenceCount).getD false



section LoopStates

variable {F : Type}

/-- One pass through the body of the main `while` loop of `evaluateExpression`,
at the token `tok` (which is not `)`) followed by `rest`, with `recur` for the
recursive call `evaluateExpression(it, end)`. It returns the cursor and the
two stacks at the `continue`, or the fault that ends the call. -/
def iteration (A : FloatOps F) (recur : List Str → Option (Except Fault (F × List Str)))
    (tok : Str) (rest : List Str) (nums : List F) (ops : List Char) :
    Option (Except Fault (List Str × List F × List Char)) :=
  if isalpha (firstChar tok) then
    match rest with
    | [] => some (.error (.thrown ("Error: Expected '(' after ".toList ++ tok)))
    | paren :: rest' =>
      if paren ≠ ['('] then
        some (.error (.thrown ("Error: Expected '(' after ".toList ++ tok)))
      else
        match recur rest' with
        | none => none
        | some (.error e) => some (.error e)
        | some (.ok (arg, rest'')) =>
          match applyFunction A tok arg with
          | .error e => some (.error e)
          | .ok v => some (.ok (rest'', v :: nums, ops))
  else if tok = ['('] then
    match recur rest with
    | none => none
    | some (.error e) => some (.error e)
    | some (.ok (v, rest'')) => some (.ok (rest'', v :: nums, ops))
  else if isNumberToken tok then
    match A.stod tok with
    | .error what => some (.error (.thrown what))
    | .ok v => some (.ok (rest, v :: nums, ops))
  else if isOperatorToken tok then
    match popWhile A (firstChar tok) nums ops with
    | .error e => some (.error e)
    | .ok (nums', ops') => some (.ok (rest, nums', firstChar tok :: ops'))
  else some (.error (.thrown ("Error: Invalid token '".toList ++ tok ++ "'".toList)))

/-- The states of the main loop of one call: `Reaches A toks nums ops c n o`
says that the loop, started at the cursor `toks` with the stacks `nums` and
`ops`, is at the top of an iteration with the cursor `c` and the stacks `n`
and `o` after some number of passes through its body. -/
inductive Reaches (A : FloatOps F) :
    List Str → List F → List Char → List Str → List F → List Char → Prop where
  | start (toks : List Str) (nums : List F) (ops : List Char) :
      Reaches A toks nums ops toks nums ops
  | pass (tok : Str) (rest : List Str) (nums : List F) (ops : List Char)
      (c : List Str) (n : List F) (o : List Char)
      (c' : List Str) (n' : List F) (o' : List Char) :
      tok ≠ [')'] →
      iteration A (evaluateExpression A) tok rest nums ops = some (.ok (c, n, o)) →
      Reaches A c n o c' n' o' →
      Reaches A (tok :: rest) nums ops c' n' o'

/-- The cursor at which the main loop stops: the end of the tokens or a `)`. -/
def loopStops (c : List Str) : Bool :=
  match c with
  | [] => true
  | tok :: _ => tok == [')']

/-- The order of the operator stack, read from the top: each operator has a
precedence at least that of the one below it, and the same precedence only
when both are `^`. -/
def stackOrdered (ops : List Char) : Prop :=
  List.Chain' (fun top below => precedenceAt below ≤ precedenceAt top ∧
    (precedenceAt below = precedenceAt top → below = '^' ∧ top = '^')) ops

end LoopStates




/-- The tokens the specification calls valid: numeric literals, the operators
`+ - * / ^`, parentheses, and the known function names, each followed by `(`. -/
def validTokens : List Str → Bool
  | [] => true
  | tok :: rest =>
    (if tok ∈ functionNames then rest.head? == some ['(']
      else numericLiteral tok || isOperatorToken tok || tok == ['('] || tok == [')']) &&
      validTokens rest


/-- The tokens after the `)` that closes nesting depth `d`: the rest of `ts`
after its first `)` that is not matched by a `(` inside `ts` (for `d = 0`), or
after `d` more such tokens; the empty list when there is none. -/
def afterClose : Nat → List Str → List Str
  | _, [] => []
  | d, t :: ts =>
    if t = ['('] then afterClose (d + 1) ts
    else if t = [')'] then
      match d with
      | 0 => ts
      | d' + 1 => afterClose d' ts
    else afterClose d ts


section PrecedenceState

variable {F : Type}

/-- A state of the global `std::map<char, int> precedence`: its entries. -/
abbrev PrecedenceMap := List (Char × Int)

/-- The test `m.count(c) > 0` on a state of the map. -/
def mapCount (m : PrecedenceMap) (c : Char) : Bool :=
  (m.lookup c).isSome

/-- The lookup `m[c]` on a state of the map: the value read and the state it
leaves. `operator[]` inserts a value-initialised entry for a missing key. -/
def mapIndex (m : PrecedenceMap) (c : Char) : Int × PrecedenceMap :=
  match m.lookup c with
  | some v => (v, m)
  | none => (0, m ++ [(c, 0)])

/-- The loop of `tokenize` on a state `m` of the map, which it only reads
(`count` is a `const` member). -/
def tokenizeOn (m : PrecedenceMap) :
    Nat → Option Char → Str → Str → List Str → Option (List Str)
  | 0, _, _, _, _ => none
  | fuel + 1, prev, eq, cur, tokens =>
    match eq with
    | [] => some (flush cur tokens)
    | ch :: rest =>
      if isspace ch then tokenizeOn m fuel (some ch) rest cur tokens
      else if isalpha ch then
        tokenizeOn m fuel ((ch :: rest).takeWhile isalpha).getLast?
          ((ch :: rest).dropWhile isalpha) []
          (flush cur tokens ++ [(ch :: rest).takeWhile isalpha])
      else if isdigit ch || ch == '.' ||
          (ch == '-' && (prev == none || prev == some '(' ||
            (prev.map (mapCount m)).getD false)) then
        tokenizeOn m fuel (some ch) rest (cur ++ [ch]) tokens
      else
        tokenizeOn m fuel (some ch) rest [] (flush cur tokens ++ [[ch]])

/-- The pop loop of the operator branch on a state of the map: each pass
reads `precedence[op]` and then `precedence[top]`. The result comes with the
state the loop leaves, also when it ends in a fault. -/
def popWhileOn (A : FloatOps F) (op : Char) :
    PrecedenceMap → List F → List Char → Except Fault (List F × List Char) × PrecedenceMap
  | m, nums, [] => (.ok (nums, []), m)
  | m, nums, top :: ops =>
    if (op = '^' ∧ (mapIndex m op).1 < (mapIndex (mapIndex m op).2 top).1) ∨
        (op ≠ '^' ∧ (mapIndex m op).1 ≤ (mapIndex (mapIndex m op).2 top).1) then
      match nums with
      | b :: a :: nums' =>
        match applyOperation A a b top with
        | .error e => (.error e, (mapIndex (mapIndex m op).2 top).2)
        | .ok r => popWhileOn A op (mapIndex (mapIndex m op).2 top).2 (r :: nums') ops
      | _ => (.error .undefinedBehaviour, (mapIndex (mapIndex m op).2 top).2)
    else (.ok (nums, top :: ops), (mapIndex (mapIndex m op).2 top).2)

/-- The loop and the end of `evaluateExpression` on a state of the map: the
outcome of the call with the state of the map it leaves. -/
def evaluateExpressionOn (A : FloatOps F) :
    Nat → PrecedenceMap → List Str → List F → List Char →
      Option (Except Fault (F × List Str) × PrecedenceMap)
  | 0, _, _, _, _ => none
  | fuel + 1, m, toks, nums, ops =>
    match toks with
    | [] => some (finish A nums ops [], m)
    | tok :: rest =>
      if tok = [')'] then some (finish A nums ops rest, m)
      else if isalpha (firstChar tok) then
        match rest with
        | [] => some (.error (.thrown ("Error: Expected '(' after ".toList ++ tok)), m)
        | paren :: rest' =>
          if paren ≠ ['('] then
            some (.error (.thrown ("Error: Expected '(' after ".toList ++ tok)), m)
          else
            match evaluateExpressionOn A fuel m rest' [] [] with
            | none => none
            | some (.error e, m') => some (.error e, m')
            | some (.ok (arg, rest''), m') =>
              match applyFunction A tok arg with
              | .error e => some (.error e, m')
              | .ok v => evaluateExpressionOn A fuel m' rest'' (v :: nums) ops
      else if tok = ['('] then
        match evaluateExpressionOn A fuel m rest [] [] with
        | none => none
        | some (.error e, m') => some (.error e, m')
        | some (.ok (v, rest''), m') => evaluateExpressionOn A fuel m' rest'' (v :: nums) ops
      else if isNumberToken tok then
        match A.stod tok with
        | .error what => some (.error (.thrown what), m)
        | .ok v => evaluateExpressionOn A fuel m rest (v :: nums) ops
      else if decide (tok.length = 1) && mapCount m (firstChar tok) then
        match popWhileOn A (firstChar tok) m nums ops with
        | (.error e, m') => some (.error e, m')
        | (.ok (nums', ops'), m') =>
          evaluateExpressionOn A fuel m' rest nums' (firstChar tok :: ops')
      else some (.error (.thrown ("Error: Invalid token '".toList ++ tok ++ "'".toList)), m)

/-- The `try` block on a state of the map: the value printed or the fault
caught, with the state of the map the evaluation leaves. -/
def argumentModeOn (A : FloatOps F) (m : PrecedenceMap) (arg : Str) :
    Option (Except Fault F × PrecedenceMap) :=
  if !checkParentheses arg then
    some (.error (.thrown "Error: Mismatched parentheses.".toList), m)
  else
    match tokenizeOn m (arg.length + 1) none arg [] [] with
    | none => none
    | some tokens =>
      match evaluateExpressionOn A (tokens.length + 1) m tokens [] [] with
      | none => none
      | some (r, m') => some (r.map Prod.fst, m')

/-- Two evaluations of the same line in succession, the first from the map as
initialised and the second from the map the first one leaves: the two
outcomes and the state of the map after each. -/
def evaluateTwice (A : FloatOps F) (arg : Str) :
    Option ((Except Fault F × PrecedenceMap) × (Except Fault F × PrecedenceMap)) :=
  match argumentModeOn A precedence arg with
  | none => none
  | some first =>
    match argumentModeOn A first.2 arg with
    | none => none
    | some second => some (first, second)

end PrecedenceState


/-! ## The evaluator: cursor, fuel and the unfolding of its loop -/

section Lemmas

variable {F : Type}

theorem finish_ok_rest (A : FloatOps F) (nums : List F) (ops : List Char) (r rest : List Str)
    (v : F) (h : finish A nums ops r = .ok (v, rest)) : rest = r := by
  unfold finish at h
  split at h
  · cases h
  · cases h
  · injection h with h
    injection h with _ h
    exact h.symm

/-- A call that returns leaves the cursor at a suffix of where it started. -/
theorem evaluateExpressionFrom_suffix (A : FloatOps F) :
    ∀ (fuel : Nat) (toks : List Str) (nums : List F) (ops : List Char) (v : F)
      (rest : List Str),
      evaluateExpressionFrom A fuel toks nums ops = some (.ok (v, rest)) → rest <:+ toks := by
  intro fuel
  induction fuel with
  | zero => intro toks nums ops v rest h; simp [evaluateExpressionFrom] at h
  | succ fuel ih =>
    intro toks nums ops v rest h
    cases toks with
    | nil =>
      simp only [evaluateExpressionFrom, Option.some.injEq] at h
      rw [finish_ok_rest A _ _ _ _ _ h]
    | cons tok rest0 =>
      simp only [evaluateExpressionFrom] at h
      split at h
      · simp only [Option.some.injEq] at h
        rw [finish_ok_rest A _ _ _ _ _ h]
        exact List.suffix_cons _ _
      · split at h
        · split at h
          · simp at h
          · split at h
            · simp at h
            · split at h
              · simp at h
              · simp at h
              · next arg rest2 hsub =>
                split at h
                · simp at h
                · have h1 := ih _ _ _ _ _ hsub
                  have h2 := ih _ _ _ _ _ h
                  exact (h2.trans h1).trans ((List.suffix_cons _ _).trans (List.suffix_cons _ _))
        · split at h
          · split at h
            · simp at h
            · simp at h
            · next w rest2 hsub =>
              have h1 := ih _ _ _ _ _ hsub
              have h2 := ih _ _ _ _ _ h
              exact (h2.trans h1).trans (List.suffix_cons _ _)
          · split at h
            · split at h
              · simp at h
              · exact (ih _ _ _ _ _ h).trans (List.suffix_cons _ _)
            · split at h
              · split at h
                · simp at h
                · exact (ih _ _ _ _ _ h).trans (List.suffix_cons _ _)
              · simp at h

theorem evaluateExpressionFrom_length (A : FloatOps F) (fuel : Nat) (toks : List Str)
    (nums : List F) (ops : List Char) (v : F) (rest : List Str)
    (h : evaluateExpressionFrom A fuel toks nums ops = some (.ok (v, rest))) :
    rest.length ≤ toks.length :=
  (evaluateExpressionFrom_suffix A fuel toks nums ops v rest h).length_le

/-- Any two amounts of fuel above the number of tokens give the same result. -/
theorem evaluateExpressionFrom_fuel (A : FloatOps F) :
    ∀ (f₁ f₂ : Nat) (toks : List Str) (nums : List F) (ops : List Char),
      toks.length < f₁ → toks.length < f₂ →
      evaluateExpressionFrom A f₁ toks nums ops = evaluateExpressionFrom A f₂ toks nums ops := by
  intro f₁
  induction f₁ with
  | zero => intro f₂ toks nums ops h; omega
  | succ f₁ ih =>
    intro f₂ toks nums ops h₁ h₂
    cases f₂ with
    | zero => omega
    | succ f₂ =>
      cases toks with
      | nil => simp only [evaluateExpressionFrom]
      | cons tok rest0 =>
        simp only [List.length_cons] at h₁ h₂
        simp only [evaluateExpressionFrom]
        split
        · rfl
        · split
          · cases rest0 with
            | nil => rfl
            | cons paren rest1 =>
              simp only [List.length_cons] at h₁ h₂
              simp only []
              split
              · rfl
              · rw [ih f₂ rest1 [] [] (by omega) (by omega)]
                cases hsub : evaluateExpressionFrom A f₂ rest1 [] [] with
                | none => rfl
                | some r =>
                  cases r with
                  | error e => rfl
                  | ok p =>
                    obtain ⟨arg, rest2⟩ := p
                    have hl := evaluateExpressionFrom_length A _ _ _ _ _ _ hsub
                    simp only []
                    cases applyFunction A tok arg with
                    | error e => rfl
                    | ok w => exact ih f₂ rest2 _ _ (by omega) (by omega)
          · split
            · rw [ih f₂ rest0 [] [] (by omega) (by omega)]
              cases hsub : evaluateExpressionFrom A f₂ rest0 [] [] with
              | none => rfl
              | some r =>
                cases r with
                | error e => rfl
                | ok p =>
                  obtain ⟨w, rest2⟩ := p
                  have hl := evaluateExpressionFrom_length A _ _ _ _ _ _ hsub
                  exact ih f₂ rest2 _ _ (by omega) (by omega)
            · split
              · cases A.stod tok with
                | error e => rfl
                | ok w => exact ih f₂ rest0 _ _ (by omega) (by omega)
              · split
                · cases popWhile A (firstChar tok) nums ops with
                  | error e => rfl
                  | ok p => exact ih f₂ rest0 _ _ (by omega) (by omega)
                · rfl

/-- With more fuel than tokens the evaluator returns or fails: it does not
run out of fuel. -/
theorem evaluateExpressionFrom_isSome (A : FloatOps F) :
    ∀ (fuel : Nat) (toks : List Str) (nums : List F) (ops : List Char),
      toks.length < fuel → (evaluateExpressionFrom A fuel toks nums ops).isSome = true := by
  intro fuel
  induction fuel with
  | zero => intro toks nums ops h; omega
  | succ fuel ih =>
    intro toks nums ops h
    cases toks with
    | nil => rfl
    | cons tok rest0 =>
      simp only [List.length_cons] at h
      simp only [evaluateExpressionFrom]
      split
      · rfl
      · split
        · cases rest0 with
          | nil => rfl
          | cons paren rest1 =>
            simp only [List.length_cons] at h
            simp only []
            split
            · rfl
            · have hsome := ih rest1 [] [] (by omega)
              cases hsub : evaluateExpressionFrom A fuel rest1 [] [] with
              | none => rw [hsub] at hsome; cases hsome
              | some r =>
                cases r with
                | error e => rfl
                | ok p =>
                  obtain ⟨arg, rest2⟩ := p
                  have hl := evaluateExpressionFrom_length A _ _ _ _ _ _ hsub
                  simp only []
                  cases applyFunction A tok arg with
                  | error e => rfl
                  | ok w => exact ih rest2 _ _ (by omega)
        · split
          · have hsome := ih rest0 [] [] (by omega)
            cases hsub : evaluateExpressionFrom A fuel rest0 [] [] with
            | none => rw [hsub] at hsome; cases hsome
            | some r =>
              cases r with
              | error e => rfl
              | ok p =>
                obtain ⟨w, rest2⟩ := p
                have hl := evaluateExpressionFrom_length A _ _ _ _ _ _ hsub
                exact ih rest2 _ _ (by omega)
          · split
            · cases A.stod tok with
              | error e => rfl
              | ok w => exact ih rest0 _ _ (by omega)
            · split
              · cases popWhile A (firstChar tok) nums ops with
                | error e => rfl
                | ok p => exact ih rest0 _ _ (by omega)
              · rfl

end Lemmas

section RunLemmas

variable {F : Type}

theorem run_eq_of_fuel (A : FloatOps F) (fuel : Nat) (toks : List Str) (nums : List F)
    (ops : List Char) (h : toks.length < fuel) :
    evaluateExpressionFrom A fuel toks nums ops = run A toks nums ops :=
  evaluateExpressionFrom_fuel A fuel (toks.length + 1) toks nums ops h (Nat.lt_succ_self _)

theorem evaluateExpressionFrom_cons (A : FloatOps F) (fuel : Nat) (tok : Str)
    (rest : List Str) (nums : List F) (ops : List Char) :
    evaluateExpressionFrom A (fuel + 1) (tok :: rest) nums ops =
      if tok = [')'] then some (finish A nums ops rest)
      else if isalpha (firstChar tok) then
        match rest with
        | [] => some (.error (.thrown ("Error: Expected '(' after ".toList ++ tok)))
        | paren :: rest' =>
          if paren ≠ ['('] then
            some (.error (.thrown ("Error: Expected '(' after ".toList ++ tok)))
          else
            match evaluateExpressionFrom A fuel rest' [] [] with
            | none => none
            | some (.error e) => some (.error e)
            | some (.ok (arg, rest'')) =>
              match applyFunction A tok arg with
              | .error e => some (.error e)
              | .ok v => evaluateExpressionFrom A fuel rest'' (v :: nums) ops
      else if tok = ['('] then
        match evaluateExpressionFrom A fuel rest [] [] with
        | none => none
        | some (.error e) => some (.error e)
        | some (.ok (v, rest'')) => evaluateExpressionFrom A fuel rest'' (v :: nums) ops
      else if isNumberToken tok then
        match A.stod tok with
        | .error what => some (.error (.thrown what))
        | .ok v => evaluateExpressionFrom A fuel rest (v :: nums) ops
      else if isOperatorToken tok then
        match popWhile A (firstChar tok) nums ops with
        | .error e => some (.error e)
        | .ok (nums', ops') =>
          evaluateExpressionFrom A fuel rest nums' (firstChar tok :: ops')
      else some (.error (.thrown ("Error: Invalid token '".toList ++ tok ++ "'".toList))) := by
  rfl

theorem run_nil (A : FloatOps F) (nums : List F) (ops : List Char) :
    run A [] nums ops = some (finish A nums ops []) := by
  simp [run, evaluateExpressionFrom]

theorem run_close (A : FloatOps F) (rest : List Str) (nums : List F) (ops : List Char) :
    run A ([')'] :: rest) nums ops = some (finish A nums ops rest) := by
  simp [run, evaluateExpressionFrom]

theorem firstChar_cons (c : Char) (t : Str) : firstChar (c :: t) = c := rfl

theorem isNumberToken_shape {tok : Str} (h : isNumberToken tok = true) :
    tok ≠ [')'] ∧ isalpha (firstChar tok) = false ∧ tok ≠ ['('] := by
  cases tok with
  | nil => simp [isNumberToken, firstChar, isdigit] at h
  | cons c t =>
    simp only [isNumberToken, firstChar_cons, Bool.or_eq_true, Bool.and_eq_true, beq_iff_eq,
      decide_eq_true_eq] at h
    have hc : isdigit c = true ∨ c = '-' := h.imp id (fun h => h.1)
    refine ⟨?_, ?_, ?_⟩
    · intro hEq
      injection hEq with h1 h2
      subst h1
      rcases hc with hc | hc
      · revert hc; decide
      · revert hc; decide
    · rw [firstChar_cons]
      rcases hc with hc | hc
      · simp only [isdigit, Bool.and_eq_true, decide_eq_true_eq] at hc
        simp only [isalpha, Bool.or_eq_false_iff, Bool.and_eq_false_iff, decide_eq_false_iff_not]
        omega
      · subst hc; decide
    · intro hEq
      injection hEq with h1 h2
      subst h1
      rcases hc with hc | hc
      · revert hc; decide
      · revert hc; decide

theorem run_number (A : FloatOps F) (tok : Str) (rest : List Str) (nums : List F)
    (ops : List Char) (h : isNumberToken tok = true) :
    run A (tok :: rest) nums ops =
      match A.stod tok with
      | .error what => some (.error (.thrown what))
      | .ok v => run A rest (v :: nums) ops := by
  obtain ⟨h1, h2, h3⟩ := isNumberToken_shape h
  rw [run, List.length_cons, evaluateExpressionFrom_cons]
  simp only [if_neg h1, h2, if_neg h3, h, if_true, Bool.false_eq_true, if_false]
  rfl

theorem isOperatorToken_shape {tok : Str} (h : isOperatorToken tok = true) :
    tok = [firstChar tok] ∧ precedenceCount (firstChar tok) = true := by
  cases tok with
  | nil => simp [isOperatorToken] at h
  | cons c t =>
    cases t with
    | nil => simpa [isOperatorToken, firstChar_cons] using h
    | cons d t => simp [isOperatorToken] at h

theorem precedenceCount_iff (c : Char) :
    precedenceCount c = true ↔ c = '+' ∨ c = '-' ∨ c = '*' ∨ c = '/' ∨ c = '^' := by
  unfold precedenceCount precedence
  simp only [List.lookup]
  by_cases h1 : c = '+'
  · subst h1; decide
  by_cases h2 : c = '-'
  · subst h2; decide
  by_cases h3 : c = '*'
  · subst h3; decide
  by_cases h4 : c = '/'
  · subst h4; decide
  by_cases h5 : c = '^'
  · subst h5; decide
  simp [h1, h2, h3, h4, h5, beq_eq_false_iff_ne.2 h1, beq_eq_false_iff_ne.2 h2,
    beq_eq_false_iff_ne.2 h3, beq_eq_false_iff_ne.2 h4, beq_eq_false_iff_ne.2 h5]

theorem run_operator (A : FloatOps F) (op : Char) (rest : List Str) (nums : List F)
    (ops : List Char) (h : precedenceCount op = true) :
    run A ([op] :: rest) nums ops =
      match popWhile A op nums ops with
      | .error e => some (.error e)
      | .ok (nums', ops') => run A rest nums' (op :: ops') := by
  have hop := (precedenceCount_iff op).1 h
  have h1 : ([op] : Str) ≠ [')'] := by
    intro hEq; injection hEq with hEq _; subst hEq; revert h; decide
  have h2 : isalpha op = false := by
    rcases hop with rfl | rfl | rfl | rfl | rfl <;> decide
  have h3 : ([op] : Str) ≠ ['('] := by
    intro hEq; injection hEq with hEq _; subst hEq; revert h; decide
  have h4 : isNumberToken [op] = false := by
    rcases hop with rfl | rfl | rfl | rfl | rfl <;> decide
  have h5 : isOperatorToken [op] = true := by
    simp [isOperatorToken, firstChar_cons, h]
  rw [run, List.length_cons, evaluateExpressionFrom_cons]
  simp only [if_neg h1, firstChar_cons, h2, if_neg h3, h4, h5, if_true, Bool.false_eq_true,
    if_false]
  rfl

theorem run_paren (A : FloatOps F) (rest : List Str) (nums : List F) (ops : List Char) :
    run A (['('] :: rest) nums ops =
      resume A nums ops (run A rest [] []) (fun v => .ok v) := by
  have h1 : (['('] : Str) ≠ [')'] := by decide
  have h2 : isalpha (firstChar ['(']) = false := by decide
  rw [run, List.length_cons, evaluateExpressionFrom_cons]
  simp only [if_neg h1, h2, if_true, Bool.false_eq_true, if_false, resume, run]
  cases hsub : evaluateExpressionFrom A (rest.length + 1) rest [] [] with
  | none => rfl
  | some r =>
    cases r with
    | error e => rfl
    | ok p =>
      obtain ⟨w, rest2⟩ := p
      have hl := evaluateExpressionFrom_length A _ _ _ _ _ _ hsub
      exact evaluateExpressionFrom_fuel A _ _ rest2 _ _ (by omega) (by omega)

theorem run_call (A : FloatOps F) (fn : Str) (rest : List Str) (nums : List F)
    (ops : List Char) (h : isalpha (firstChar fn) = true) :
    run A (fn :: ['('] :: rest) nums ops =
      resume A nums ops (run A rest [] []) (applyFunction A fn) := by
  have h1 : fn ≠ [')'] := by
    intro hEq; subst hEq; revert h; decide
  rw [run, List.length_cons, List.length_cons, evaluateExpressionFrom_cons]
  simp only [if_neg h1, h, if_true, resume, run, ne_eq, not_true_eq_false, if_false]
  rw [evaluateExpressionFrom_fuel A (rest.length + 1 + 1) (rest.length + 1) rest [] []
    (by omega) (by omega)]
  cases hsub : evaluateExpressionFrom A (rest.length + 1) rest [] [] with
  | none => rfl
  | some r =>
    cases r with
    | error e => rfl
    | ok p =>
      obtain ⟨arg, rest2⟩ := p
      have hl := evaluateExpressionFrom_length A _ _ _ _ _ _ hsub
      simp only []
      cases applyFunction A fn arg with
      | error e => rfl
      | ok w => exact evaluateExpressionFrom_fuel A _ _ rest2 _ _ (by omega) (by omega)

end RunLemmas

/-! ## The lexer: fuel and the unfolding of its loop -/

section LexLemmas

theorem dropWhile_length_le (p : Char → Bool) (s : Str) : (s.dropWhile p).length ≤ s.length :=
  (List.dropWhile_suffix p).length_le

theorem tokenizeFrom_cons (fuel : Nat) (prev : Option Char) (ch : Char) (rest cur : Str)
    (tokens : List Str) :
    tokenizeFrom (fuel + 1) prev (ch :: rest) cur tokens =
      if isspace ch then tokenizeFrom fuel (some ch) rest cur tokens
      else if isalpha ch then
        tokenizeFrom fuel ((ch :: rest).takeWhile isalpha).getLast?
          ((ch :: rest).dropWhile isalpha) []
          (flush cur tokens ++ [(ch :: rest).takeWhile isalpha])
      else if isdigit ch || ch == '.' ||
          (ch == '-' && (prev == none || prev == some '(' ||
            (prev.map precedenceCount).getD false)) then
        tokenizeFrom fuel (some ch) rest (cur ++ [ch]) tokens
      else
        tokenizeFrom fuel (some ch) rest [] (flush cur tokens ++ [[ch]]) := by
  rfl

theorem dropWhile_alpha_length {ch : Char} (rest : Str) (h : isalpha ch = true) :
    ((ch :: rest).dropWhile isalpha).length ≤ rest.length := by
  rw [List.dropWhile_cons_of_pos h]
  exact dropWhile_length_le _ _

/-- Any two amounts of fuel above the length of the text give the same tokens. -/
theorem tokenizeFrom_fuel :
    ∀ (f₁ f₂ : Nat) (prev : Option Char) (eq cur : Str) (tokens : List Str),
      eq.length < f₁ → eq.length < f₂ →
      tokenizeFrom f₁ prev eq cur tokens = tokenizeFrom f₂ prev eq cur tokens := by
  intro f₁
  induction f₁ with
  | zero => intro f₂ prev eq cur tokens h; omega
  | succ f₁ ih =>
    intro f₂ prev eq cur tokens h₁ h₂
    cases f₂ with
    | zero => omega
    | succ f₂ =>
      cases eq with
      | nil => rfl
      | cons ch rest =>
        simp only [List.length_cons] at h₁ h₂
        rw [tokenizeFrom_cons, tokenizeFrom_cons]
        split
        · exact ih _ _ _ _ _ (by omega) (by omega)
        · split
          · next hα =>
            have := dropWhile_alpha_length rest hα
            exact ih _ _ _ _ _ (by omega) (by omega)
          · split
            · exact ih _ _ _ _ _ (by omega) (by omega)
            · exact ih _ _ _ _ _ (by omega) (by omega)

/-- With more fuel than characters the lexer returns. -/
theorem tokenizeFrom_isSome :
    ∀ (fuel : Nat) (prev : Option Char) (eq cur : Str) (tokens : List Str),
      eq.length < fuel → (tokenizeFrom fuel prev eq cur tokens).isSome = true := by
  intro fuel
  induction fuel with
  | zero => intro prev eq cur tokens h; omega
  | succ fuel ih =>
    intro prev eq cur tokens h
    cases eq with
    | nil => rfl
    | cons ch rest =>
      simp only [List.length_cons] at h
      rw [tokenizeFrom_cons]
      split
      · exact ih _ _ _ _ (by omega)
      · split
        · next hα =>
          have := dropWhile_alpha_length rest hα
          exact ih _ _ _ _ (by omega)
        · split
          · exact ih _ _ _ _ (by omega)
          · exact ih _ _ _ _ (by omega)

theorem lex_nil (prev : Option Char) (cur : Str) (tokens : List Str) :
    lex prev [] cur tokens = some (flush cur tokens) := rfl

theorem lex_cons (prev : Option Char) (ch : Char) (rest cur : Str) (tokens : List Str) :
    lex prev (ch :: rest) cur tokens =
      if isspace ch then lex (some ch) rest cur tokens
      else if isalpha ch then
        lex ((ch :: rest).takeWhile isalpha).getLast?
          ((ch :: rest).dropWhile isalpha) []
          (flush cur tokens ++ [(ch :: rest).takeWhile isalpha])
      else if isdigit ch || ch == '.' ||
          (ch == '-' && (prev == none || prev == some '(' ||
            (prev.map precedenceCount).getD false)) then
        lex (some ch) rest (cur ++ [ch]) tokens
      else
        lex (some ch) rest [] (flush cur tokens ++ [[ch]]) := by
  rw [lex, List.length_cons, tokenizeFrom_cons]
  split
  · rfl
  · split
    · next hα =>
      have := dropWhile_alpha_length rest hα
      exact tokenizeFrom_fuel _ _ _ _ _ _ (by omega) (by omega)
    · split
      · rfl
      · rfl

theorem lex_space (prev : Option Char) (ch : Char) (rest cur : Str) (tokens : List Str)
    (h : isspace ch = true) :
    lex prev (ch :: rest) cur tokens = lex (some ch) rest cur tokens := by
  rw [lex_cons, if_pos h]

theorem isdigit_not_space {c : Char} (h : isdigit c = true) : isspace c = false := by
  simp only [isdigit, Bool.and_eq_true, decide_eq_true_eq] at h
  simp only [isspace, Bool.or_eq_false_iff, Bool.and_eq_false_iff, decide_eq_false_iff_not,
    beq_eq_false_iff_ne]
  omega

theorem isdigit_not_alpha {c : Char} (h : isdigit c = true) : isalpha c = false := by
  simp only [isdigit, Bool.and_eq_true, decide_eq_true_eq] at h
  simp only [isalpha, Bool.or_eq_false_iff, Bool.and_eq_false_iff, decide_eq_false_iff_not]
  omega

/-- A digit or a `.` extends the pending numeric text. -/
theorem lex_numeric (prev : Option Char) (ch : Char) (rest cur : Str) (tokens : List Str)
    (h : isdigit ch = true ∨ ch = '.') :
    lex prev (ch :: rest) cur tokens = lex (some ch) rest (cur ++ [ch]) tokens := by
  have h1 : isspace ch = false := by
    rcases h with h | rfl
    · exact isdigit_not_space h
    · decide
  have h2 : isalpha ch = false := by
    rcases h with h | rfl
    · exact isdigit_not_alpha h
    · decide
  have h3 : (isdigit ch || ch == '.') = true := by
    rcases h with h | rfl
    · simp [h]
    · decide
  rw [lex_cons]
  simp only [h1, h2, h3, Bool.false_eq_true, if_false, Bool.true_or, if_true]

/-- A `-` at the start, after `(` or after an operator character is a sign. -/
theorem lex_sign (prev : Option Char) (rest cur : Str) (tokens : List Str)
    (h : prev = none ∨ prev = some '(' ∨ ∃ o, prev = some o ∧ precedenceCount o = true) :
    lex prev ('-' :: rest) cur tokens = lex (some '-') rest (cur ++ ['-']) tokens := by
  have h1 : isspace '-' = false := by decide
  have h2 : isalpha '-' = false := by decide
  have h3 : (prev == none || prev == some '(' || (prev.map precedenceCount).getD false) = true := by
    rcases h with rfl | rfl | ⟨o, rfl, ho⟩
    · rfl
    · rfl
    · simp [ho]
  rw [lex_cons]
  simp only [h1, h2, h3, Bool.false_eq_true, if_false, beq_self_eq_true, Bool.and_true,
    Bool.or_true, if_true]

/-- A character of no other class flushes the pending text and is a token. -/
theorem lex_other (prev : Option Char) (ch : Char) (rest cur : Str) (tokens : List Str)
    (h1 : isspace ch = false) (h2 : isalpha ch = false) (h3 : isdigit ch = false)
    (h4 : ch ≠ '.')
    (h5 : ch ≠ '-' ∨ (prev ≠ none ∧ prev ≠ some '(' ∧
      ∀ o, prev = some o → precedenceCount o = false)) :
    lex prev (ch :: rest) cur tokens = lex (some ch) rest [] (flush cur tokens ++ [[ch]]) := by
  have h6 : (ch == '-' && (prev == none || prev == some '(' ||
      (prev.map precedenceCount).getD false)) = false := by
    rcases h5 with h5 | ⟨ha, hb, hc⟩
    · simp [h5]
    · cases prev with
      | none => exact absurd rfl ha
      | some o =>
        have hb' : o ≠ '(' := fun h => hb (by rw [h])
        simp [hb', hc o rfl]
  rw [lex_cons]
  simp only [h1, h2, h3, h6, beq_eq_false_iff_ne.2 h4, Bool.false_eq_true, if_false,
    Bool.or_self]

/-- Text made of digits and `.` characters. -/
theorem lex_numericText (d : Char) (ds : Str) :
    ∀ (prev : Option Char) (rest cur : Str) (tokens : List Str),
      (∀ c ∈ d :: ds, isdigit c = true ∨ c = '.') →
      lex prev (d :: ds ++ rest) cur tokens =
        lex (some (ds.getLastD d)) rest (cur ++ d :: ds) tokens := by
  induction ds generalizing d with
  | nil =>
    intro prev rest cur tokens h
    rw [List.singleton_append, lex_numeric _ _ _ _ _ (h d (List.mem_singleton.2 rfl))]
    rfl
  | cons x xs ih =>
    intro prev rest cur tokens h
    rw [List.cons_append, lex_numeric _ _ _ _ _ (h d (List.mem_cons_self _ _)),
      ih x (some d) rest (cur ++ [d]) tokens (fun c hc => h c (List.mem_cons_of_mem _ hc)),
      List.append_assoc, List.singleton_append, List.getLastD_cons]

end LexLemmas

section TextLemmas

variable {F : Type}

/-- The evaluator returns or fails on every token sequence. -/
theorem run_isSome (A : FloatOps F) (toks : List Str) (nums : List F) (ops : List Char) :
    (run A toks nums ops).isSome = true :=
  evaluateExpressionFrom_isSome A _ toks nums ops (Nat.lt_succ_self _)

theorem evaluate_eq (A : FloatOps F) (ts : List Str) :
    evaluate A ts = (run A ts [] []).map (fun r => r.map Prod.fst) := rfl

theorem flush_nil (tokens : List Str) : flush [] tokens = tokens := rfl

theorem flush_cons (c : Char) (cs : Str) (tokens : List Str) :
    flush (c :: cs) tokens = tokens ++ [c :: cs] := rfl

theorem numericChar_facts {c : Char} (h : isdigit c = true ∨ c = '.') :
    c ≠ '(' ∧ c ≠ ')' ∧ precedenceCount c = false := by
  rcases h with h | rfl
  · refine ⟨?_, ?_, ?_⟩
    · rintro rfl; revert h; decide
    · rintro rfl; revert h; decide
    · cases hc : precedenceCount c with
      | false => rfl
      | true =>
        rcases (precedenceCount_iff c).1 hc with rfl | rfl | rfl | rfl | rfl <;>
          (revert h; decide)
  · decide

theorem numericText_iff (s : Str) :
    numericText s = true ↔ s ≠ [] ∧ ∀ c ∈ s, isdigit c = true ∨ c = '.' := by
  cases s with
  | nil => simp [numericText]
  | cons d ds => simp [numericText, List.all_eq_true]

theorem unsignedLiteral_numericText {s : Str} (h : unsignedLiteral s = true) :
    numericText s = true := by
  cases s with
  | nil => revert h; decide
  | cons d ds =>
    simp only [unsignedLiteral, Bool.and_eq_true] at h
    simp only [numericText, List.isEmpty_cons, Bool.not_false, Bool.true_and]
    exact h.2

theorem unsignedLiteral_isNumberToken {s : Str} (h : unsignedLiteral s = true) :
    isNumberToken s = true := by
  simp only [unsignedLiteral, Bool.and_eq_true] at h
  simp [isNumberToken, h.1]

theorem digitString_unsignedLiteral {s : Str} (h : digitString s = true) :
    unsignedLiteral s = true := by
  cases s with
  | nil => revert h; decide
  | cons d ds =>
    simp only [digitString, List.isEmpty_cons, Bool.not_false, Bool.true_and, List.all_cons,
      Bool.and_eq_true, List.all_eq_true] at h
    simp only [unsignedLiteral, firstChar_cons, List.all_cons, Bool.and_eq_true, Bool.or_eq_true,
      List.all_eq_true, beq_iff_eq]
    exact ⟨h.1, Or.inl h.1, fun c hc => Or.inl (h.2 c hc)⟩

theorem signed_isNumberToken {s : Str} (h : numericText s = true) :
    isNumberToken ('-' :: s) = true := by
  cases s with
  | nil => revert h; decide
  | cons d ds => simp [isNumberToken, firstChar_cons]

/-- The lexer over a numeric text: it is appended to the pending text. -/
theorem lex_text (s : Str) (h : numericText s = true) (prev : Option Char) (rest cur : Str)
    (tokens : List Str) :
    lex prev (s ++ rest) cur tokens = lex (some (s.getLastD ' ')) rest (cur ++ s) tokens := by
  obtain ⟨hne, hall⟩ := (numericText_iff s).1 h
  cases s with
  | nil => exact absurd rfl hne
  | cons d ds =>
    rw [List.getLastD_cons]
    exact lex_numericText d ds prev rest cur tokens hall

/-- The last character of a numeric text is neither `(` nor an operator, so a
`-` after it is not a sign. -/
theorem lex_minus_after_text (s : Str) (h : numericText s = true) (rest cur : Str)
    (tokens : List Str) :
    lex (some (s.getLastD ' ')) ('-' :: rest) cur tokens =
      lex (some '-') rest [] (flush cur tokens ++ [['-']]) := by
  obtain ⟨hne, hall⟩ := (numericText_iff s).1 h
  have hmem : s.getLastD ' ' ∈ s := by
    cases s with
    | nil => exact absurd rfl hne
    | cons d ds =>
      rw [List.getLastD_cons]
      exact List.getLastD_mem_cons ds d
  have hf := numericChar_facts (hall _ hmem)
  exact lex_other _ '-' _ _ _ (by decide) (by decide) (by decide) (by decide)
    (Or.inr ⟨by simp, fun h => hf.1 (Option.some.inj h), fun o ho => by
      rw [← Option.some.inj ho]; exact hf.2.2⟩)

theorem checkParenthesesFrom_open (bal : Int) (rest : Str) :
    checkParenthesesFrom bal ('(' :: rest) = checkParenthesesFrom (bal + 1) rest := by
  rw [checkParenthesesFrom, if_pos rfl]

theorem checkParenthesesFrom_close (bal : Int) (rest : Str) :
    checkParenthesesFrom bal (')' :: rest) =
      if bal - 1 < 0 then false else checkParenthesesFrom (bal - 1) rest := by
  rw [checkParenthesesFrom, if_neg (by decide), if_pos rfl]

theorem checkParenthesesFrom_other (bal : Int) (c : Char) (rest : Str) (h1 : c ≠ '(')
    (h2 : c ≠ ')') :
    checkParenthesesFrom bal (c :: rest) = checkParenthesesFrom bal rest := by
  rw [checkParenthesesFrom, if_neg h1, if_neg h2]

theorem flush_text {s : Str} (h : numericText s = true) (tokens : List Str) :
    flush s tokens = tokens ++ [s] := by
  cases s with
  | nil => exact absurd h (by decide)
  | cons d ds => rfl

theorem flush_signed (s : Str) (tokens : List Str) :
    flush ('-' :: s) tokens = tokens ++ ['-' :: s] := rfl

/-- Characters other than parentheses leave the balance counter alone. -/
theorem checkParenthesesFrom_skip (s : Str) (h : ∀ c ∈ s, c ≠ '(' ∧ c ≠ ')') :
    ∀ (bal : Int) (rest : Str),
      checkParenthesesFrom bal (s ++ rest) = checkParenthesesFrom bal rest := by
  induction s with
  | nil => intro bal rest; rfl
  | cons c cs ih =>
    intro bal rest
    have hc := h c (List.mem_cons_self _ _)
    rw [List.cons_append, checkParenthesesFrom, if_neg hc.1, if_neg hc.2]
    exact ih (fun x hx => h x (List.mem_cons_of_mem _ hx)) bal rest

theorem numericText_noParen {s : Str} (h : numericText s = true) :
    ∀ c ∈ s, c ≠ '(' ∧ c ≠ ')' := by
  intro c hc
  have := numericChar_facts (((numericText_iff s).1 h).2 c hc)
  exact ⟨this.1, this.2.1⟩

end TextLemmas

/-! ## The loop on a phrase of the grammar -/

section GrammarLemmas

variable {F : Type}

theorem finish_collapse (A : FloatOps F) (a b v : F) (op : Char) (nums : List F)
    (ops : List Char) (rest : List Str) (h : applyOperation A a b op = .ok v) :
    finish A (b :: a :: nums) (op :: ops) rest = finish A (v :: nums) ops rest := by
  simp only [finish, drain, h]

theorem popWhile_cons (A : FloatOps F) (op top : Char) (nums : List F) (ops : List Char) :
    popWhile A op nums (top :: ops) =
      if (op = '^' ∧ precedenceAt op < precedenceAt top) ∨
          (op ≠ '^' ∧ precedenceAt op ≤ precedenceAt top) then
        match nums with
        | b :: a :: nums' =>
          match applyOperation A a b top with
          | .error e => .error e
          | .ok r => popWhile A op (r :: nums') ops
        | _ => .error .undefinedBehaviour
      else .ok (nums, top :: ops) := by
  rfl

theorem popWhile_collapse (A : FloatOps F) (a b v : F) (o op : Char) (nums : List F)
    (ops : List Char) (h : applyOperation A a b op = .ok v)
    (hp : o ≠ '^' ∧ precedenceAt o ≤ precedenceAt op) :
    popWhile A o (b :: a :: nums) (op :: ops) = popWhile A o (v :: nums) ops := by
  rw [popWhile_cons, if_pos (Or.inr hp)]
  simp only [h]

/-- A pending operator with both operands on the stack is as good as its
result, when the next token is the end, a `)` or an operator that pops it. -/
theorem run_collapse (A : FloatOps F) (a b v : F) (op : Char) (nums : List F)
    (ops : List Char) (rest : List Str) (h : applyOperation A a b op = .ok v)
    (hrest : rest = [] ∨ (∃ r, rest = [')'] :: r) ∨
      ∃ o r, rest = [o] :: r ∧ precedenceCount o = true ∧ o ≠ '^' ∧
        precedenceAt o ≤ precedenceAt op) :
    run A rest (b :: a :: nums) (op :: ops) = run A rest (v :: nums) ops := by
  rcases hrest with rfl | ⟨r, rfl⟩ | ⟨o, r, rfl, ho, hne, hle⟩
  · rw [run_nil, run_nil, finish_collapse A a b v op nums ops [] h]
  · rw [run_close, run_close, finish_collapse A a b v op nums ops r h]
  · rw [run_operator A o r _ _ ho, run_operator A o r _ _ ho,
      popWhile_collapse A a b v o op nums ops h ⟨hne, hle⟩]

theorem popWhile_pow (A : FloatOps F) (nums : List F) (ops : List Char) :
    popWhile A '^' nums ops = .ok (nums, ops) := by
  cases ops with
  | nil => rfl
  | cons top ops =>
    rw [popWhile_cons]
    have h : ¬ (('^' = '^' ∧ precedenceAt '^' < precedenceAt top) ∨
        ('^' ≠ '^' ∧ precedenceAt '^' ≤ precedenceAt top)) := by
      rintro (⟨-, h⟩ | ⟨h, -⟩)
      · have : precedenceAt top ≤ 3 := by
          unfold precedenceAt precedence
          simp only [List.lookup]
          repeat' split
          all_goals simp
        have h3 : precedenceAt '^' = 3 := by decide
        omega
      · exact h rfl
    rw [if_neg h]

theorem functionNames_alpha {fn : Str} (h : fn ∈ functionNames) :
    isalpha (firstChar fn) = true := by
  simp only [functionNames, List.mem_cons, List.mem_singleton, List.not_mem_nil, or_false] at h
  rcases h with rfl | rfl | rfl | rfl | rfl | rfl <;> decide

/-- The loop run over a derived phrase has the effect of pushing its value. -/
theorem run_derives (A : FloatOps F) (L : Level) (ts : List Str) (v : F)
    (h : Derives A L ts v) :
    ∀ (rest : List Str) (nums : List F) (ops : List Char),
      mayFollow L rest → mayPrecede L ops →
      run A (ts ++ rest) nums ops = run A rest (v :: nums) ops := by
  induction h with
  | number tok v hnum hstod =>
    intro rest nums ops _ _
    rw [List.singleton_append, run_number A tok rest nums ops hnum, hstod]
  | paren ts v _ ih =>
    intro rest nums ops _ _
    rw [List.cons_append, List.append_assoc, run_paren, List.singleton_append,
      ih ([')'] :: rest) [] [] (Or.inl rfl) rfl, run_close]
    rfl
  | call fn ts x v hfn _ happ ih =>
    intro rest nums ops _ _
    rw [List.cons_append, List.cons_append, List.append_assoc,
      run_call A fn _ nums ops (functionNames_alpha hfn), List.singleton_append,
      ih ([')'] :: rest) [] [] (Or.inl rfl) rfl, run_close]
    simp only [resume, finish, drain, happ]
  | ofAtom ts v _ ih =>
    intro rest nums ops hf _
    refine ih rest nums ops ?_ trivial
    cases rest with
    | nil => trivial
    | cons t r =>
      rcases hf with h | h | h | ⟨_, h⟩ | ⟨h, _⟩
      · exact Or.inl h
      · exact Or.inr (Or.inl h)
      · exact Or.inr (Or.inr (Or.inl h))
      · exact Or.inr (Or.inr (Or.inr (Or.inl ⟨by decide, h⟩)))
      · cases h
  | power ts us a b v _ _ happ iha ihb =>
    intro rest nums ops hf _
    rw [List.append_assoc, List.append_assoc, List.singleton_append,
      iha (['^'] :: (us ++ rest)) nums ops (Or.inr (Or.inr (Or.inr (Or.inr ⟨rfl, rfl⟩)))) trivial,
      run_operator A '^' _ _ _ (by decide), popWhile_pow]
    simp only []
    rw [ihb rest (a :: nums) ('^' :: ops) hf trivial]
    refine run_collapse A a b v '^' nums ops rest happ ?_
    cases rest with
    | nil => exact Or.inl rfl
    | cons t r =>
      rcases hf with h | h | h | ⟨_, h | h⟩ | ⟨h, _⟩
      · exact Or.inr (Or.inl ⟨r, by rw [h]⟩)
      · exact Or.inr (Or.inr ⟨'+', r, by rw [h], by decide, by decide, by decide⟩)
      · exact Or.inr (Or.inr ⟨'-', r, by rw [h], by decide, by decide, by decide⟩)
      · exact Or.inr (Or.inr ⟨'*', r, by rw [h], by decide, by decide, by decide⟩)
      · exact Or.inr (Or.inr ⟨'/', r, by rw [h], by decide, by decide, by decide⟩)
      · cases h
  | ofFactor ts v _ ih =>
    intro rest nums ops hf _
    refine ih rest nums ops ?_ trivial
    cases rest with
    | nil => trivial
    | cons t r =>
      rcases hf with h | h | h | ⟨_, h⟩ | ⟨h, _⟩
      · exact Or.inl h
      · exact Or.inr (Or.inl h)
      · exact Or.inr (Or.inr (Or.inl h))
      · exact Or.inr (Or.inr (Or.inr (Or.inl ⟨by decide, h⟩)))
      · cases h
  | product op ts us a b v hop _ _ happ iha ihb =>
    intro rest nums ops hf hp
    have hcount : precedenceCount op = true := by
      rcases hop with rfl | rfl <;> decide
    have hprec : precedenceAt op = 2 := by
      rcases hop with rfl | rfl <;> decide
    have hne : op ≠ '^' := by
      rcases hop with rfl | rfl <;> decide
    have hpop : popWhile A op (a :: nums) ops = .ok (a :: nums, ops) := by
      rcases hp with rfl | ⟨o, ⟨t, rfl⟩, ho⟩
      · rfl
      · rw [popWhile_cons]
        have : ¬ ((op = '^' ∧ precedenceAt op < precedenceAt o) ∨
            (op ≠ '^' ∧ precedenceAt op ≤ precedenceAt o)) := by
          have ho1 : precedenceAt o = 1 := by
            rcases ho with rfl | rfl <;> decide
          rintro (⟨h, -⟩ | ⟨-, h⟩)
          · exact hne h
          · omega
        rw [if_neg this]
    rw [List.append_assoc, List.append_assoc, List.singleton_append,
      iha ([op] :: (us ++ rest)) nums ops ?_ hp, run_operator A op _ _ _ hcount, hpop]
    · simp only []
      rw [ihb rest (a :: nums) (op :: ops) ?_ trivial]
      · refine run_collapse A a b v op nums ops rest happ ?_
        cases rest with
        | nil => exact Or.inl rfl
        | cons t r =>
          rcases hf with h | h | h | ⟨_, h | h⟩ | ⟨h, _⟩
          · exact Or.inr (Or.inl ⟨r, by rw [h]⟩)
          · exact Or.inr (Or.inr ⟨'+', r, by rw [h], by decide, by decide, by rw [hprec]; decide⟩)
          · exact Or.inr (Or.inr ⟨'-', r, by rw [h], by decide, by decide, by rw [hprec]; decide⟩)
          · exact Or.inr (Or.inr ⟨'*', r, by rw [h], by decide, by decide, by rw [hprec]; decide⟩)
          · exact Or.inr (Or.inr ⟨'/', r, by rw [h], by decide, by decide, by rw [hprec]; decide⟩)
          · cases h
      · cases rest with
        | nil => trivial
        | cons t r =>
          rcases hf with h | h | h | ⟨_, h⟩ | ⟨h, _⟩
          · exact Or.inl h
          · exact Or.inr (Or.inl h)
          · exact Or.inr (Or.inr (Or.inl h))
          · exact Or.inr (Or.inr (Or.inr (Or.inl ⟨by decide, h⟩)))
          · cases h
    · rcases hop with rfl | rfl
      · exact Or.inr (Or.inr (Or.inr (Or.inl ⟨by decide, Or.inl rfl⟩)))
      · exact Or.inr (Or.inr (Or.inr (Or.inl ⟨by decide, Or.inr rfl⟩)))
  | ofTerm ts v _ ih =>
    intro rest nums ops hf hp
    refine ih rest nums ops ?_ (Or.inl hp)
    cases rest with
    | nil => trivial
    | cons t r =>
      rcases hf with h | h | h | ⟨h, _⟩ | ⟨h, _⟩
      · exact Or.inl h
      · exact Or.inr (Or.inl h)
      · exact Or.inr (Or.inr (Or.inl h))
      · exact absurd rfl h
      · cases h
  | sum op ts us a b v hop _ _ happ iha ihb =>
    intro rest nums ops hf hp
    have hcount : precedenceCount op = true := by
      rcases hop with rfl | rfl <;> decide
    have hprec : precedenceAt op = 1 := by
      rcases hop with rfl | rfl <;> decide
    have hne : op ≠ '^' := by
      rcases hop with rfl | rfl <;> decide
    have hops : ops = [] := hp
    subst hops
    rw [List.append_assoc, List.append_assoc, List.singleton_append,
      iha ([op] :: (us ++ rest)) nums [] ?_ rfl, run_operator A op _ _ _ hcount]
    · simp only [popWhile]
      rw [ihb rest (a :: nums) [op] ?_ (Or.inr ⟨op, ⟨[], rfl⟩, hop⟩)]
      · refine run_collapse A a b v op nums [] rest happ ?_
        cases rest with
        | nil => exact Or.inl rfl
        | cons t r =>
          rcases hf with h | h | h | ⟨h, _⟩ | ⟨h, _⟩
          · exact Or.inr (Or.inl ⟨r, by rw [h]⟩)
          · exact Or.inr (Or.inr ⟨'+', r, by rw [h], by decide, by decide, by rw [hprec]; decide⟩)
          · exact Or.inr (Or.inr ⟨'-', r, by rw [h], by decide, by decide, by rw [hprec]; decide⟩)
          · exact absurd rfl h
          · cases h
      · cases rest with
        | nil => trivial
        | cons t r =>
          rcases hf with h | h | h | ⟨h, _⟩ | ⟨h, _⟩
          · exact Or.inl h
          · exact Or.inr (Or.inl h)
          · exact Or.inr (Or.inr (Or.inl h))
          · exact absurd rfl h
          · cases h
    · rcases hop with rfl | rfl
      · exact Or.inr (Or.inl rfl)
      · exact Or.inr (Or.inr (Or.inl rfl))

end GrammarLemmas

/-! ## Balanced parentheses -/

section Balance

theorem checkParenthesesFrom_iff (s : Str) : ∀ bal : Int, 0 ≤ bal →
    (checkParenthesesFrom bal s = true ↔
      (∀ p : Str, p <+: s → (p.count ')' : Int) ≤ bal + p.count '(') ∧
        bal + s.count '(' = s.count ')') := by
  induction s with
  | nil =>
    intro bal hbal
    simp only [checkParenthesesFrom, List.prefix_nil, List.count_nil, beq_iff_eq]
    constructor
    · intro h
      subst h
      refine ⟨?_, by simp⟩
      intro p hp
      subst hp
      simp
    · rintro ⟨-, h⟩
      simpa using h
  | cons ch rest ih =>
    intro bal hbal
    have hpre : ∀ P : Str → Prop, (∀ p : Str, p <+: ch :: rest → P p) ↔
        (P [] ∧ ∀ q : Str, q <+: rest → P (ch :: q)) := by
      intro P
      constructor
      · intro h
        exact ⟨h [] (List.nil_prefix), fun q hq => h (ch :: q) ((List.prefix_cons_inj ch).2 hq)⟩
      · rintro ⟨h0, h1⟩ p hp
        rcases List.prefix_cons_iff.1 hp with rfl | ⟨t, rfl, ht⟩
        · exact h0
        · exact h1 t ht
    rw [hpre]
    by_cases h1 : ch = '('
    · subst h1
      simp only [checkParenthesesFrom, if_true]
      rw [ih (bal + 1) (by omega)]
      simp only [List.count_nil, List.count_cons_self, List.count_cons_of_ne (show (')' : Char) ≠ '(' by decide)]
      push_cast
      constructor
      · rintro ⟨ha, hb⟩
        refine ⟨⟨by simpa using hbal, fun q hq => ?_⟩, by omega⟩
        have := ha q hq
        omega
      · rintro ⟨⟨-, ha⟩, hb⟩
        refine ⟨fun q hq => ?_, by omega⟩
        have := ha q hq
        omega
    · by_cases h2 : ch = ')'
      · subst h2
        simp only [checkParenthesesFrom, if_neg h1, if_true]
        simp only [List.count_nil, List.count_cons_self, List.count_cons_of_ne (show ('(' : Char) ≠ ')' by decide)]
        push_cast
        by_cases h3 : bal - 1 < 0
        · simp only [if_pos h3]
          constructor
          · intro h; cases h
          · rintro ⟨⟨-, ha⟩, -⟩
            have := ha [] List.nil_prefix
            simp at this
            omega
        · simp only [if_neg h3]
          rw [ih (bal - 1) (by omega)]
          constructor
          · rintro ⟨ha, hb⟩
            refine ⟨⟨by simpa using hbal, fun q hq => ?_⟩, by omega⟩
            have := ha q hq
            omega
          · rintro ⟨⟨-, ha⟩, hb⟩
            refine ⟨fun q hq => ?_, by omega⟩
            have := ha q hq
            omega
      · simp only [checkParenthesesFrom, if_neg h1, if_neg h2]
        rw [ih bal hbal]
        simp only [List.count_nil, List.count_cons_of_ne (Ne.symm h1), List.count_cons_of_ne (Ne.symm h2), List.count_cons_of_ne h1, List.count_cons_of_ne h2]
        constructor
        · rintro ⟨ha, hb⟩
          exact ⟨⟨by simpa using hbal, ha⟩, hb⟩
        · rintro ⟨⟨-, ha⟩, hb⟩
          exact ⟨ha, hb⟩

/-- C1 (balance checker). `checkParentheses(s)` returns true exactly when no
prefix of `s` holds more `)` than `(` and `s` as a whole holds as many `(` as
`)`; characters other than parentheses do not count. -/
theorem checkParentheses_iff_balanced (s : Str) :
    checkParentheses s = true ↔
      ((∀ p : Str, p <+: s → p.count ')' ≤ p.count '(') ∧ s.count '(' = s.count ')') := by
  unfold checkParentheses
  rw [checkParenthesesFrom_iff s 0 (le_refl 0)]
  constructor
  · rintro ⟨ha, hb⟩
    refine ⟨fun p hp => ?_, by omega⟩
    have := ha p hp
    omega
  · rintro ⟨ha, hb⟩
    refine ⟨fun p hp => ?_, by omega⟩
    have := ha p hp
    omega

end Balance

/-! ## Evaluation of grammar phrases -/

section GrammarClaim

variable {F : Type}

/-- C2 (the evaluator follows the grammar). For every token sequence derived
from `expr` (with `^` above `*` `/` above `+` `-`, the last four grouped to the
left and `^` to the right, numbers being the tokens of the number-literal
branch that `std::stod` converts), `evaluate` returns the value the grammar
assigns to it, where that value exists: no division by zero and no log domain
error arises in it. -/
theorem evaluate_derives (A : FloatOps F) (ts : List Str) (v : F)
    (h : Derives A .expr ts v) : evaluate A ts = some (.ok v) := by
  have := run_derives A .expr ts v h [] [] [] trivial rfl
  rw [List.append_nil, run_nil] at this
  simp only [evaluate, evaluateExpression, this, finish, drain]
  rfl


end GrammarClaim

section GrammarWitness

variable {F : Type}

/-- Witness of C2 in exact arithmetic: the tokens of `sqrt(16) + 2*(3-1)` are
derived from `expr` with the value `8`, and `evaluate` returns `8`. -/
theorem evaluate_derives_witness :
    tokenize "sqrt(16) + 2*(3-1)".toList =
        some ["sqrt".toList, ['('], "16".toList, [')'], ['+'], ['2'], ['*'], ['('], ['3'], ['-'],
          ['1'], [')']] ∧
      Derives exactOps .expr
        ["sqrt".toList, ['('], "16".toList, [')'], ['+'], ['2'], ['*'], ['('], ['3'], ['-'],
          ['1'], [')']] 8 ∧
      evaluate exactOps
        ["sqrt".toList, ['('], "16".toList, [')'], ['+'], ['2'], ['*'], ['('], ['3'], ['-'],
          ['1'], [')']] = some (.ok 8) :=
  have num : ∀ (tok : Str) (v : ℚ), isNumberToken tok = true → exactOps.stod tok = .ok v →
      ∀ L : Level, Derives exactOps L [tok] v := fun tok v h₁ h₂ L =>
    have a := Derives.number (A := exactOps) tok v h₁ h₂
    match L with
    | .atom => a
    | .factor => .ofAtom _ _ a
    | .term => .ofFactor _ _ (.ofAtom _ _ a)
    | .expr => .ofTerm _ _ (.ofFactor _ _ (.ofAtom _ _ a))
  have root : Derives exactOps .expr ["sqrt".toList, ['('], "16".toList, [')']] 4 :=
    .ofTerm _ _ (.ofFactor _ _ (.ofAtom _ _
      (.call "sqrt".toList ["16".toList] 16 4 (by decide)
        (num "16".toList 16 (by decide) (by decide!) .expr) (by decide!))))
  have diff : Derives exactOps .expr [['3'], ['-'], ['1']] 2 :=
    .sum '-' [['3']] [['1']] 3 1 2 (Or.inr rfl) (num ['3'] 3 (by decide) (by decide!) .expr)
      (num ['1'] 1 (by decide) (by decide!) .term) (by decide!)
  have prod : Derives exactOps .term [['2'], ['*'], ['('], ['3'], ['-'], ['1'], [')']] 4 :=
    .product '*' [['2']] [['('], ['3'], ['-'], ['1'], [')']] 2 2 4 (Or.inl rfl)
      (num ['2'] 2 (by decide) (by decide!) .term)
      (.ofAtom _ _ (.paren [['3'], ['-'], ['1']] 2 diff)) (by decide!)
  have whole : Derives exactOps .expr
      ["sqrt".toList, ['('], "16".toList, [')'], ['+'], ['2'], ['*'], ['('], ['3'], ['-'],
        ['1'], [')']] 8 :=
    .sum '+' ["sqrt".toList, ['('], "16".toList, [')']]
      [['2'], ['*'], ['('], ['3'], ['-'], ['1'], [')']] 4 4 8 (Or.inl rfl) root prod
      (by decide!)
  ⟨by decide, whole, evaluate_derives exactOps _ 8 whole⟩

end GrammarWitness

/-! ## Associativity and unary minus -/

section Associativity

variable {F : Type}

/-- C3 (associativity). For numeric literal tokens `a`, `b`, `c` with values
`x`, `y`, `z`, evaluating `[a, "^", b, "^", c]` returns
`applyOperation(x, applyOperation(y, z, '^'), '^')`, and for two operators of one
precedence level other than `^`, evaluating `[a, op1, b, op2, c]` returns
`applyOperation(applyOperation(x, y, op1), z, op2)`, a failure of the inner
operation being the failure of the whole. -/
theorem evaluate_associativity (A : FloatOps F) (a b c : Str) (x y z : F)
    (ha : isNumberToken a = true) (hb : isNumberToken b = true) (hc : isNumberToken c = true)
    (hx : A.stod a = .ok x) (hy : A.stod b = .ok y) (hz : A.stod c = .ok z) :
    evaluate A [a, ['^'], b, ['^'], c] =
        some ((applyOperation A y z '^').bind (fun r => applyOperation A x r '^')) ∧
      ∀ op1 op2 : Char,
        ((op1 = '+' ∨ op1 = '-') ∧ (op2 = '+' ∨ op2 = '-')) ∨
          ((op1 = '*' ∨ op1 = '/') ∧ (op2 = '*' ∨ op2 = '/')) →
        evaluate A [a, [op1], b, [op2], c] =
          some ((applyOperation A x y op1).bind (fun r => applyOperation A r z op2)) := by
  constructor
  · rw [evaluate_eq, run_number A a _ _ _ ha, hx]
    simp only []
    rw [run_operator A '^' _ _ _ (by decide), popWhile_pow]
    simp only []
    rw [run_number A b _ _ _ hb, hy]
    simp only []
    rw [run_operator A '^' _ _ _ (by decide), popWhile_pow]
    simp only []
    rw [run_number A c _ _ _ hc, hz]
    simp only []
    rw [run_nil]
    simp [finish, drain, applyOperation, Except.bind, Except.map]
  · intro op1 op2 hops
    have h1 : precedenceCount op1 = true := by
      rcases hops with ⟨h | h, _⟩ | ⟨h | h, _⟩ <;> (subst h; decide)
    have h2 : precedenceCount op2 = true := by
      rcases hops with ⟨_, h | h⟩ | ⟨_, h | h⟩ <;> (subst h; decide)
    have hpop : (op2 = '^' ∧ precedenceAt op2 < precedenceAt op1) ∨
        (op2 ≠ '^' ∧ precedenceAt op2 ≤ precedenceAt op1) := by
      rcases hops with ⟨h | h, h' | h'⟩ | ⟨h | h, h' | h'⟩ <;> (subst h; subst h'; decide)
    rw [evaluate_eq, run_number A a _ _ _ ha, hx]
    simp only []
    rw [run_operator A op1 _ _ _ h1]
    simp only [popWhile]
    rw [run_number A b _ _ _ hb, hy]
    simp only []
    rw [run_operator A op2 _ _ _ h2, popWhile_cons, if_pos hpop]
    simp only []
    cases happ : applyOperation A x y op1 with
    | error e => rfl
    | ok r =>
      simp only [popWhile]
      rw [run_number A c _ _ _ hc, hz]
      simp only []
      rw [run_nil]
      simp only [finish, drain, Except.bind]
      cases applyOperation A r z op2 with
      | error e => rfl
      | ok w => rfl

/-- Witness of C3 in exact arithmetic: `2^3^2` is `512` and `2-3-2` is `-3`. -/
theorem evaluate_associativity_witness :
    evaluate exactOps [['2'], ['^'], ['3'], ['^'], ['2']] = some (.ok 512) ∧
      evaluate exactOps [['2'], ['-'], ['3'], ['-'], ['2']] = some (.ok (-3)) :=
  have h := evaluate_associativity exactOps ['2'] ['3'] ['2'] 2 3 2 (by decide) (by decide)
    (by decide) (by decide!) (by decide!) (by decide!)
  ⟨h.1.trans (by decide!), (h.2 '-' '-' (Or.inl ⟨Or.inr rfl, Or.inr rfl⟩)).trans (by decide!)⟩

end Associativity

section UnaryMinus

variable {F : Type}

/-- C4 (unary minus on a literal). For non-empty digit strings `m` and `n`:
the text `m-(-n)` is balanced, lexes to `[m, "-", "(", "-n", ")"]` and
evaluates to the value of `m` minus the value of the token `-n`; the text
`-m+n` lexes to `["-m", "+", n]` and evaluates to the value of the token `-m`
plus the value of `n`. The value of a token is the one `std::stod` returns
for it. -/
theorem unary_minus_literal (A : FloatOps F) (m n : Str)
    (hm : digitString m = true) (hn : digitString n = true) :
    (checkParentheses (m ++ ['-', '(', '-'] ++ n ++ [')']) = true ∧
      tokenize (m ++ ['-', '(', '-'] ++ n ++ [')']) = some [m, ['-'], ['('], '-' :: n, [')']] ∧
      ∀ x y : F, A.stod m = .ok x → A.stod ('-' :: n) = .ok y →
        argumentMode A (m ++ ['-', '(', '-'] ++ n ++ [')']) = some (.ok (A.sub x y))) ∧
    (checkParentheses (['-'] ++ m ++ ['+'] ++ n) = true ∧
      tokenize (['-'] ++ m ++ ['+'] ++ n) = some ['-' :: m, ['+'], n] ∧
      ∀ x y : F, A.stod ('-' :: m) = .ok x → A.stod n = .ok y →
        argumentMode A (['-'] ++ m ++ ['+'] ++ n) = some (.ok (A.add x y))) := by
  have hmu := digitString_unsignedLiteral hm
  have hnu := digitString_unsignedLiteral hn
  have hmt := unsignedLiteral_numericText hmu
  have hnt := unsignedLiteral_numericText hnu
  have hmp := numericText_noParen hmt
  have hnp := numericText_noParen hnt
  -- the first text
  have hc1 : checkParentheses (m ++ ['-', '(', '-'] ++ n ++ [')']) = true := by
    rw [checkParentheses, List.append_assoc, List.append_assoc, checkParenthesesFrom_skip m hmp,
      List.cons_append, List.cons_append, List.cons_append, List.nil_append,
      checkParenthesesFrom_other _ '-' _ (by decide) (by decide), checkParenthesesFrom_open,
      checkParenthesesFrom_other _ '-' _ (by decide) (by decide),
      checkParenthesesFrom_skip n hnp, checkParenthesesFrom_close]
    rfl
  have ht1 : tokenize (m ++ ['-', '(', '-'] ++ n ++ [')']) =
      some [m, ['-'], ['('], '-' :: n, [')']] := by
    show lex none _ [] [] = _
    rw [List.append_assoc, List.append_assoc, lex_text m hmt, List.nil_append, List.cons_append,
      List.cons_append, List.cons_append, List.nil_append, lex_minus_after_text m hmt,
      flush_text hmt, List.nil_append,
      lex_other (some '-') '(' _ _ _ (by decide) (by decide) (by decide) (by decide)
        (Or.inl (by decide)),
      flush_nil, lex_sign (some '(') _ _ _ (Or.inr (Or.inl rfl)), List.nil_append,
      lex_text n hnt, List.singleton_append,
      lex_other _ ')' _ _ _ (by decide) (by decide) (by decide) (by decide)
        (Or.inl (by decide)),
      flush_signed, lex_nil, flush_nil]
    rfl
  have he1 : ∀ x y : F, A.stod m = .ok x → A.stod ('-' :: n) = .ok y →
      evaluate A [m, ['-'], ['('], '-' :: n, [')']] = some (.ok (A.sub x y)) := by
    intro x y hx hy
    rw [evaluate_eq, run_number A m _ _ _ (unsignedLiteral_isNumberToken hmu), hx]
    simp only []
    rw [run_operator A '-' _ _ _ (by decide)]
    simp only [popWhile]
    rw [run_paren, run_number A ('-' :: n) _ _ _ (signed_isNumberToken hnt), hy]
    simp only []
    rw [run_close]
    simp only [finish, drain, resume]
    rw [run_nil]
    simp [finish, drain, applyOperation, Except.map]
  -- the second text
  have hc2 : checkParentheses (['-'] ++ m ++ ['+'] ++ n) = true := by
    have hn0 := checkParenthesesFrom_skip n hnp 0 []
    rw [List.append_nil] at hn0
    rw [checkParentheses, List.append_assoc, List.append_assoc, List.singleton_append,
      checkParenthesesFrom_other _ '-' _ (by decide) (by decide),
      checkParenthesesFrom_skip m hmp, List.singleton_append,
      checkParenthesesFrom_other _ '+' _ (by decide) (by decide), hn0]
    rfl
  have ht2 : tokenize (['-'] ++ m ++ ['+'] ++ n) = some ['-' :: m, ['+'], n] := by
    have hn0 := fun prev cur tokens => lex_text n hnt prev [] cur tokens
    simp only [List.append_nil] at hn0
    show lex none _ [] [] = _
    rw [List.append_assoc, List.append_assoc, List.singleton_append,
      lex_sign none _ _ _ (Or.inl rfl), List.nil_append, lex_text m hmt, List.singleton_append,
      List.singleton_append,
      lex_other _ '+' _ _ _ (by decide) (by decide) (by decide) (by decide)
        (Or.inl (by decide)),
      flush_signed, List.nil_append, hn0, lex_nil, List.nil_append, flush_text hnt]
    rfl
  have he2 : ∀ x y : F, A.stod ('-' :: m) = .ok x → A.stod n = .ok y →
      evaluate A ['-' :: m, ['+'], n] = some (.ok (A.add x y)) := by
    intro x y hx hy
    rw [evaluate_eq, run_number A ('-' :: m) _ _ _ (signed_isNumberToken hmt), hx]
    simp only []
    rw [run_operator A '+' _ _ _ (by decide)]
    simp only [popWhile]
    rw [run_number A n _ _ _ (unsignedLiteral_isNumberToken hnu), hy]
    simp only []
    rw [run_nil]
    simp [finish, drain, applyOperation, Except.map]
  refine ⟨⟨hc1, ht1, fun x y hx hy => ?_⟩, ⟨hc2, ht2, fun x y hx hy => ?_⟩⟩
  · simp only [argumentMode, hc1, ht1, he1 x y hx hy, Bool.not_true, Bool.false_eq_true,
      if_false]
  · simp only [argumentMode, hc2, ht2, he2 x y hx hy, Bool.not_true, Bool.false_eq_true,
      if_false]

/-- Witness of C4 in exact arithmetic: `3-(-4)` is `7` and `-3+4` is `1`. -/
theorem unary_minus_literal_witness :
    argumentMode exactOps "3-(-4)".toList = some (.ok 7) ∧
      argumentMode exactOps "-3+4".toList = some (.ok 1) :=
  have h := unary_minus_literal exactOps ['3'] ['4'] (by decide) (by decide)
  ⟨(h.1.2.2 3 (-4) (by decide!) (by decide!)).trans (by decide!),
    (h.2.2.2 (-3) 4 (by decide!) (by decide!)).trans (by decide!)⟩

end UnaryMinus

/-! ## Errors -/

section ArithmeticErrors

variable {F : Type}

theorem numericLiteral_cases {n : Str} (h : numericLiteral n = true) :
    unsignedLiteral n = true ∨ ∃ body, n = '-' :: body ∧ numericText body = true := by
  simp only [numericLiteral, Bool.or_eq_true] at h
  rcases h with h | h
  · exact Or.inl h
  · split at h
    · next body => exact Or.inr ⟨body, rfl, h⟩
    · cases h

theorem numericLiteral_isNumberToken {n : Str} (h : numericLiteral n = true) :
    isNumberToken n = true := by
  rcases numericLiteral_cases h with h | ⟨body, rfl, h⟩
  · exact unsignedLiteral_isNumberToken h
  · exact signed_isNumberToken h

theorem numericLiteral_noParen {n : Str} (h : numericLiteral n = true) :
    ∀ c ∈ n, c ≠ '(' ∧ c ≠ ')' := by
  rcases numericLiteral_cases h with h | ⟨body, rfl, h⟩
  · exact numericText_noParen (unsignedLiteral_numericText h)
  · intro c hc
    rcases List.mem_cons.1 hc with rfl | hc
    · decide
    · exact numericText_noParen h c hc

/-- A numeric literal at the start of the text becomes the pending text. -/
theorem lex_literal (n : Str) (h : numericLiteral n = true) (tokens : List Str) (c : Char)
    (rest' : Str) (h1 : isspace c = false) (h2 : isalpha c = false) (h3 : isdigit c = false)
    (h4 : c ≠ '.') (h5 : c ≠ '-') :
    lex none (n ++ c :: rest') [] tokens = lex (some c) rest' [] (tokens ++ [n] ++ [[c]]) := by
  rcases numericLiteral_cases h with h | ⟨body, rfl, h⟩
  · have ht := unsignedLiteral_numericText h
    rw [lex_text n ht, List.nil_append, lex_other _ c _ _ _ h1 h2 h3 h4 (Or.inl h5),
      flush_text ht]
  · rw [List.cons_append, lex_sign none _ _ _ (Or.inl rfl), List.nil_append, lex_text body h,
      List.singleton_append, lex_other _ c _ _ _ h1 h2 h3 h4 (Or.inl h5), flush_signed]

/-- C5 (division by zero). `applyOperation(a, b, '/')` throws the
division-by-zero error exactly when `b == 0.0` and returns `a / b` otherwise;
so for every numeric literal `n` that `std::stod` converts, the line `n/0`
(where `std::stod` gives `"0"` a value equal to zero) ends in that error. -/
theorem division_by_zero (A : FloatOps F) :
    (∀ a b : F, applyOperation A a b '/' =
        if A.isZero b = true then .error (.thrown "Error: Division by zero!".toList)
        else .ok (A.div a b)) ∧
      ∀ (n : Str) (x z : F), numericLiteral n = true → A.stod n = .ok x →
        A.stod ['0'] = .ok z → A.isZero z = true →
        tokenize (n ++ ['/', '0']) = some [n, ['/'], ['0']] ∧
          argumentMode A (n ++ ['/', '0']) =
            some (.error (.thrown "Error: Division by zero!".toList)) := by
  constructor
  · intro a b
    simp [applyOperation]
  · intro n x z hn hx hz hzero
    have hc : checkParentheses (n ++ ['/', '0']) = true := by
      rw [checkParentheses, checkParenthesesFrom_skip n (numericLiteral_noParen hn)]
      rfl
    have ht : tokenize (n ++ ['/', '0']) = some [n, ['/'], ['0']] := by
      show lex none _ [] [] = _
      rw [lex_literal n hn [] '/' ['0'] (by decide) (by decide) (by decide) (by decide)
          (by decide),
        lex_numeric _ '0' _ _ _ (Or.inl (by decide)), lex_nil]
      rfl
    have he : evaluate A [n, ['/'], ['0']] =
        some (.error (.thrown "Error: Division by zero!".toList)) := by
      rw [evaluate_eq, run_number A n _ _ _ (numericLiteral_isNumberToken hn), hx]
      simp only []
      rw [run_operator A '/' _ _ _ (by decide)]
      simp only [popWhile]
      rw [run_number A ['0'] _ _ _ (by decide), hz]
      simp only []
      rw [run_nil]
      simp [finish, drain, applyOperation, hzero, Except.map]
    refine ⟨ht, ?_⟩
    simp only [argumentMode, hc, ht, he, Bool.not_true, Bool.false_eq_true, if_false]

/-- Witness of C5 in exact arithmetic: `10/0`. -/
theorem division_by_zero_witness :
    argumentMode exactOps "10/0".toList =
      some (.error (.thrown "Error: Division by zero!".toList)) :=
  ((division_by_zero exactOps).2 "10".toList 10 0 (by decide) (by decide!) (by decide!)
    (by decide!)).2

theorem applyFunction_log (A : FloatOps F) (fn : Str)
    (hfn : fn = "log".toList ∨ fn = "ln".toList) (x : F) :
    applyFunction A fn x =
      if A.leZero x = true then .error (.thrown "Error: log domain error!".toList)
      else .ok (A.log x) := by
  have hne : fn ≠ "sqrt".toList := by
    rcases hfn with rfl | rfl <;> decide
  rw [applyFunction, if_neg hne, if_pos hfn]

/-- C6 (log domain). For `fn` equal to `"log"` or `"ln"`, `applyFunction(fn, x)`
throws the log domain error exactly when `x <= 0.0` and returns `log(x)`
otherwise, the two names agreeing on every `x`; so evaluating
`[fn, "(", tok, ")"]` on a literal token whose value is `<= 0.0` ends in that
error. -/
theorem log_domain_error (A : FloatOps F) (fn : Str)
    (hfn : fn = "log".toList ∨ fn = "ln".toList) :
    (∀ x : F, applyFunction A fn x =
        if A.leZero x = true then .error (.thrown "Error: log domain error!".toList)
        else .ok (A.log x)) ∧
      (∀ x : F, applyFunction A "log".toList x = applyFunction A "ln".toList x) ∧
      ∀ (tok : Str) (v : F), isNumberToken tok = true → A.stod tok = .ok v →
        A.leZero v = true →
        evaluate A [fn, ['('], tok, [')']] =
          some (.error (.thrown "Error: log domain error!".toList)) := by
  refine ⟨applyFunction_log A fn hfn, ?_, ?_⟩
  · intro x
    rw [applyFunction_log A _ (Or.inl rfl), applyFunction_log A _ (Or.inr rfl)]
  · intro tok v htok hv hle
    have hα : isalpha (firstChar fn) = true := by
      rcases hfn with rfl | rfl <;> decide
    rw [evaluate_eq, run_call A fn _ _ _ hα, run_number A tok _ _ _ htok, hv]
    simp only []
    rw [run_close]
    simp only [finish, drain, resume, applyFunction_log A fn hfn, hle, if_true]
    rfl

/-- Witness of C6 in exact arithmetic: `log(-1)`. -/
theorem log_domain_error_witness :
    argumentMode exactOps "log(-1)".toList =
      some (.error (.thrown "Error: log domain error!".toList)) :=
  (show argumentMode exactOps "log(-1)".toList =
      evaluate exactOps ["log".toList, ['('], "-1".toList, [')']] from by decide!).trans
    ((log_domain_error exactOps "log".toList (Or.inl rfl)).2.2 "-1".toList (-1) (by decide)
      (by decide!) (by decide!))

end ArithmeticErrors

section NameErrors

variable {F : Type}

theorem alphabetic_firstChar {name : Str} (h : alphabetic name = true) :
    isalpha (firstChar name) = true := by
  cases name with
  | nil => exact absurd h (by decide)
  | cons c cs =>
    simp only [alphabetic, List.isEmpty_cons, Bool.not_false, Bool.true_and, List.all_cons,
      Bool.and_eq_true] at h
    exact h.1

theorem applyFunction_unknown (A : FloatOps F) (name : Str) (h : name ∉ functionNames) (x : F) :
    applyFunction A name x =
      .error (.thrown ("Error: Unknown function '".toList ++ name ++ "'!".toList)) := by
  simp only [functionNames, List.mem_cons, List.mem_singleton, List.not_mem_nil, or_false,
    not_or] at h
  obtain ⟨h1, h2, h3, h4, h5, h6⟩ := h
  rw [applyFunction, if_neg h1, if_neg (not_or.2 ⟨h2, h3⟩), if_neg h4, if_neg h5, if_neg h6]

/-- C7 (unknown function). For an alphabetic name that is none of `sqrt`,
`log`, `ln`, `sin`, `cos`, `tan` (compared character by character),
`applyFunction(name, x)` throws `Error: Unknown function '<name>'!` for every
`x`; evaluating `name ( ...` throws that error when the argument evaluates to a
value, and throws the argument's own error when the argument fails, so the
name is checked only after the argument has been evaluated. -/
theorem unknown_function (A : FloatOps F) (name : Str) (hα : alphabetic name = true)
    (hname : name ∉ functionNames) :
    (∀ x : F, applyFunction A name x =
        .error (.thrown ("Error: Unknown function '".toList ++ name ++ "'!".toList))) ∧
      (∀ (rest rest' : List Str) (v : F),
        evaluateExpression A rest = some (.ok (v, rest')) →
        evaluate A (name :: ['('] :: rest) =
          some (.error (.thrown ("Error: Unknown function '".toList ++ name ++ "'!".toList)))) ∧
      ∀ (rest : List Str) (e : Fault),
        evaluateExpression A rest = some (.error e) →
        evaluate A (name :: ['('] :: rest) = some (.error e) := by
  refine ⟨applyFunction_unknown A name hname, ?_, ?_⟩
  · intro rest rest' v h
    rw [evaluateExpression] at h
    rw [evaluate_eq, run_call A name _ _ _ (alphabetic_firstChar hα), h]
    simp only [resume, applyFunction_unknown A name hname]
    rfl
  · intro rest e h
    rw [evaluateExpression] at h
    rw [evaluate_eq, run_call A name _ _ _ (alphabetic_firstChar hα), h]
    rfl

/-- Witness of C7 in exact arithmetic: `foo(1)`. -/
theorem unknown_function_witness :
    argumentMode exactOps "foo(1)".toList =
      some (.error (.thrown "Error: Unknown function 'foo'!".toList)) :=
  (show argumentMode exactOps "foo(1)".toList =
      evaluate exactOps ["foo".toList, ['('], ['1'], [')']] from by decide!).trans
    ((unknown_function exactOps "foo".toList (by decide) (by decide)).2.1 [['1'], [')']] [] 1
      (by decide!))

end NameErrors

section TokenErrors

variable {F : Type}

theorem tokenize_isSome (s : Str) : ∃ ts, tokenize s = some ts :=
  Option.isSome_iff_exists.1 (tokenizeFrom_isSome _ none s [] [] (Nat.lt_succ_self _))

theorem isspace_noParen {c : Char} (h : isspace c = true) : c ≠ '(' ∧ c ≠ ')' := by
  constructor
  · rintro rfl; revert h; decide
  · rintro rfl; revert h; decide

/-- C8 (invalid token). `tokenize` returns on every input. For a character
`c` that is not whitespace, a letter, a digit, `.`, a parenthesis or one of
`+ - * / ^`, and unsigned numeric literals `a` and `b`, the line `a c b`
(separated by single spaces) lexes to `[a, c, b]`, and once `std::stod` has
converted `a` the evaluation throws `Error: Invalid token '<c>'` and returns
no value. -/
theorem invalid_token (A : FloatOps F) :
    (∀ s : Str, ∃ ts, tokenize s = some ts) ∧
      ∀ (c : Char) (a b : Str), c.toNat < 128 →
        isspace c = false → isalpha c = false → isdigit c = false →
        c ∉ ['.', '(', ')', '+', '-', '*', '/', '^'] →
        unsignedLiteral a = true → unsignedLiteral b = true →
        tokenize (a ++ [' ', c, ' '] ++ b) = some [a, [c], b] ∧
          ∀ x : F, A.stod a = .ok x →
            evaluate A [a, [c], b] =
              some (.error (.thrown ("Error: Invalid token '".toList ++ [c] ++ "'".toList))) ∧
            argumentMode A (a ++ [' ', c, ' '] ++ b) =
              some (.error (.thrown ("Error: Invalid token '".toList ++ [c] ++ "'".toList))) := by
  refine ⟨tokenize_isSome, ?_⟩
  intro c a b _ hsp hal hdi hc ha hb
  simp only [List.mem_cons, List.mem_singleton, List.not_mem_nil, or_false, not_or] at hc
  obtain ⟨hdot, hopen, hclose, hplus, hminus, htimes, hdiv, hpow⟩ := hc
  have hat := unsignedLiteral_numericText ha
  have hbt := unsignedLiteral_numericText hb
  have hb0 := fun prev cur tokens => lex_text b hbt prev [] cur tokens
  simp only [List.append_nil] at hb0
  have hcheck : checkParentheses (a ++ [' ', c, ' '] ++ b) = true := by
    have hb1 := checkParenthesesFrom_skip b (numericText_noParen hbt) 0 []
    rw [List.append_nil] at hb1
    rw [checkParentheses, List.append_assoc,
      checkParenthesesFrom_skip a (numericText_noParen hat), List.cons_append, List.cons_append,
      List.cons_append, List.nil_append,
      checkParenthesesFrom_other _ ' ' _ (by decide) (by decide),
      checkParenthesesFrom_other _ c _ hopen hclose,
      checkParenthesesFrom_other _ ' ' _ (by decide) (by decide), hb1]
    rfl
  have ht : tokenize (a ++ [' ', c, ' '] ++ b) = some [a, [c], b] := by
    show lex none _ [] [] = _
    rw [List.append_assoc, lex_text a hat, List.nil_append, List.cons_append, List.cons_append,
      List.cons_append, List.nil_append, lex_space _ ' ' _ _ _ (by decide),
      lex_other _ c _ _ _ hsp hal hdi hdot (Or.inl hminus), flush_text hat, List.nil_append,
      lex_space _ ' ' _ _ _ (by decide), hb0, lex_nil, List.nil_append, flush_text hbt]
    rfl
  have he : ∀ x : F, A.stod a = .ok x → evaluate A [a, [c], b] =
      some (.error (.thrown ("Error: Invalid token '".toList ++ [c] ++ "'".toList))) := by
    intro x hx
    have hcount : precedenceCount c = false := by
      cases hcnt : precedenceCount c with
      | false => rfl
      | true =>
        rcases (precedenceCount_iff c).1 hcnt with h | h | h | h | h
        · exact absurd h hplus
        · exact absurd h hminus
        · exact absurd h htimes
        · exact absurd h hdiv
        · exact absurd h hpow
    have h1 : ([c] : Str) ≠ [')'] := fun h => hclose (List.cons.inj h).1
    have h3 : ([c] : Str) ≠ ['('] := fun h => hopen (List.cons.inj h).1
    have h4 : isNumberToken [c] = false := by
      simp [isNumberToken, firstChar_cons, hdi]
    have h5 : isOperatorToken [c] = false := by
      simp [isOperatorToken, firstChar_cons, hcount]
    rw [evaluate_eq, run_number A a _ _ _ (unsignedLiteral_isNumberToken ha), hx]
    simp only []
    rw [run, List.length_cons, evaluateExpressionFrom_cons]
    simp only [if_neg h1, firstChar_cons, hal, if_neg h3, h4, h5, Bool.false_eq_true, if_false]
    rfl
  refine ⟨ht, fun x hx => ⟨he x hx, ?_⟩⟩
  simp only [argumentMode, hcheck, ht, he x hx, Bool.not_true, Bool.false_eq_true, if_false]

/-- Witness of C8 in exact arithmetic: `2 & 3`. -/
theorem invalid_token_witness :
    tokenize "2 & 3".toList = some [['2'], ['&'], ['3']] ∧
      argumentMode exactOps "2 & 3".toList =
        some (.error (.thrown "Error: Invalid token '&'".toList)) :=
  have h := (invalid_token exactOps).2 '&' ['2'] ['3'] (by decide) (by decide) (by decide)
    (by decide) (by decide) (by decide) (by decide)
  ⟨h.1, (h.2 2 (by decide!)).2⟩

/-- C9 (mismatched parentheses). When `checkParentheses(s)` is false the `try`
block throws `Error: Mismatched parentheses.`, whatever the arithmetic and
whatever the lexer and the evaluator would do with `s`. -/
theorem mismatched_parentheses (A : FloatOps F) (s : Str) (h : checkParentheses s = false) :
    argumentMode A s = some (.error (.thrown "Error: Mismatched parentheses.".toList)) := by
  rw [argumentMode, h]
  rfl

/-- Witness of C9 in exact arithmetic: `(2+3` is refused, although the
evaluator by itself returns `5` on its tokens. -/
theorem mismatched_parentheses_witness :
    argumentMode exactOps "(2+3".toList =
        some (.error (.thrown "Error: Mismatched parentheses.".toList)) ∧
      tokenize "(2+3".toList = some [['('], ['2'], ['+'], ['3']] ∧
      evaluate exactOps [['('], ['2'], ['+'], ['3']] = some (.ok 5) :=
  ⟨mismatched_parentheses exactOps "(2+3".toList (by decide), by decide, by decide!⟩

theorem lex_whitespace (s : Str) (h : ∀ c ∈ s, isspace c = true) :
    ∀ (prev : Option Char) (cur : Str) (tokens : List Str),
      lex prev s cur tokens = some (flush cur tokens) := by
  induction s with
  | nil => intro prev cur tokens; rfl
  | cons c cs ih =>
    intro prev cur tokens
    rw [lex_space _ c _ _ _ (h c (List.mem_cons_self _ _))]
    exact ih (fun x hx => h x (List.mem_cons_of_mem _ hx)) _ _ _

theorem evaluateExpression_nil (A : FloatOps F) :
    evaluateExpression A [] = some (.error (.thrown "Error: Empty expression!".toList)) := rfl

theorem evaluateExpression_close (A : FloatOps F) (rest : List Str) :
    evaluateExpression A ([')'] :: rest) =
      some (.error (.thrown "Error: Empty expression!".toList)) := by
  rw [evaluateExpression, run_close]
  rfl

/-- C10 (empty expression). `evaluateExpression` throws `Error: Empty
expression!` when it is entered at the end of the tokens or at a `)`. Hence
every line of whitespace only (the empty line included) ends in that error,
and so does the evaluation whenever its loop reaches `( )` or `name ( )`,
whatever is on the stacks and whatever follows; in particular the lines `()`
and `sqrt()`. -/
theorem empty_expression (A : FloatOps F) :
    evaluateExpression A [] = some (.error (.thrown "Error: Empty expression!".toList)) ∧
      (∀ rest : List Str, evaluateExpression A ([')'] :: rest) =
        some (.error (.thrown "Error: Empty expression!".toList))) ∧
      (∀ s : Str, (∀ c ∈ s, isspace c = true) →
        argumentMode A s = some (.error (.thrown "Error: Empty expression!".toList))) ∧
      (∀ (rest : List Str) (nums : List F) (ops : List Char),
        run A (['('] :: [')'] :: rest) nums ops =
          some (.error (.thrown "Error: Empty expression!".toList))) ∧
      (∀ (fn : Str) (rest : List Str) (nums : List F) (ops : List Char),
        isalpha (firstChar fn) = true →
        run A (fn :: ['('] :: [')'] :: rest) nums ops =
          some (.error (.thrown "Error: Empty expression!".toList))) ∧
      argumentMode A "()".toList = some (.error (.thrown "Error: Empty expression!".toList)) ∧
      argumentMode A "sqrt()".toList =
        some (.error (.thrown "Error: Empty expression!".toList)) := by
  have hparen : ∀ (rest : List Str) (nums : List F) (ops : List Char),
      run A (['('] :: [')'] :: rest) nums ops =
        some (.error (.thrown "Error: Empty expression!".toList)) := by
    intro rest nums ops
    rw [run_paren, run_close]
    rfl
  have hcall : ∀ (fn : Str) (rest : List Str) (nums : List F) (ops : List Char),
      isalpha (firstChar fn) = true →
      run A (fn :: ['('] :: [')'] :: rest) nums ops =
        some (.error (.thrown "Error: Empty expression!".toList)) := by
    intro fn rest nums ops hfn
    rw [run_call A fn _ _ _ hfn, run_close]
    rfl
  refine ⟨evaluateExpression_nil A, evaluateExpression_close A, ?_, hparen, hcall, ?_, ?_⟩
  · intro s hs
    have hc : checkParentheses s = true := by
      have := checkParenthesesFrom_skip s (fun c hc => isspace_noParen (hs c hc)) 0 []
      rw [List.append_nil] at this
      rw [checkParentheses, this]
      rfl
    have ht : tokenize s = some [] := lex_whitespace s hs none [] []
    simp only [argumentMode, hc, ht, Bool.not_true, Bool.false_eq_true, if_false]
    rfl
  · have ht : tokenize "()".toList = some [['('], [')']] := by decide
    have hc : checkParentheses "()".toList = true := by decide
    simp only [argumentMode, hc, ht, Bool.not_true, Bool.false_eq_true, if_false]
    rw [evaluate_eq, hparen]
    rfl
  · have ht : tokenize "sqrt()".toList = some ["sqrt".toList, ['('], [')']] := by decide
    have hc : checkParentheses "sqrt()".toList = true := by decide
    simp only [argumentMode, hc, ht, Bool.not_true, Bool.false_eq_true, if_false]
    rw [evaluate_eq, hcall _ _ _ _ (by decide)]
    rfl

/-- Witness of C10 in exact arithmetic: a line of blanks, and `2*()` where the
loop reaches the empty pair with `2` and `*` on its stacks. -/
theorem empty_expression_witness :
    argumentMode exactOps "  \t ".toList =
        some (.error (.thrown "Error: Empty expression!".toList)) ∧
      argumentMode exactOps "2*()".toList =
        some (.error (.thrown "Error: Empty expression!".toList)) :=
  ⟨(empty_expression exactOps).2.2.1 "  \t ".toList (by decide),
    (show argumentMode exactOps "2*()".toList =
        (run exactOps [['('], [')']] [2] ['*']).map (fun r => r.map Prod.fst) from
      by decide!).trans
      (congrArg (Option.map fun r => r.map Prod.fst)
        ((empty_expression exactOps).2.2.2.1 [] [2] ['*']))⟩

end TokenErrors


/-! ## The lexer: what the tokens are made of -/

section LexerShape

theorem isalpha_not_space {c : Char} (h : isalpha c = true) : isspace c = false := by
  simp only [isalpha, Bool.or_eq_true, Bool.and_eq_true, decide_eq_true_eq] at h
  simp only [isspace, Bool.or_eq_false_iff, Bool.and_eq_false_iff, decide_eq_false_iff_not,
    beq_eq_false_iff_ne]
  omega

theorem flush_flatten (cur : Str) (tokens : List Str) :
    (flush cur tokens).flatten = tokens.flatten ++ cur := by
  cases cur with
  | nil => simp [flush]
  | cons c cs => simp [flush]

theorem flush_mem {cur : Str} {tokens : List Str} {t : Str} (h : t ∈ flush cur tokens) :
    t ∈ tokens ∨ (t = cur ∧ cur ≠ []) := by
  cases cur with
  | nil => exact Or.inl h
  | cons c cs =>
    rw [flush_cons] at h
    rcases List.mem_append.1 h with h | h
    · exact Or.inl h
    · exact Or.inr ⟨List.mem_singleton.1 h, List.cons_ne_nil _ _⟩

theorem takeWhile_alpha_cons {ch : Char} (rest : Str) (h : isalpha ch = true) :
    (ch :: rest).takeWhile isalpha = ch :: rest.takeWhile isalpha := by
  rw [List.takeWhile_cons, if_pos h]

theorem filter_alpha_run (s : Str) :
    s.filter (fun c => !isspace c) =
      s.takeWhile isalpha ++ (s.dropWhile isalpha).filter (fun c => !isspace c) := by
  conv_lhs => rw [← List.takeWhile_append_dropWhile isalpha s]
  rw [List.filter_append]
  congr 1
  rw [List.filter_eq_self]
  intro c hc
  simp [isalpha_not_space (List.mem_takeWhile_imp hc)]

/-- The concatenation of the tokens the lexer returns is the concatenation of
the tokens it started with, the pending text, and the rest of the input
without its whitespace. -/
theorem lex_flatten : ∀ (n : Nat) (eq : Str), eq.length ≤ n →
    ∀ (prev : Option Char) (cur : Str) (tokens out : List Str),
      lex prev eq cur tokens = some out →
      out.flatten = tokens.flatten ++ cur ++ eq.filter (fun c => !isspace c) := by
  intro n
  induction n with
  | zero =>
    intro eq hlen prev cur tokens out h
    have : eq = [] := List.length_eq_zero.1 (Nat.le_zero.1 hlen)
    subst this
    rw [lex_nil] at h
    injection h with h
    subst h
    simp [flush_flatten]
  | succ n ih =>
    intro eq hlen prev cur tokens out h
    cases eq with
    | nil =>
      rw [lex_nil] at h
      injection h with h
      subst h
      simp [flush_flatten]
    | cons ch rest =>
      simp only [List.length_cons, Nat.add_le_add_iff_right] at hlen
      rw [lex_cons] at h
      split at h
      · next hs =>
        rw [ih rest hlen _ _ _ _ h]
        simp [hs]
      · next hs =>
        have hs' : isspace ch = false := by simpa using hs
        split at h
        · next hα =>
          have hd := dropWhile_alpha_length rest hα
          rw [ih _ (by omega) _ _ _ _ h, filter_alpha_run (ch :: rest)]
          simp [flush_flatten]
        · split at h
          · rw [ih rest hlen _ _ _ _ h]
            simp [hs']
          · rw [ih rest hlen _ _ _ _ h]
            simp [hs', flush_flatten]

/-- No token the lexer returns is empty or holds a whitespace character,
when that is so of the tokens and the pending text it started with. -/
theorem lex_tokens : ∀ (n : Nat) (eq : Str), eq.length ≤ n →
    ∀ (prev : Option Char) (cur : Str) (tokens out : List Str),
      lex prev eq cur tokens = some out →
      (∀ c ∈ cur, isspace c = false) →
      (∀ t ∈ tokens, t ≠ [] ∧ ∀ c ∈ t, isspace c = false) →
      ∀ t ∈ out, t ≠ [] ∧ ∀ c ∈ t, isspace c = false := by
  intro n
  induction n with
  | zero =>
    intro eq hlen prev cur tokens out h hcur htok t ht
    have : eq = [] := List.length_eq_zero.1 (Nat.le_zero.1 hlen)
    subst this
    rw [lex_nil] at h
    injection h with h
    subst h
    rcases flush_mem ht with h | ⟨rfl, hne⟩
    · exact htok t h
    · exact ⟨hne, hcur⟩
  | succ n ih =>
    intro eq hlen prev cur tokens out h hcur htok
    have hflush : ∀ t ∈ flush cur tokens, t ≠ [] ∧ ∀ c ∈ t, isspace c = false := by
      intro t ht
      rcases flush_mem ht with h | ⟨rfl, hne⟩
      · exact htok t h
      · exact ⟨hne, hcur⟩
    cases eq with
    | nil =>
      rw [lex_nil] at h
      injection h with h
      subst h
      exact hflush
    | cons ch rest =>
      simp only [List.length_cons, Nat.add_le_add_iff_right] at hlen
      rw [lex_cons] at h
      split at h
      · exact ih rest hlen _ _ _ _ h hcur htok
      · next hs =>
        have hs' : isspace ch = false := by simpa using hs
        split at h
        · next hα =>
          have hd := dropWhile_alpha_length rest hα
          refine ih _ (by omega) _ _ _ _ h (by simp) ?_
          intro t ht
          rcases List.mem_append.1 ht with ht | ht
          · exact hflush t ht
          · rw [List.mem_singleton.1 ht, takeWhile_alpha_cons rest hα]
            refine ⟨List.cons_ne_nil _ _, ?_⟩
            intro c hc
            rcases List.mem_cons.1 hc with rfl | hc
            · exact hs'
            · exact isalpha_not_space (List.mem_takeWhile_imp hc)
        · split at h
          · refine ih rest hlen _ _ _ _ h ?_ htok
            intro c hc
            rcases List.mem_append.1 hc with hc | hc
            · exact hcur c hc
            · rw [List.mem_singleton.1 hc]; exact hs'
          · refine ih rest hlen _ _ _ _ h (by simp) ?_
            intro t ht
            rcases List.mem_append.1 ht with ht | ht
            · exact hflush t ht
            · rw [List.mem_singleton.1 ht]
              refine ⟨List.cons_ne_nil _ _, ?_⟩
              intro c hc
              rw [List.mem_singleton.1 hc]; exact hs'

/-- C19 (the lexer drops whitespace only). For every input `s`, `tokenize`
returns tokens of which none is empty or holds a whitespace character, and
whose concatenation, in order, is `s` with its whitespace characters deleted. -/
theorem tokenize_drops_whitespace_only (s : Str) :
    ∃ ts : List Str, tokenize s = some ts ∧
      (∀ t ∈ ts, t ≠ [] ∧ ∀ c ∈ t, isspace c = false) ∧
      ts.flatten = s.filter (fun c => !isspace c) := by
  obtain ⟨ts, hts⟩ := Option.isSome_iff_exists.1
    (tokenizeFrom_isSome _ none s [] [] (Nat.lt_succ_self _))
  refine ⟨ts, hts, ?_, ?_⟩
  · exact lex_tokens s.length s (le_refl _) none [] [] ts hts (by simp) (by simp)
  · have := lex_flatten s.length s (le_refl _) none [] [] ts hts
    simpa using this

end LexerShape

/-! ## The lexer: a binary minus splits the text -/

section BinaryMinus

/-- The tokens already pushed are a prefix of the result and do not influence
the rest of it. -/
theorem lex_tokens_append : ∀ (n : Nat) (eq : Str), eq.length ≤ n →
    ∀ (prev : Option Char) (cur : Str) (tokens : List Str),
      lex prev eq cur tokens = (lex prev eq cur []).map (fun out => tokens ++ out) := by
  intro n
  induction n with
  | zero =>
    intro eq hlen prev cur tokens
    have : eq = [] := List.length_eq_zero.1 (Nat.le_zero.1 hlen)
    subst this
    cases cur <;> simp [lex_nil, flush]
  | succ n ih =>
    intro eq hlen prev cur tokens
    have hflush : flush cur tokens = tokens ++ flush cur [] := by
      cases cur <;> simp [flush]
    cases eq with
    | nil => cases cur <;> simp [lex_nil, flush]
    | cons ch rest =>
      simp only [List.length_cons, Nat.add_le_add_iff_right] at hlen
      rw [lex_cons, lex_cons]
      split
      · exact ih rest hlen _ _ _
      · split
        · next hα =>
          have hd := dropWhile_alpha_length rest hα
          rw [ih _ (by omega) _ _ (flush cur tokens ++ _), ih _ (by omega) _ _ (flush cur [] ++ _),
            hflush, Option.map_map]
          congr 1
          funext out
          simp
        · split
          · exact ih rest hlen _ _ _
          · rw [ih rest hlen _ _ (flush cur tokens ++ _), ih rest hlen _ _ (flush cur [] ++ _),
              hflush, Option.map_map]
            congr 1
            funext out
            simp

/-- At the start of the text and right after a `-` the lexer does the same. -/
theorem lex_after_minus (eq cur : Str) (tokens : List Str) :
    lex (some '-') eq cur tokens = lex none eq cur tokens := by
  cases eq with
  | nil => rfl
  | cons ch rest =>
    rw [lex_cons, lex_cons]
    have : (some '-' == none || some '-' == some '(' ||
        ((some '-' : Option Char).map precedenceCount).getD false) =
        ((none : Option Char) == none || (none : Option Char) == some '(' ||
          ((none : Option Char).map precedenceCount).getD false) := by decide
    rw [this]

theorem takeWhile_alpha_append_minus (p q : Str) :
    (p ++ '-' :: q).takeWhile isalpha = p.takeWhile isalpha := by
  induction p with
  | nil => simp [List.takeWhile_cons, show isalpha '-' = false by decide]
  | cons c cs ih =>
    rw [List.cons_append, List.takeWhile_cons, List.takeWhile_cons, ih]

theorem dropWhile_alpha_append_minus (p q : Str) :
    (p ++ '-' :: q).dropWhile isalpha = p.dropWhile isalpha ++ '-' :: q := by
  induction p with
  | nil => simp [List.dropWhile_cons, show isalpha '-' = false by decide]
  | cons c cs ih =>
    rw [List.cons_append, List.dropWhile_cons, List.dropWhile_cons, ih]
    split <;> rfl

theorem lex_minus_operator (prev : Option Char) (rest cur : Str) (tokens : List Str)
    (h : signContext prev = false) :
    lex prev ('-' :: rest) cur tokens = lex (some '-') rest [] (flush cur tokens ++ [['-']]) := by
  rw [lex_cons, if_neg (by decide), if_neg (by decide)]
  have : (isdigit '-' || '-' == '.' || ('-' == '-' && (prev == none || prev == some '(' ||
      (prev.map precedenceCount).getD false))) = false := by
    unfold signContext at h
    rw [h]
    decide
  rw [this]
  rfl

theorem getLast?_cons_or (ch : Char) (rest : Str) (prev : Option Char) :
    (ch :: rest).getLast?.or prev = rest.getLast?.or (some ch) := by
  rw [List.getLast?_cons]
  cases rest.getLast? <;> rfl

/-- The lexer over `p - q`, when the `-` does not stand in a sign context:
it lexes `p`, pushes the token `-`, and goes on with `q`. -/
theorem lex_split_minus : ∀ (n : Nat) (p : Str), p.length ≤ n →
    ∀ (prev : Option Char) (q cur : Str) (tokens : List Str),
      signContext (p.getLast?.or prev) = false →
      lex prev (p ++ '-' :: q) cur tokens =
        (lex prev p cur tokens).bind (fun tp => lex (some '-') q [] (tp ++ [['-']])) := by
  intro n
  induction n with
  | zero =>
    intro p hlen prev q cur tokens h
    have : p = [] := List.length_eq_zero.1 (Nat.le_zero.1 hlen)
    subst this
    rw [List.nil_append, lex_nil, lex_minus_operator _ _ _ _ (by simpa using h)]
    rfl
  | succ n ih =>
    intro p hlen prev q cur tokens h
    cases p with
    | nil =>
      rw [List.nil_append, lex_nil, lex_minus_operator _ _ _ _ (by simpa using h)]
      rfl
    | cons ch rest =>
      simp only [List.length_cons, Nat.add_le_add_iff_right] at hlen
      rw [getLast?_cons_or] at h
      rw [List.cons_append, lex_cons, lex_cons]
      split
      · exact ih rest hlen _ _ _ _ h
      · split
        · next hα =>
          have hd := dropWhile_alpha_length rest hα
          have e1 := takeWhile_alpha_append_minus (ch :: rest) q
          have e2 := dropWhile_alpha_append_minus (ch :: rest) q
          rw [List.cons_append] at e1 e2
          rw [e1, e2]
          refine ih _ (by omega) _ _ _ _ ?_
          rw [← List.getLast?_append, List.takeWhile_append_dropWhile, List.getLast?_cons]
          cases hl : rest.getLast? with
          | none => rw [hl] at h; exact h
          | some c => rw [hl] at h; exact h
        · split
          · exact ih rest hlen _ _ _ _ h
          · exact ih rest hlen _ _ _ _ h

/-- C18 (binary minus is a token boundary). For strings `p` and `q` where `p`
is non-empty and its last character is none of `(`, `+`, `-`, `*`, `/`, `^`,
the tokens of `p ++ "-" ++ q` are the tokens of `p`, then the token `-`, then
the tokens of `q`. -/
theorem tokenize_binary_minus (p q : Str) (c : Char) (hlast : p.getLast? = some c)
    (hc : c ∉ ['(', '+', '-', '*', '/', '^']) :
    ∃ tp tq : List Str, tokenize p = some tp ∧ tokenize q = some tq ∧
      tokenize (p ++ ['-'] ++ q) = some (tp ++ [['-']] ++ tq) := by
  obtain ⟨tp, htp⟩ := Option.isSome_iff_exists.1
    (tokenizeFrom_isSome _ none p [] [] (Nat.lt_succ_self _))
  obtain ⟨tq, htq⟩ := Option.isSome_iff_exists.1
    (tokenizeFrom_isSome _ none q [] [] (Nat.lt_succ_self _))
  refine ⟨tp, tq, htp, htq, ?_⟩
  have hsign : signContext (p.getLast?.or none) = false := by
    rw [hlast]
    simp only [List.mem_cons, List.mem_singleton, List.not_mem_nil, or_false, not_or] at hc
    obtain ⟨h1, h2, h3, h4, h5, h6⟩ := hc
    have hcount : precedenceCount c = false := by
      cases hcnt : precedenceCount c with
      | false => rfl
      | true =>
        rcases (precedenceCount_iff c).1 hcnt with h | h | h | h | h
        · exact absurd h h2
        · exact absurd h h3
        · exact absurd h h4
        · exact absurd h h5
        · exact absurd h h6
    simp [signContext, h1, hcount]
  have hsplit := lex_split_minus p.length p (le_refl _) none q [] [] hsign
  have hp : lex none p [] [] = some tp := htp
  have hq : lex none q [] [] = some tq := htq
  show lex none (p ++ ['-'] ++ q) [] [] = _
  rw [List.append_assoc, List.singleton_append, hsplit, hp]
  show lex (some '-') q [] (tp ++ [['-']]) = _
  rw [lex_after_minus, lex_tokens_append q.length q (le_refl _), hq]
  rfl

/-- Witness of C18: `sqrt(4)-2`. -/
theorem tokenize_binary_minus_witness :
    tokenize "sqrt(4)-2".toList =
      some ["sqrt".toList, ['('], ['4'], [')'], ['-'], ['2']] :=
  (tokenize_binary_minus "sqrt(4)".toList ['2'] ')' (by decide) (by decide)).elim
    (fun tp h => h.elim (fun tq h =>
      have h1 : tp = ["sqrt".toList, ['('], ['4'], [')']] :=
        Option.some.inj (h.1.symm.trans (by decide))
      have h2 : tq = [['2']] := Option.some.inj (h.2.1.symm.trans (by decide))
      h.2.2.trans (by rw [h1, h2]; rfl)))

end BinaryMinus


/-! ## Numeric tokens the evaluator does not convert -/

section NumericTokens

variable {F : Type}

theorem isPrefix_error_append (msg tail : Str) (h : "Error:".toList <+: msg) :
    "Error:".toList <+: msg ++ tail :=
  h.trans (List.prefix_append msg tail)

/-- A numeric text that starts with `.` is one token, and the evaluator
throws it back as an invalid token, whatever the arithmetic. -/
theorem argumentMode_leading_dot (A : FloatOps F) (s : Str) (h : numericText s = true)
    (hdot : firstChar s = '.') :
    tokenize s = some [s] ∧
      argumentMode A s =
        some (.error (.thrown ("Error: Invalid token '".toList ++ s ++ "'".toList))) := by
  have hc : checkParentheses s = true := by
    have := checkParenthesesFrom_skip s (numericText_noParen h) 0 []
    rw [List.append_nil] at this
    rw [checkParentheses, this]
    rfl
  have ht : tokenize s = some [s] := by
    have := lex_text s h none [] [] []
    rw [List.append_nil] at this
    show lex none s [] [] = _
    rw [this, lex_nil, List.nil_append, flush_text h]
    rfl
  have h1 : s ≠ [')'] := by
    intro hs; rw [hs] at hdot; revert hdot; decide
  have h2 : isalpha (firstChar s) = false := by rw [hdot]; decide
  have h3 : s ≠ ['('] := by
    intro hs; rw [hs] at hdot; revert hdot; decide
  have h4 : isNumberToken s = false := by
    simp [isNumberToken, hdot, show isdigit '.' = false by decide]
  have h5 : isOperatorToken s = false := by
    simp [isOperatorToken, hdot, show precedenceCount '.' = false by decide]
  have he : evaluate A [s] =
      some (.error (.thrown ("Error: Invalid token '".toList ++ s ++ "'".toList))) := by
    rw [evaluate_eq, run, List.length_cons, evaluateExpressionFrom_cons]
    simp only [if_neg h1, h2, if_neg h3, h4, h5, Bool.false_eq_true, if_false]
    rfl
  refine ⟨ht, ?_⟩
  simp only [argumentMode, hc, ht, he, Bool.not_true, Bool.false_eq_true, if_false]

theorem applyOperation_thrown (A : FloatOps F) (a b : F) (op : Char) (w : Str)
    (h : applyOperation A a b op = .error (.thrown w)) : "Error:".toList <+: w := by
  unfold applyOperation at h
  repeat' split at h
  all_goals cases h
  all_goals first
    | decide
    | exact isPrefix_error_append _ _ (isPrefix_error_append _ _ (by decide))

theorem applyFunction_thrown (A : FloatOps F) (fn : Str) (x : F) (w : Str)
    (h : applyFunction A fn x = .error (.thrown w)) : "Error:".toList <+: w := by
  unfold applyFunction at h
  repeat' split at h
  all_goals cases h
  all_goals first
    | decide
    | exact isPrefix_error_append _ _ (isPrefix_error_append _ _ (by decide))

theorem popWhile_thrown (A : FloatOps F) (op : Char) (w : Str) :
    ∀ (ops : List Char) (nums : List F),
      popWhile A op nums ops = .error (.thrown w) → "Error:".toList <+: w := by
  intro ops
  induction ops with
  | nil => intro nums h; cases h
  | cons top ops ih =>
    intro nums h
    rw [popWhile_cons] at h
    split at h
    · split at h
      · next b a nums' =>
        cases happ : applyOperation A a b top with
        | error e =>
          rw [happ] at h
          injection h with h
          subst h
          exact applyOperation_thrown A a b top w happ
        | ok r =>
          rw [happ] at h
          exact ih _ h
      · cases h
    · cases h

theorem drain_thrown (A : FloatOps F) (w : Str) :
    ∀ (ops : List Char) (nums : List F),
      drain A nums ops = .error (.thrown w) → "Error:".toList <+: w := by
  intro ops
  induction ops with
  | nil => intro nums h; cases h
  | cons op ops ih =>
    intro nums h
    match nums, h with
    | [], h => cases h
    | [_], h => cases h
    | b :: a :: nums', h =>
      simp only [drain] at h
      cases happ : applyOperation A a b op with
      | error e =>
        rw [happ] at h
        injection h with h
        subst h
        exact applyOperation_thrown A a b op w happ
      | ok r =>
        rw [happ] at h
        exact ih _ h

theorem finish_thrown (A : FloatOps F) (nums : List F) (ops : List Char) (rest : List Str)
    (w : Str) (h : finish A nums ops rest = .error (.thrown w)) : "Error:".toList <+: w := by
  unfold finish at h
  split at h
  · next e hd =>
    injection h with h
    subst h
    exact drain_thrown A w ops nums hd
  · injection h with h
    injection h with h
    subst h
    decide
  · cases h

/-- Every exception that leaves the evaluator carries a text that begins with
`Error:`, or is the exception of a failed `std::stod`. -/
theorem evaluateExpressionFrom_thrown (A : FloatOps F) :
    ∀ (fuel : Nat) (toks : List Str) (nums : List F) (ops : List Char) (w : Str),
      evaluateExpressionFrom A fuel toks nums ops = some (.error (.thrown w)) →
      "Error:".toList <+: w ∨ ∃ tok, isNumberToken tok = true ∧ A.stod tok = .error w := by
  intro fuel
  induction fuel with
  | zero => intro toks nums ops w h; simp [evaluateExpressionFrom] at h
  | succ fuel ih =>
    intro toks nums ops w h
    cases toks with
    | nil =>
      simp only [evaluateExpressionFrom, Option.some.injEq] at h
      exact Or.inl (finish_thrown A _ _ _ w h)
    | cons tok rest0 =>
      rw [evaluateExpressionFrom_cons] at h
      split at h
      · simp only [Option.some.injEq] at h
        exact Or.inl (finish_thrown A _ _ _ w h)
      · split at h
        · split at h
          · simp only [Option.some.injEq, Except.error.injEq, Fault.thrown.injEq] at h
            subst h
            exact Or.inl (isPrefix_error_append _ _ (by decide))
          · split at h
            · simp only [Option.some.injEq, Except.error.injEq, Fault.thrown.injEq] at h
              subst h
              exact Or.inl (isPrefix_error_append _ _ (by decide))
            · split at h
              · cases h
              · next e hsub =>
                simp only [Option.some.injEq, Except.error.injEq] at h
                subst h
                exact ih _ _ _ _ hsub
              · next arg rest2 hsub =>
                split at h
                · next e happ =>
                  simp only [Option.some.injEq, Except.error.injEq] at h
                  subst h
                  exact Or.inl (applyFunction_thrown A _ _ w happ)
                · exact ih _ _ _ _ h
        · split at h
          · split at h
            · cases h
            · next e hsub =>
              simp only [Option.some.injEq, Except.error.injEq] at h
              subst h
              exact ih _ _ _ _ hsub
            · exact ih _ _ _ _ h
          · split at h
            · next hnum =>
              split at h
              · next what hstod =>
                simp only [Option.some.injEq, Except.error.injEq, Fault.thrown.injEq] at h
                subst h
                exact Or.inr ⟨tok, hnum, hstod⟩
              · exact ih _ _ _ _ h
            · split at h
              · split at h
                · next e hpop =>
                  simp only [Option.some.injEq, Except.error.injEq] at h
                  subst h
                  exact Or.inl (popWhile_thrown A _ w _ _ hpop)
                · exact ih _ _ _ _ h
              · simp only [Option.some.injEq, Except.error.injEq, Fault.thrown.injEq] at h
                subst h
                exact Or.inl (isPrefix_error_append _ _ (isPrefix_error_append _ _ (by decide)))

/-- Every exception that reaches the `catch` of the `try` block carries a
text that begins with `Error:`, or is the exception of a failed `std::stod`. -/
theorem argumentMode_thrown (A : FloatOps F) (s w : Str)
    (h : argumentMode A s = some (.error (.thrown w))) :
    "Error:".toList <+: w ∨ ∃ tok, isNumberToken tok = true ∧ A.stod tok = .error w := by
  unfold argumentMode at h
  split at h
  · simp only [Option.some.injEq, Except.error.injEq, Fault.thrown.injEq] at h
    subst h
    exact Or.inl (by decide)
  · split at h
    · cases h
    · next tokens ht =>
      unfold evaluate evaluateExpression run at h
      cases hr : evaluateExpressionFrom A (tokens.length + 1) tokens [] [] with
      | none => rw [hr] at h; cases h
      | some r =>
        rw [hr] at h
        cases r with
        | ok p => cases h
        | error e =>
          simp only [Option.map_some', Except.map, Option.some.injEq, Except.error.injEq] at h
          subst h
          exact evaluateExpressionFrom_thrown A _ _ _ _ w hr

/-- C16 (numeric tokens reach the number branch), at the failing input `.5`:
the lexer accumulates `.5` as one numeric token and `std::stod` would convert
it to one half, but the test of the number-literal branch is false for it and
the evaluation throws `Error: Invalid token '.5'`. -/
theorem leading_dot_token_rejected :
    tokenize ".5".toList = some [".5".toList] ∧
      numericText ".5".toList = true ∧
      exactOps.stod ".5".toList = .ok (1 / 2) ∧
      isNumberToken ".5".toList = false ∧
      argumentMode exactOps ".5".toList =
        some (.error (.thrown "Error: Invalid token '.5'".toList)) :=
  ⟨by decide, by decide, by decide!, by decide,
    (argumentMode_leading_dot exactOps ".5".toList (by decide) (by decide)).2⟩

/-- A failure of `std::stod` on a token of the number-literal branch leaves
the loop as an exception with the library's text. -/
theorem run_stod_failure (A : FloatOps F) (tok what : Str) (rest : List Str) (nums : List F)
    (ops : List Char) (h : isNumberToken tok = true) (hstod : A.stod tok = .error what) :
    run A (tok :: rest) nums ops = some (.error (.thrown what)) := by
  rw [run_number A tok rest nums ops h, hstod]

/-- C12 (every reported message begins with `Error:`), at the failing input
`--3`: the line is balanced and is one token that the number-literal branch
hands to `std::stod`; the conversion throws, and what reaches the `catch` is
the library's text (`stod` in libstdc++), which does not begin with `Error:`. -/
theorem stod_failure_message :
    checkParentheses "--3".toList = true ∧
      tokenize "--3".toList = some ["--3".toList] ∧
      isNumberToken "--3".toList = true ∧
      exactOps.stod "--3".toList = .error "stod".toList ∧
      argumentMode exactOps "--3".toList = some (.error (.thrown "stod".toList)) ∧
      ¬ "Error:".toList <+: "stod".toList :=
  ⟨by decide, by decide, by decide, by decide!, by decide!, by decide⟩

end NumericTokens


/-! ## The main loop, one iteration at a time -/

section LoopLemmas

variable {F : Type}

/-- The loop at a token other than `)`: one pass through the body, then the
loop again from the state it leaves. -/
theorem run_iteration (A : FloatOps F) (tok : Str) (rest : List Str) (nums : List F)
    (ops : List Char) (h : tok ≠ [')']) :
    run A (tok :: rest) nums ops =
      match iteration A (evaluateExpression A) tok rest nums ops with
      | none => none
      | some (.error e) => some (.error e)
      | some (.ok (c, n, o)) => run A c n o := by
  unfold iteration
  by_cases hα : isalpha (firstChar tok) = true
  · rw [if_pos hα]
    cases rest with
    | nil =>
      rw [run, List.length_cons, evaluateExpressionFrom_cons, if_neg h, if_pos hα]
    | cons paren rest' =>
      by_cases hp : paren = ['(']
      · subst hp
        rw [run_call A tok rest' nums ops hα]
        simp only [ne_eq, not_true_eq_false, if_false, resume, evaluateExpression]
        cases run A rest' [] [] with
        | none => rfl
        | some r =>
          cases r with
          | error e => rfl
          | ok p =>
            obtain ⟨arg, rest''⟩ := p
            simp only []
            cases applyFunction A tok arg with
            | error e => rfl
            | ok v => rfl
      · rw [run, List.length_cons, evaluateExpressionFrom_cons, if_neg h, if_pos hα]
        simp only [ne_eq, hp, not_false_eq_true, if_true]
  · rw [if_neg hα]
    by_cases hopen : tok = ['(']
    · subst hopen
      rw [run_paren, if_pos rfl]
      simp only [resume, evaluateExpression]
      cases run A rest [] [] with
      | none => rfl
      | some r =>
        cases r with
        | error e => rfl
        | ok p => rfl
    · rw [if_neg hopen]
      by_cases hnum : isNumberToken tok = true
      · rw [if_pos hnum, run_number A tok rest nums ops hnum]
        cases A.stod tok with
        | error e => rfl
        | ok v => rfl
      · rw [if_neg hnum]
        by_cases hop : isOperatorToken tok = true
        · rw [if_pos hop]
          obtain ⟨hshape, hcount⟩ := isOperatorToken_shape hop
          have := run_operator A (firstChar tok) rest nums ops hcount
          rw [← hshape] at this
          rw [this]
          cases popWhile A (firstChar tok) nums ops with
          | error e => rfl
          | ok p => rfl
        · rw [if_neg hop, run, List.length_cons, evaluateExpressionFrom_cons, if_neg h,
            if_neg hα, if_neg hopen, if_neg hnum, if_neg hop]

/-- The loop at a cursor where it stops: the end of the call. -/
theorem run_stops (A : FloatOps F) (c : List Str) (nums : List F) (ops : List Char)
    (h : loopStops c = true) : run A c nums ops = some (finish A nums ops c.tail) := by
  cases c with
  | nil => exact run_nil A nums ops
  | cons tok rest =>
    have : tok = [')'] := by simpa [loopStops] using h
    subst this
    exact run_close A rest nums ops

theorem loopStops_cons {tok : Str} {rest : List Str} (h : loopStops (tok :: rest) = false) :
    tok ≠ [')'] := by
  simpa [loopStops] using h

/-- The loop gives the same result from every state it passes through. -/
theorem run_of_reaches (A : FloatOps F) {toks : List Str} {nums : List F} {ops : List Char}
    {c : List Str} {n : List F} {o : List Char} (h : Reaches A toks nums ops c n o) :
    run A toks nums ops = run A c n o := by
  induction h with
  | start => rfl
  | pass tok rest nums ops c n o c' n' o' hne hit _ ih =>
    rw [run_iteration A tok rest nums ops hne, hit]
    exact ih

theorem Reaches.trans (A : FloatOps F) {toks : List Str} {nums : List F} {ops : List Char}
    {c : List Str} {n : List F} {o : List Char} {c' : List Str} {n' : List F} {o' : List Char}
    (h₁ : Reaches A toks nums ops c n o) (h₂ : Reaches A c n o c' n' o') :
    Reaches A toks nums ops c' n' o' := by
  induction h₁ with
  | start => exact h₂
  | pass tok rest nums ops c n o _ _ _ hne hit _ ih =>
    exact Reaches.pass tok rest nums ops c n o _ _ _ hne hit (ih h₂)

/-- A pass through the body leaves the cursor after the token it started at:
at a suffix of the tokens that followed it. -/
theorem iteration_advances (A : FloatOps F) (tok : Str) (rest : List Str) (nums : List F)
    (ops : List Char) (c : List Str) (n : List F) (o : List Char)
    (h : iteration A (evaluateExpression A) tok rest nums ops = some (.ok (c, n, o))) :
    c <:+ rest := by
  unfold iteration at h
  split at h
  · split at h
    · cases h
    · split at h
      · cases h
      · split at h
        · cases h
        · cases h
        · next arg rest'' hsub =>
          have hs := evaluateExpressionFrom_suffix A _ _ _ _ _ _ hsub
          split at h
          · cases h
          · simp only [Option.some.injEq, Except.ok.injEq, Prod.mk.injEq] at h
            rw [← h.1]
            exact hs.trans (List.suffix_cons _ _)
  · split at h
    · split at h
      · cases h
      · cases h
      · next v rest'' hsub =>
        have hs := evaluateExpressionFrom_suffix A _ _ _ _ _ _ hsub
        simp only [Option.some.injEq, Except.ok.injEq, Prod.mk.injEq] at h
        rw [← h.1]
        exact hs
    · split at h
      · split at h
        · cases h
        · simp only [Option.some.injEq, Except.ok.injEq, Prod.mk.injEq] at h
          rw [← h.1]
      · split at h
        · split at h
          · cases h
          · simp only [Option.some.injEq, Except.ok.injEq, Prod.mk.injEq] at h
            rw [← h.1]
        · cases h

/-- A call that returns has run its loop to a cursor where it stops, and its
value comes from the end of the call applied to the stacks found there. -/
theorem run_ok_reaches (A : FloatOps F) : ∀ (k : Nat) (toks : List Str), toks.length ≤ k →
    ∀ (nums : List F) (ops : List Char) (v : F) (rest : List Str),
      run A toks nums ops = some (.ok (v, rest)) →
      ∃ (c : List Str) (n : List F) (o : List Char),
        Reaches A toks nums ops c n o ∧ loopStops c = true ∧
          finish A n o c.tail = .ok (v, rest) := by
  intro k
  induction k with
  | zero =>
    intro toks hlen nums ops v rest h
    have : toks = [] := List.length_eq_zero.1 (Nat.le_zero.1 hlen)
    subst this
    rw [run_nil] at h
    exact ⟨[], nums, ops, Reaches.start _ _ _, rfl, Option.some.inj h⟩
  | succ k ih =>
    intro toks hlen nums ops v rest h
    cases hstop : loopStops toks with
    | true =>
      rw [run_stops A toks nums ops hstop] at h
      exact ⟨toks, nums, ops, Reaches.start _ _ _, hstop, Option.some.inj h⟩
    | false =>
      cases toks with
      | nil => cases hstop
      | cons tok rest0 =>
        have hne := loopStops_cons hstop
        rw [run_iteration A tok rest0 nums ops hne] at h
        cases hit : iteration A (evaluateExpression A) tok rest0 nums ops with
        | none => rw [hit] at h; cases h
        | some r =>
          rw [hit] at h
          cases r with
          | error e => cases h
          | ok p =>
            obtain ⟨c, n, o⟩ := p
            have hadv := (iteration_advances A tok rest0 nums ops c n o hit).length_le
            simp only [List.length_cons, Nat.add_le_add_iff_right] at hlen
            obtain ⟨c', n', o', hreach, hstop', hfin⟩ :=
              ih c (by omega) n o v rest h
            exact ⟨c', n', o', Reaches.pass tok rest0 nums ops c n o _ _ _ hne hit hreach,
              hstop', hfin⟩

end LoopLemmas


/-! ## The order of the operator stack -/

section StackOrder

variable {F : Type}

theorem precedenceAt_bound (c : Char) :
    precedenceAt c ≤ 3 ∧ (precedenceAt c = 3 → c = '^') := by
  by_cases h1 : c = '+'
  · subst h1; decide
  by_cases h2 : c = '-'
  · subst h2; decide
  by_cases h3 : c = '*'
  · subst h3; decide
  by_cases h4 : c = '/'
  · subst h4; decide
  by_cases h5 : c = '^'
  · subst h5; decide
  simp [precedenceAt, precedence, List.lookup, beq_eq_false_iff_ne.2 h1,
    beq_eq_false_iff_ne.2 h2, beq_eq_false_iff_ne.2 h3, beq_eq_false_iff_ne.2 h4,
    beq_eq_false_iff_ne.2 h5]

/-- The pop loop leaves a suffix of the operator stack, whose top (if any) the
incoming operator does not pop. -/
theorem popWhile_ok (A : FloatOps F) (op : Char) :
    ∀ (ops : List Char) (nums n : List F) (o : List Char),
      popWhile A op nums ops = .ok (n, o) →
      o <:+ ops ∧ ∀ top ∈ o.head?,
        ¬ ((op = '^' ∧ precedenceAt op < precedenceAt top) ∨
          (op ≠ '^' ∧ precedenceAt op ≤ precedenceAt top)) := by
  intro ops
  induction ops with
  | nil =>
    intro nums n o h
    simp only [popWhile, Except.ok.injEq, Prod.mk.injEq] at h
    rw [← h.2]
    exact ⟨List.suffix_refl _, by simp⟩
  | cons top ops ih =>
    intro nums n o h
    rw [popWhile_cons] at h
    split at h
    · split at h
      · next b a nums' =>
        cases happ : applyOperation A a b top with
        | error e => rw [happ] at h; cases h
        | ok r =>
          rw [happ] at h
          obtain ⟨hs, ht⟩ := ih _ _ _ h
          exact ⟨hs.trans (List.suffix_cons _ _), ht⟩
      · cases h
    · next hcond =>
      simp only [Except.ok.injEq, Prod.mk.injEq] at h
      rw [← h.2]
      refine ⟨List.suffix_refl _, ?_⟩
      intro t ht
      simp only [List.head?_cons, Option.mem_def, Option.some.injEq] at ht
      rw [← ht]
      exact hcond

/-- Pushing the incoming operator after the pop loop keeps the stack ordered. -/
theorem popWhile_push_ordered (A : FloatOps F) (op : Char) (ops : List Char) (nums n : List F)
    (o : List Char) (hord : stackOrdered ops) (h : popWhile A op nums ops = .ok (n, o)) :
    stackOrdered (op :: o) := by
  obtain ⟨hs, ht⟩ := popWhile_ok A op ops nums n o h
  refine List.Chain'.cons' (List.Chain'.suffix hord hs) ?_
  intro top htop
  have hcond := ht top htop
  by_cases hop : op = '^'
  · subst hop
    have hb := precedenceAt_bound top
    have h3 : precedenceAt '^' = 3 := by decide
    refine ⟨by omega, fun heq => ⟨hb.2 (by omega), rfl⟩⟩
  · have : ¬ precedenceAt op ≤ precedenceAt top := fun hle => hcond (Or.inr ⟨hop, hle⟩)
    exact ⟨by omega, fun heq => absurd (le_of_eq heq.symm) this⟩

/-- A pass through the loop body keeps the operator stack ordered. -/
theorem iteration_ordered (A : FloatOps F)
    (recur : List Str → Option (Except Fault (F × List Str))) (tok : Str) (rest : List Str)
    (nums : List F) (ops : List Char) (c : List Str) (n : List F) (o : List Char)
    (hord : stackOrdered ops)
    (h : iteration A recur tok rest nums ops = some (.ok (c, n, o))) : stackOrdered o := by
  unfold iteration at h
  split at h
  · split at h
    · cases h
    · split at h
      · cases h
      · split at h
        · cases h
        · cases h
        · split at h
          · cases h
          · simp only [Option.some.injEq, Except.ok.injEq, Prod.mk.injEq] at h
            rw [← h.2.2]; exact hord
  · split at h
    · split at h
      · cases h
      · cases h
      · simp only [Option.some.injEq, Except.ok.injEq, Prod.mk.injEq] at h
        rw [← h.2.2]; exact hord
    · split at h
      · split at h
        · cases h
        · simp only [Option.some.injEq, Except.ok.injEq, Prod.mk.injEq] at h
          rw [← h.2.2]; exact hord
      · split at h
        · split at h
          · cases h
          · next nums' ops' hpop =>
            simp only [Option.some.injEq, Except.ok.injEq, Prod.mk.injEq] at h
            rw [← h.2.2]
            exact popWhile_push_ordered A _ ops nums nums' ops' hord hpop
        · cases h

/-- Every state the loop passes through has an ordered operator stack, when
the state it started from has one. -/
theorem reaches_ordered (A : FloatOps F) {toks : List Str} {nums : List F} {ops : List Char}
    {c : List Str} {n : List F} {o : List Char} (h : Reaches A toks nums ops c n o)
    (hord : stackOrdered ops) : stackOrdered o := by
  induction h with
  | start => exact hord
  | pass tok rest nums ops c n o _ _ _ _ hit _ ih =>
    exact ih (iteration_ordered A _ tok rest nums ops c n o hord hit)

/-- C20 (operator-stack invariant). In every state the main loop of a call
passes through (a call starts with an empty operator stack), the operator
stack is ordered: read from the bottom, the precedence never decreases, and
two neighbours have the same precedence only when both are `^`. The stacks
inside the pop loop and the final drain are suffixes of such a stack, so they
are ordered too, and the operators the drain applies one after the other
(the list from its head) have the same precedence only when both are `^`. -/
theorem operator_stack_ordered (A : FloatOps F) :
    (∀ (toks c : List Str) (nums n : List F) (o : List Char),
        Reaches A toks nums [] c n o → stackOrdered o) ∧
      (∀ ops o : List Char, stackOrdered ops → o <:+ ops → stackOrdered o) ∧
      (∀ (op : Char) (ops o : List Char) (nums n : List F), stackOrdered ops →
        popWhile A op nums ops = .ok (n, o) → o <:+ ops ∧ stackOrdered (op :: o)) ∧
      ∀ (o : List Char), stackOrdered o →
        ∀ (i : Nat) (h : i + 1 < o.length),
          precedenceAt (o.get ⟨i + 1, h⟩) ≤ precedenceAt (o.get ⟨i, Nat.lt_of_succ_lt h⟩) ∧
          (precedenceAt (o.get ⟨i + 1, h⟩) = precedenceAt (o.get ⟨i, Nat.lt_of_succ_lt h⟩) →
            o.get ⟨i + 1, h⟩ = '^' ∧ o.get ⟨i, Nat.lt_of_succ_lt h⟩ = '^') := by
  refine ⟨?_, ?_, ?_, ?_⟩
  · intro toks c nums n o h
    exact reaches_ordered A h List.chain'_nil
  · intro ops o hord hs
    exact List.Chain'.suffix hord hs
  · intro op ops o nums n hord h
    exact ⟨(popWhile_ok A op ops nums n o h).1, popWhile_push_ordered A op ops nums n o hord h⟩
  · intro o hord i h
    have := List.chain'_iff_get.1 hord i (by omega)
    exact this

end StackOrder

section StackOrderWitness

/-- Witness of C20 in exact arithmetic: on the tokens of `1+2*3^4^5` the loop
reaches the end with the operators `^ ^ * +` on the stack (top first), an
ordered stack. -/
theorem operator_stack_ordered_witness :
    Reaches exactOps [['1'], ['+'], ['2'], ['*'], ['3'], ['^'], ['4'], ['^'], ['5']] [] []
        [] [5, 4, 3, 2, 1] ['^', '^', '*', '+'] ∧
      stackOrdered ['^', '^', '*', '+'] :=
  have h : Reaches exactOps [['1'], ['+'], ['2'], ['*'], ['3'], ['^'], ['4'], ['^'], ['5']] [] []
      [] [5, 4, 3, 2, 1] ['^', '^', '*', '+'] :=
    Reaches.pass ['1'] [['+'], ['2'], ['*'], ['3'], ['^'], ['4'], ['^'], ['5']] [] [] [['+'], ['2'], ['*'], ['3'], ['^'], ['4'], ['^'], ['5']] [1] [] _ _ _ (by decide) (by decide!)
      (Reaches.pass ['+'] [['2'], ['*'], ['3'], ['^'], ['4'], ['^'], ['5']] [1] [] [['2'], ['*'], ['3'], ['^'], ['4'], ['^'], ['5']] [1] ['+'] _ _ _ (by decide) (by decide!)
      (Reaches.pass ['2'] [['*'], ['3'], ['^'], ['4'], ['^'], ['5']] [1] ['+'] [['*'], ['3'], ['^'], ['4'], ['^'], ['5']] [2, 1] ['+'] _ _ _ (by decide) (by decide!)
      (Reaches.pass ['*'] [['3'], ['^'], ['4'], ['^'], ['5']] [2, 1] ['+'] [['3'], ['^'], ['4'], ['^'], ['5']] [2, 1] ['*', '+'] _ _ _ (by decide) (by decide!)
      (Reaches.pass ['3'] [['^'], ['4'], ['^'], ['5']] [2, 1] ['*', '+'] [['^'], ['4'], ['^'], ['5']] [3, 2, 1] ['*', '+'] _ _ _ (by decide) (by decide!)
      (Reaches.pass ['^'] [['4'], ['^'], ['5']] [3, 2, 1] ['*', '+'] [['4'], ['^'], ['5']] [3, 2, 1] ['^', '*', '+'] _ _ _ (by decide) (by decide!)
      (Reaches.pass ['4'] [['^'], ['5']] [3, 2, 1] ['^', '*', '+'] [['^'], ['5']] [4, 3, 2, 1] ['^', '*', '+'] _ _ _ (by decide) (by decide!)
      (Reaches.pass ['^'] [['5']] [4, 3, 2, 1] ['^', '*', '+'] [['5']] [4, 3, 2, 1] ['^', '^', '*', '+'] _ _ _ (by decide) (by decide!)
      (Reaches.pass ['5'] [] [4, 3, 2, 1] ['^', '^', '*', '+'] [] [5, 4, 3, 2, 1] ['^', '^', '*', '+'] _ _ _ (by decide) (by decide!)
      (Reaches.start [] [5, 4, 3, 2, 1] ['^', '^', '*', '+'])))))))))
  ⟨h, (operator_stack_ordered exactOps).1 _ _ _ _ _ h⟩

end StackOrderWitness

/-! ## Termination and the advance of the cursor -/

section Termination

variable {F : Type}

/-- The body of the loop calls `recur` only on suffixes of the tokens that
follow the token it is at. -/
theorem iteration_local (A : FloatOps F)
    (recur₁ recur₂ : List Str → Option (Except Fault (F × List Str))) (tok : Str)
    (rest : List Str) (nums : List F) (ops : List Char)
    (h : ∀ ts : List Str, ts <:+ rest → recur₁ ts = recur₂ ts) :
    iteration A recur₁ tok rest nums ops = iteration A recur₂ tok rest nums ops := by
  unfold iteration
  split
  · cases rest with
    | nil => rfl
    | cons paren rest' =>
      simp only []
      rw [h rest' (List.suffix_cons _ _)]
  · rw [h rest (List.suffix_refl _)]

/-- Every state the loop passes through has its cursor at a suffix of the
tokens it started at. -/
theorem reaches_suffix (A : FloatOps F) {toks : List Str} {nums : List F} {ops : List Char}
    {c : List Str} {n : List F} {o : List Char} (h : Reaches A toks nums ops c n o) :
    c <:+ toks := by
  induction h with
  | start => exact List.suffix_refl _
  | pass tok rest nums ops c n o _ _ _ _ hit _ ih =>
    exact ih.trans ((iteration_advances A tok rest nums ops c n o hit).trans
      (List.suffix_cons _ _))

/-- C17 (termination). From every cursor and every pair of stacks the loop of
`evaluateExpression` ends, with a value or a fault, and so does every call.
The loop at a token other than `)` is one pass through its body followed by
the loop again; a pass that does not fail leaves the cursor at a suffix of the
tokens after the one it started at (at least one token further); the body
makes its recursive call only at such suffixes (strictly further than its own
cursor, hence than the cursor its call was entered with); and every cursor,
inside a call and at its return, is a suffix of the cursor the call was
entered with, so it never passes the end. -/
theorem evaluateExpression_terminates (A : FloatOps F) :
    (∀ (toks : List Str) (nums : List F) (ops : List Char),
        ∃ r, run A toks nums ops = some r) ∧
      (∀ toks : List Str, ∃ r, evaluateExpression A toks = some r) ∧
      (∀ (tok : Str) (rest : List Str) (nums : List F) (ops : List Char), tok ≠ [')'] →
        run A (tok :: rest) nums ops =
          match iteration A (evaluateExpression A) tok rest nums ops with
          | none => none
          | some (.error e) => some (.error e)
          | some (.ok (c, n, o)) => run A c n o) ∧
      (∀ (tok : Str) (rest : List Str) (nums : List F) (ops : List Char) (c : List Str)
          (n : List F) (o : List Char),
        iteration A (evaluateExpression A) tok rest nums ops = some (.ok (c, n, o)) →
        c <:+ rest ∧ c.length < (tok :: rest).length) ∧
      (∀ (recur₁ recur₂ : List Str → Option (Except Fault (F × List Str))) (tok : Str)
          (rest : List Str) (nums : List F) (ops : List Char),
        (∀ ts : List Str, ts <:+ rest → recur₁ ts = recur₂ ts) →
        iteration A recur₁ tok rest nums ops = iteration A recur₂ tok rest nums ops) ∧
      (∀ (toks c : List Str) (nums n : List F) (ops o : List Char),
        Reaches A toks nums ops c n o → c <:+ toks) ∧
      ∀ (toks rest : List Str) (v : F),
        evaluateExpression A toks = some (.ok (v, rest)) → rest <:+ toks := by
  refine ⟨?_, ?_, run_iteration A, ?_, iteration_local A, ?_, ?_⟩
  · intro toks nums ops
    exact Option.isSome_iff_exists.1 (run_isSome A toks nums ops)
  · intro toks
    exact Option.isSome_iff_exists.1 (run_isSome A toks [] [])
  · intro tok rest nums ops c n o h
    have hs := iteration_advances A tok rest nums ops c n o h
    exact ⟨hs, Nat.lt_succ_of_le hs.length_le⟩
  · intro toks c nums n ops o h
    exact reaches_suffix A h
  · intro toks rest v h
    exact evaluateExpressionFrom_suffix A _ _ _ _ _ _ h

/-- Witness of C17 in exact arithmetic: on the tokens of `2*(3+4)` the pass at
`(` makes its recursive call on the following tokens and leaves the cursor at
the end, and the call returns `14` there. -/
theorem evaluateExpression_terminates_witness :
    iteration exactOps (evaluateExpression exactOps) ['('] [['3'], ['+'], ['4'], [')']] [2] ['*'] =
        some (.ok ([], [7, 2], ['*'])) ∧
      ([] : List Str) <:+ [['3'], ['+'], ['4'], [')']] ∧
      evaluateExpression exactOps [['2'], ['*'], ['('], ['3'], ['+'], ['4'], [')']] =
        some (.ok (14, [])) ∧
      ([] : List Str) <:+ [['2'], ['*'], ['('], ['3'], ['+'], ['4'], [')']] :=
  have h₁ : iteration exactOps (evaluateExpression exactOps) ['('] [['3'], ['+'], ['4'], [')']]
      [2] ['*'] = some (.ok ([], [7, 2], ['*'])) := by decide!
  have h₂ : evaluateExpression exactOps [['2'], ['*'], ['('], ['3'], ['+'], ['4'], [')']] =
      some (.ok (14, [])) := by decide!
  ⟨h₁, ((evaluateExpression_terminates exactOps).2.2.2.1 _ _ _ _ _ _ _ h₁).1, h₂,
    (evaluateExpression_terminates exactOps).2.2.2.2.2.2 _ _ _ h₂⟩

end Termination


/-! ## The value a call returns -/

section ReturnedValue

variable {F : Type}

theorem finish_ok_iff (A : FloatOps F) (nums : List F) (ops : List Char) (rest rest' : List Str)
    (v : F) :
    finish A nums ops rest = .ok (v, rest') ↔
      rest' = rest ∧ ∃ below, drain A nums ops = .ok (v :: below) := by
  unfold finish
  split
  · next e he => simp [he]
  · next he => simp [he]
  · next w ws he =>
    simp only [Except.ok.injEq, Prod.mk.injEq, he, List.cons.injEq, exists_eq_right']
    constructor
    · rintro ⟨rfl, rfl⟩; exact ⟨rfl, rfl⟩
    · rintro ⟨rfl, rfl⟩; exact ⟨rfl, rfl⟩

theorem finish_empty (A : FloatOps F) (nums : List F) (ops : List Char) (rest : List Str)
    (h : drain A nums ops = .ok []) :
    finish A nums ops rest = .error (.thrown "Error: Empty expression!".toList) := by
  simp only [finish, h]

/-- C13 as amended (the returned value is the top operand). Whenever
`evaluateExpression` returns a value, its loop has stopped (at the end or at
a `)`, which the call consumes) in a state whose drain leaves at least one
operand, and the value returned is the top one; conversely such a state
yields that value, and a state whose drain leaves no operand yields the
`Error: Empty expression!` exception instead of a value. Operands below the
top are not looked at. -/
theorem returned_value_is_top (A : FloatOps F) :
    (∀ (toks rest : List Str) (v : F), evaluateExpression A toks = some (.ok (v, rest)) →
        ∃ (c : List Str) (n : List F) (o : List Char) (below : List F),
          Reaches A toks [] [] c n o ∧ loopStops c = true ∧ rest = c.tail ∧
            drain A n o = .ok (v :: below)) ∧
      (∀ (toks c : List Str) (n : List F) (o : List Char) (v : F) (below : List F),
        Reaches A toks [] [] c n o → loopStops c = true → drain A n o = .ok (v :: below) →
        evaluateExpression A toks = some (.ok (v, c.tail))) ∧
      ∀ (toks c : List Str) (n : List F) (o : List Char),
        Reaches A toks [] [] c n o → loopStops c = true → drain A n o = .ok [] →
        evaluateExpression A toks =
          some (.error (.thrown "Error: Empty expression!".toList)) := by
  refine ⟨?_, ?_, ?_⟩
  · intro toks rest v h
    obtain ⟨c, n, o, hreach, hstop, hfin⟩ :=
      run_ok_reaches A toks.length toks (le_refl _) [] [] v rest h
    obtain ⟨hrest, below, hdrain⟩ := (finish_ok_iff A n o c.tail rest v).1 hfin
    exact ⟨c, n, o, below, hreach, hstop, hrest, hdrain⟩
  · intro toks c n o v below hreach hstop hdrain
    rw [evaluateExpression, run_of_reaches A hreach, run_stops A c n o hstop]
    exact congrArg some ((finish_ok_iff A n o c.tail c.tail v).2 ⟨rfl, below, hdrain⟩)
  · intro toks c n o hreach hstop hdrain
    rw [evaluateExpression, run_of_reaches A hreach, run_stops A c n o hstop,
      finish_empty A n o c.tail hdrain]

/-- Witness of the amended C13 in exact arithmetic: on the tokens of `2+3` the
call returns `5`, the top (and only) operand after the drain. -/
theorem returned_value_is_top_witness :
    evaluateExpression exactOps [['2'], ['+'], ['3']] = some (.ok (5, [])) ∧
      ∃ (c : List Str) (n : List ℚ) (o : List Char) (below : List ℚ),
        Reaches exactOps [['2'], ['+'], ['3']] [] [] c n o ∧ loopStops c = true ∧
          ([] : List Str) = c.tail ∧ drain exactOps n o = .ok (5 :: below) :=
  have h : evaluateExpression exactOps [['2'], ['+'], ['3']] = some (.ok (5, [])) := by decide!
  ⟨h, (returned_value_is_top exactOps).1 _ _ _ h⟩

/-- Counterexample to C13 as stated: the line `2(3)` has the tokens `2 ( 3 )`;
the call returns the value `3`, yet its loop ends with the two operands `3`
and `2` on the stack and no operator, so that two operands are left after the
drain and no error is reported. -/
theorem extra_operand_returned :
    checkParentheses "2(3)".toList = true ∧
      tokenize "2(3)".toList = some [['2'], ['('], ['3'], [')']] ∧
      evaluateExpression exactOps [['2'], ['('], ['3'], [')']] = some (.ok (3, [])) ∧
      argumentMode exactOps "2(3)".toList = some (.ok 3) ∧
      Reaches exactOps [['2'], ['('], ['3'], [')']] [] [] [] [3, 2] [] ∧
      drain exactOps [3, 2] [] = .ok [3, 2] :=
  ⟨by decide, by decide, by decide!, by decide!,
    Reaches.pass ['2'] [['('], ['3'], [')']] [] [] [['('], ['3'], [')']] [2] [] _ _ _
      (by decide) (by decide!)
      (Reaches.pass ['('] [['3'], [')']] [2] [] [] [3, 2] [] _ _ _ (by decide) (by decide!)
        (Reaches.start [] [3, 2] [])),
    rfl⟩

end ReturnedValue


/-! ## Lines that evaluate to a value -/

section WellFormedLines

variable {F : Type}

/-- The `try` block ends on every line: with a value or with a fault. -/
theorem argumentMode_isSome (A : FloatOps F) (s : Str) : ∃ r, argumentMode A s = some r := by
  unfold argumentMode
  split
  · exact ⟨_, rfl⟩
  · obtain ⟨ts, hts⟩ := Option.isSome_iff_exists.1
      (tokenizeFrom_isSome _ none s [] [] (Nat.lt_succ_self _))
    have hts' : tokenize s = some ts := hts
    rw [hts']
    obtain ⟨r, hr⟩ := Option.isSome_iff_exists.1 (run_isSome A ts [] [])
    exact ⟨r.map Prod.fst, by simp only [evaluate, evaluateExpression, hr, Option.map_some']⟩

/-- The loop over the tokens of an expression of the grammar ends with its
value. -/
theorem evaluate_of_derives (A : FloatOps F) (ts : List Str) (v : F)
    (h : Derives A .expr ts v) : evaluate A ts = some (.ok v) := by
  have := run_derives A .expr ts v h [] [] [] trivial rfl
  rw [List.append_nil, run_nil] at this
  simp only [evaluate, evaluateExpression, this, finish, drain]
  rfl

theorem applyOperation_key_fault (A : FloatOps F) (a b : F) (op : Char) (e : Fault)
    (hop : precedenceCount op = true) (h : applyOperation A a b op = .error e) :
    e = .thrown "Error: Division by zero!".toList := by
  rcases (precedenceCount_iff op).1 hop with rfl | rfl | rfl | rfl | rfl
  · cases h
  · cases h
  · cases h
  · have h' : (if A.isZero b = true
        then Except.error (Fault.thrown "Error: Division by zero!".toList)
        else Except.ok (A.div a b)) = Except.error e := h
    split at h'
    · injection h' with h'; exact h'.symm
    · cases h'
  · cases h

theorem applyFunction_known_fault (A : FloatOps F) (fn : Str) (x : F) (e : Fault)
    (hfn : fn ∈ functionNames) (h : applyFunction A fn x = .error e) :
    e = .thrown "Error: log domain error!".toList := by
  simp only [functionNames, List.mem_cons, List.mem_singleton, List.not_mem_nil, or_false] at hfn
  rcases hfn with rfl | rfl | rfl | rfl | rfl | rfl
  · cases h
  · rw [applyFunction_log A _ (Or.inl rfl)] at h
    split at h
    · injection h with h; exact h.symm
    · cases h
  · rw [applyFunction_log A _ (Or.inr rfl)] at h
    split at h
    · injection h with h; exact h.symm
    · cases h
  · cases h
  · cases h
  · cases h

theorem popWhile_fault (A : FloatOps F) (op : Char) (e : Fault) :
    ∀ (ops : List Char) (nums : List F), (∀ o ∈ ops, precedenceCount o = true) →
      popWhile A op nums ops = .error e →
      e = .undefinedBehaviour ∨ e = .thrown "Error: Division by zero!".toList := by
  intro ops
  induction ops with
  | nil => intro nums _ h; cases h
  | cons top ops ih =>
    intro nums hkeys h
    rw [popWhile_cons] at h
    split at h
    · split at h
      · next b a nums' =>
        cases happ : applyOperation A a b top with
        | error e' =>
          rw [happ] at h
          injection h with h
          subst h
          exact Or.inr (applyOperation_key_fault A a b top _
            (hkeys top (List.mem_cons_self _ _)) happ)
        | ok r =>
          rw [happ] at h
          exact ih _ (fun o ho => hkeys o (List.mem_cons_of_mem _ ho)) h
      · injection h with h
        exact Or.inl h.symm
    · cases h

theorem drain_fault (A : FloatOps F) (e : Fault) :
    ∀ (ops : List Char) (nums : List F), (∀ o ∈ ops, precedenceCount o = true) →
      drain A nums ops = .error e →
      e = .undefinedBehaviour ∨ e = .thrown "Error: Division by zero!".toList := by
  intro ops
  induction ops with
  | nil => intro nums _ h; cases h
  | cons op ops ih =>
    intro nums hkeys h
    match nums, h with
    | [], h => injection h with h; exact Or.inl h.symm
    | [_], h => injection h with h; exact Or.inl h.symm
    | b :: a :: nums', h =>
      simp only [drain] at h
      cases happ : applyOperation A a b op with
      | error e' =>
        rw [happ] at h
        injection h with h
        subst h
        exact Or.inr (applyOperation_key_fault A a b op _
          (hkeys op (List.mem_cons_self _ _)) happ)
      | ok r =>
        rw [happ] at h
        exact ih _ (fun o ho => hkeys o (List.mem_cons_of_mem _ ho)) h

theorem finish_fault (A : FloatOps F) (nums : List F) (ops : List Char) (rest : List Str)
    (e : Fault) (hkeys : ∀ o ∈ ops, precedenceCount o = true)
    (h : finish A nums ops rest = .error e) :
    e = .undefinedBehaviour ∨ e = .thrown "Error: Division by zero!".toList ∨
      e = .thrown "Error: log domain error!".toList ∨
      e = .thrown "Error: Empty expression!".toList := by
  unfold finish at h
  split at h
  · next e' hd =>
    injection h with h
    subst h
    rcases drain_fault A _ ops nums hkeys hd with h | h
    · exact Or.inl h
    · exact Or.inr (Or.inl h)
  · injection h with h
    exact Or.inr (Or.inr (Or.inr h.symm))
  · cases h

theorem validTokens_cons {tok : Str} {rest : List Str} (h : validTokens (tok :: rest) = true) :
    validTokens rest = true ∧
      (tok ∈ functionNames → rest.head? = some ['(']) ∧
      (tok ∉ functionNames →
        numericLiteral tok = true ∨ isOperatorToken tok = true ∨ tok = ['('] ∨ tok = [')']) := by
  simp only [validTokens, Bool.and_eq_true] at h
  refine ⟨h.2, ?_, ?_⟩
  · intro hfn
    have := h.1
    rw [if_pos hfn] at this
    simpa using this
  · intro hfn
    have := h.1
    rw [if_neg hfn] at this
    simpa [or_assoc] using this

theorem validTokens_suffix {rest toks : List Str} (hs : rest <:+ toks)
    (h : validTokens toks = true) : validTokens rest = true := by
  obtain ⟨pre, rfl⟩ := hs
  induction pre with
  | nil => exact h
  | cons t pre ih => exact ih (validTokens_cons h).1

/-- The token of the function branch of a valid sequence is a known name. -/
theorem valid_alpha_known {tok : Str} {rest : List Str} (h : validTokens (tok :: rest) = true)
    (hα : isalpha (firstChar tok) = true) : tok ∈ functionNames := by
  by_contra hfn
  rcases (validTokens_cons h).2.2 hfn with h | h | h | h
  · have := (isNumberToken_shape (numericLiteral_isNumberToken h)).2.1
    rw [hα] at this
    cases this
  · obtain ⟨hshape, hcount⟩ := isOperatorToken_shape h
    rcases (precedenceCount_iff _).1 hcount with hc | hc | hc | hc | hc <;>
      (rw [hc] at hα; revert hα; decide)
  · subst h; revert hα; decide
  · subst h; revert hα; decide

/-- The token of the number branch of a valid sequence is a numeric literal. -/
theorem valid_number_literal {tok : Str} {rest : List Str}
    (h : validTokens (tok :: rest) = true) (hnum : isNumberToken tok = true) :
    numericLiteral tok = true := by
  have hshape := isNumberToken_shape hnum
  have hfn : tok ∉ functionNames := by
    intro hfn
    have := functionNames_alpha hfn
    rw [hshape.2.1] at this
    cases this
  rcases (validTokens_cons h).2.2 hfn with h | h | h | h
  · exact h
  · obtain ⟨hs, hcount⟩ := isOperatorToken_shape h
    rw [hs] at hnum
    exfalso
    rcases (precedenceCount_iff _).1 hcount with hc | hc | hc | hc | hc <;>
      (rw [hc] at hnum; revert hnum; decide)
  · exact absurd h hshape.2.2
  · exact absurd h hshape.1

/-- The faults of the evaluator on valid tokens whose literals `std::stod`
converts: a read of an empty operand stack, or one of the three exceptions
for a division by zero, a log domain error and an empty expression. -/
theorem evaluateExpressionFrom_valid (A : FloatOps F) :
    ∀ (fuel : Nat) (toks : List Str) (nums : List F) (ops : List Char) (e : Fault),
      validTokens toks = true →
      (∀ tok ∈ toks, numericLiteral tok = true → ∃ v, A.stod tok = .ok v) →
      (∀ o ∈ ops, precedenceCount o = true) →
      evaluateExpressionFrom A fuel toks nums ops = some (.error e) →
      e = .undefinedBehaviour ∨ e = .thrown "Error: Division by zero!".toList ∨
        e = .thrown "Error: log domain error!".toList ∨
        e = .thrown "Error: Empty expression!".toList := by
  intro fuel
  induction fuel with
  | zero => intro toks nums ops e _ _ _ h; simp [evaluateExpressionFrom] at h
  | succ fuel ih =>
    intro toks nums ops e hvalid hstod hkeys h
    cases toks with
    | nil =>
      simp only [evaluateExpressionFrom, Option.some.injEq] at h
      exact finish_fault A _ _ _ e hkeys h
    | cons tok rest0 =>
      have hvrest := (validTokens_cons hvalid).1
      have hstodrest : ∀ t ∈ rest0, numericLiteral t = true → ∃ v, A.stod t = .ok v :=
        fun t ht => hstod t (List.mem_cons_of_mem _ ht)
      have hsub : ∀ (sub rest' : List Str), sub <:+ rest' → rest' <:+ rest0 →
          validTokens sub = true ∧
            ∀ t ∈ sub, numericLiteral t = true → ∃ v, A.stod t = .ok v :=
        fun sub rest' h₁ h₂ => ⟨validTokens_suffix (h₁.trans h₂) hvrest,
          fun t ht => hstodrest t ((h₁.trans h₂).subset ht)⟩
      rw [evaluateExpressionFrom_cons] at h
      split at h
      · simp only [Option.some.injEq] at h
        exact finish_fault A _ _ _ e hkeys h
      · split at h
        · next hα =>
          have hfn := valid_alpha_known hvalid hα
          have hnext := (validTokens_cons hvalid).2.1 hfn
          split at h
          · simp at hnext
          · next paren rest' =>
            have hparen : paren = ['('] := by simpa using hnext
            subst hparen
            rw [if_neg (by simp)] at h
            obtain ⟨hv', hs'⟩ := hsub rest' rest' (List.suffix_refl _) (List.suffix_cons _ _)
            split at h
            · cases h
            · next e' hcall =>
              simp only [Option.some.injEq, Except.error.injEq] at h
              subst h
              exact ih _ _ _ _ hv' hs' (by simp) hcall
            · next arg rest'' hcall =>
              have hsuf := evaluateExpressionFrom_suffix A _ _ _ _ _ _ hcall
              obtain ⟨hv'', hs''⟩ := hsub rest'' rest' hsuf (List.suffix_cons _ _)
              split at h
              · next e' happ =>
                simp only [Option.some.injEq, Except.error.injEq] at h
                subst h
                exact Or.inr (Or.inr (Or.inl (applyFunction_known_fault A tok arg _ hfn happ)))
              · exact ih _ _ _ _ hv'' hs'' hkeys h
        · split at h
          · obtain ⟨hv', hs'⟩ := hsub rest0 rest0 (List.suffix_refl _) (List.suffix_refl _)
            split at h
            · cases h
            · next e' hcall =>
              simp only [Option.some.injEq, Except.error.injEq] at h
              subst h
              exact ih _ _ _ _ hv' hs' (by simp) hcall
            · next w rest'' hcall =>
              have hsuf := evaluateExpressionFrom_suffix A _ _ _ _ _ _ hcall
              obtain ⟨hv'', hs''⟩ := hsub rest'' rest0 hsuf (List.suffix_refl _)
              exact ih _ _ _ _ hv'' hs'' hkeys h
          · split at h
            · next hnum =>
              obtain ⟨v, hv⟩ := hstod tok (List.mem_cons_self _ _)
                (valid_number_literal hvalid hnum)
              rw [hv] at h
              exact ih _ _ _ _ hvrest hstodrest hkeys h
            · split at h
              · next hop =>
                have hcount := (isOperatorToken_shape hop).2
                split at h
                · next e' hpop =>
                  simp only [Option.some.injEq, Except.error.injEq] at h
                  subst h
                  rcases popWhile_fault A _ _ ops nums hkeys hpop with h | h
                  · exact Or.inl h
                  · exact Or.inr (Or.inl h)
                · next nums' ops' hpop =>
                  refine ih _ _ _ _ hvrest hstodrest ?_ h
                  intro o ho
                  rcases List.mem_cons.1 ho with rfl | ho
                  · exact hcount
                  · exact hkeys o ((popWhile_ok A _ ops nums nums' ops' hpop).1.subset ho)
              · next hclose hα hopen hnum hop =>
                exfalso
                have hfn : tok ∉ functionNames := fun hfn => hα (functionNames_alpha hfn)
                rcases (validTokens_cons hvalid).2.2 hfn with h' | h' | h' | h'
                · exact hnum (numericLiteral_isNumberToken h')
                · exact hop h'
                · exact hopen h'
                · exact hclose h'

/-- C11 as amended (what a line of valid tokens can end in). Evaluation ends on
every input line. On a line with balanced parentheses and valid tokens only,
whose numeric literals `std::stod` converts, an evaluation that reads no
empty operand stack returns a value or raises one of three exceptions:
division by zero, log domain error, empty expression. When moreover the
tokens form an expression of the grammar (operators between operands,
parentheses around expressions, function names followed by a parenthesised
expression) in which no division by zero and no log domain error arises, it
returns the value of the expression: no exception is raised and no empty
operand stack is read. -/
theorem wellformed_line_returns (A : FloatOps F) :
    (∀ s : Str, ∃ r, argumentMode A s = some r) ∧
      (∀ (s : Str) (ts : List Str) (r : Except Fault F), checkParentheses s = true →
        tokenize s = some ts → validTokens ts = true →
        (∀ tok ∈ ts, numericLiteral tok = true → ∃ v, A.stod tok = .ok v) →
        argumentMode A s = some r → r ≠ .error .undefinedBehaviour →
        (∃ v, r = .ok v) ∨ r = .error (.thrown "Error: Division by zero!".toList) ∨
          r = .error (.thrown "Error: log domain error!".toList) ∨
          r = .error (.thrown "Error: Empty expression!".toList)) ∧
      ∀ (s : Str) (ts : List Str) (v : F), checkParentheses s = true →
        tokenize s = some ts → Derives A .expr ts v →
        argumentMode A s = some (.ok v) := by
  refine ⟨argumentMode_isSome A, ?_, ?_⟩
  · intro s ts r hbal htok hvalid hstod hr hub
    simp only [argumentMode, hbal, htok, Bool.not_true, Bool.false_eq_true, if_false,
      evaluate, evaluateExpression, run] at hr
    cases hrun : evaluateExpressionFrom A (ts.length + 1) ts [] [] with
    | none => rw [hrun] at hr; cases hr
    | some r' =>
      rw [hrun] at hr
      simp only [Option.map_some', Option.some.injEq] at hr
      subst hr
      cases r' with
      | ok p => exact Or.inl ⟨p.1, rfl⟩
      | error e =>
        rcases evaluateExpressionFrom_valid A _ ts [] [] e hvalid hstod (by simp) hrun with
          h | h | h | h
        · subst h; exact absurd rfl hub
        · subst h; exact Or.inr (Or.inl rfl)
        · subst h; exact Or.inr (Or.inr (Or.inl rfl))
        · subst h; exact Or.inr (Or.inr (Or.inr rfl))
  · intro s ts v hbal htok hder
    simp only [argumentMode, hbal, htok, evaluate_of_derives A ts v hder, Bool.not_true,
      Bool.false_eq_true, if_false]

/-- Witness of the amended C11 in exact arithmetic: `2*(3+4)` is `14`, and the
outcome of the valid line `1/0`, which reads no empty operand stack, is one
of the four the amended claim lists. -/
theorem wellformed_line_returns_witness :
    argumentMode exactOps "2*(3+4)".toList = some (.ok 14) ∧
      (validTokens [['1'], ['/'], ['0']] = true ∧
        argumentMode exactOps "1/0".toList =
          some (.error (.thrown "Error: Division by zero!".toList)) ∧
        ((∃ v : ℚ, Except.error (Fault.thrown "Error: Division by zero!".toList) = .ok v) ∨
          (Except.error (Fault.thrown "Error: Division by zero!".toList) : Except Fault ℚ) =
            .error (.thrown "Error: Division by zero!".toList) ∨
          (Except.error (Fault.thrown "Error: Division by zero!".toList) : Except Fault ℚ) =
            .error (.thrown "Error: log domain error!".toList) ∨
          (Except.error (Fault.thrown "Error: Division by zero!".toList) : Except Fault ℚ) =
            .error (.thrown "Error: Empty expression!".toList))) :=
  have num : ∀ (tok : Str) (v : ℚ), isNumberToken tok = true → exactOps.stod tok = .ok v →
      ∀ L : Level, Derives exactOps L [tok] v := fun tok v h₁ h₂ L =>
    have a := Derives.number (A := exactOps) tok v h₁ h₂
    match L with
    | .atom => a
    | .factor => .ofAtom _ _ a
    | .term => .ofFactor _ _ (.ofAtom _ _ a)
    | .expr => .ofTerm _ _ (.ofFactor _ _ (.ofAtom _ _ a))
  have inner : Derives exactOps .expr [['3'], ['+'], ['4']] 7 :=
    .sum '+' [['3']] [['4']] 3 4 7 (Or.inl rfl) (num ['3'] 3 (by decide) (by decide!) .expr)
      (num ['4'] 4 (by decide) (by decide!) .term) (by decide!)
  have whole : Derives exactOps .expr [['2'], ['*'], ['('], ['3'], ['+'], ['4'], [')']] 14 :=
    .ofTerm _ _ (.product '*' [['2']] [['('], ['3'], ['+'], ['4'], [')']] 2 7 14 (Or.inl rfl)
      (num ['2'] 2 (by decide) (by decide!) .term)
      (.ofAtom _ _ (.paren [['3'], ['+'], ['4']] 7 inner)) (by decide!))
  have lits : ∀ tok ∈ [['1'], ['/'], ['0']], numericLiteral tok = true →
      ∃ v, exactOps.stod tok = .ok v := by
    intro tok htok hlit
    simp only [List.mem_cons, List.mem_singleton, List.not_mem_nil, or_false] at htok
    rcases htok with rfl | rfl | rfl
    · exact ⟨1, by decide!⟩
    · exact absurd hlit (by decide)
    · exact ⟨0, by decide!⟩
  ⟨(wellformed_line_returns exactOps).2.2 "2*(3+4)".toList _ 14 (by decide) (by decide) whole,
    by decide, by decide!,
    (wellformed_line_returns exactOps).2.1 "1/0".toList [['1'], ['/'], ['0']] _ (by decide)
      (by decide) (by decide) lits (by decide!) (by intro h; cases h)⟩

/-- Counterexample to C11 as stated: the lines `1/0` and `()` have balanced
parentheses and valid tokens only, and evaluation ends with the
division-by-zero exception and with the empty-expression exception. -/
theorem valid_tokens_raise :
    (checkParentheses "1/0".toList = true ∧
      tokenize "1/0".toList = some [['1'], ['/'], ['0']] ∧
      validTokens [['1'], ['/'], ['0']] = true ∧
      argumentMode exactOps "1/0".toList =
        some (.error (.thrown "Error: Division by zero!".toList))) ∧
    (checkParentheses "()".toList = true ∧
      tokenize "()".toList = some [['('], [')']] ∧
      validTokens [['('], [')']] = true ∧
      argumentMode exactOps "()".toList =
        some (.error (.thrown "Error: Empty expression!".toList))) :=
  ⟨⟨by decide, by decide, by decide, by decide!⟩, ⟨by decide, by decide, by decide, by decide!⟩⟩

/-- A line that is a lone operator has a valid token only, and the final
drain reads the empty operand stack, whatever the arithmetic. -/
theorem lone_operator_reads_empty_stack (A : FloatOps F) :
    checkParentheses "+".toList = true ∧ tokenize "+".toList = some [['+']] ∧
      validTokens [['+']] = true ∧
      argumentMode A "+".toList = some (.error .undefinedBehaviour) := by
  refine ⟨by decide, by decide, by decide, ?_⟩
  have ht : tokenize "+".toList = some [['+']] := by decide
  have hc : checkParentheses "+".toList = true := by decide
  simp only [argumentMode, hc, ht, Bool.not_true, Bool.false_eq_true, if_false]
  rw [evaluate_eq, run_operator A '+' _ _ _ (by decide)]
  simp only [popWhile]
  rw [run_nil]
  rfl

end WellFormedLines


/-! ## The cursor and the parentheses -/

section CursorAndParentheses

variable {F : Type}

theorem afterClose_cons (d : Nat) (t : Str) (ts : List Str) :
    afterClose d (t :: ts) =
      if t = ['('] then afterClose (d + 1) ts
      else if t = [')'] then
        match d with
        | 0 => ts
        | d' + 1 => afterClose d' ts
      else afterClose d ts := by
  rfl

theorem afterClose_other (d : Nat) (t : Str) (ts : List Str) (h1 : t ≠ ['(']) (h2 : t ≠ [')']) :
    afterClose d (t :: ts) = afterClose d ts := by
  rw [afterClose_cons, if_neg h1, if_neg h2]

theorem afterClose_open (d : Nat) (ts : List Str) :
    afterClose d (['('] :: ts) = afterClose (d + 1) ts := by
  rw [afterClose_cons, if_pos rfl]

theorem afterClose_close_zero (ts : List Str) : afterClose 0 ([')'] :: ts) = ts := by
  rw [afterClose_cons, if_neg (by decide), if_pos rfl]

theorem afterClose_close_succ (d : Nat) (ts : List Str) :
    afterClose (d + 1) ([')'] :: ts) = afterClose d ts := by
  rw [afterClose_cons, if_neg (by decide), if_pos rfl]

theorem afterClose_length (ts : List Str) : ∀ d : Nat, (afterClose d ts).length ≤ ts.length := by
  induction ts with
  | nil => intro d; simp [afterClose]
  | cons t ts ih =>
    intro d
    rw [afterClose_cons]
    split
    · exact Nat.le_succ_of_le (ih _)
    · split
      · cases d with
        | zero => simp
        | succ d' => exact Nat.le_succ_of_le (ih _)
      · exact Nat.le_succ_of_le (ih _)

/-- Closing one more level is closing the innermost level and then the rest. -/
theorem afterClose_succ : ∀ (k : Nat) (ts : List Str), ts.length ≤ k → ∀ d : Nat,
    afterClose (d + 1) ts = afterClose d (afterClose 0 ts) := by
  intro k
  induction k with
  | zero =>
    intro ts hlen d
    have : ts = [] := List.length_eq_zero.1 (Nat.le_zero.1 hlen)
    subst this
    simp [afterClose]
  | succ k ih =>
    intro ts hlen d
    cases ts with
    | nil => simp [afterClose]
    | cons t ts =>
      simp only [List.length_cons, Nat.add_le_add_iff_right] at hlen
      by_cases h1 : t = ['(']
      · subst h1
        rw [afterClose_open, afterClose_open, ih ts hlen (d + 1), ih ts hlen 0]
        exact ih _ ((afterClose_length ts 0).trans hlen) d
      · by_cases h2 : t = [')']
        · subst h2
          rw [afterClose_close_succ, afterClose_close_zero]
        · rw [afterClose_other _ _ _ h1 h2, afterClose_other _ _ _ h1 h2]
          exact ih ts hlen d

theorem isOperatorToken_noParen {tok : Str} (h : isOperatorToken tok = true) :
    tok ≠ ['('] ∧ tok ≠ [')'] := by
  constructor
  · rintro rfl; revert h; decide
  · rintro rfl; revert h; decide

theorem isalpha_noParen {tok : Str} (h : isalpha (firstChar tok) = true) :
    tok ≠ ['('] ∧ tok ≠ [')'] := by
  constructor
  · rintro rfl; revert h; decide
  · rintro rfl; revert h; decide

/-- A call that returns leaves the cursor just after the first `)` that is not
matched inside the tokens it was entered with, or at the end when there is
none. -/
theorem run_cursor (A : FloatOps F) : ∀ (k : Nat) (toks : List Str), toks.length ≤ k →
    ∀ (nums : List F) (ops : List Char) (v : F) (rest : List Str),
      run A toks nums ops = some (.ok (v, rest)) → rest = afterClose 0 toks := by
  intro k
  induction k with
  | zero =>
    intro toks hlen nums ops v rest h
    have : toks = [] := List.length_eq_zero.1 (Nat.le_zero.1 hlen)
    subst this
    rw [run_nil] at h
    exact finish_ok_rest A _ _ _ _ _ (Option.some.inj h)
  | succ k ih =>
    intro toks hlen nums ops v rest h
    cases toks with
    | nil =>
      rw [run_nil] at h
      exact finish_ok_rest A _ _ _ _ _ (Option.some.inj h)
    | cons tok rest0 =>
      simp only [List.length_cons, Nat.add_le_add_iff_right] at hlen
      by_cases hclose : tok = [')']
      · subst hclose
        rw [run_close] at h
        rw [afterClose_close_zero]
        exact finish_ok_rest A _ _ _ _ _ (Option.some.inj h)
      · rw [run_iteration A tok rest0 nums ops hclose] at h
        cases hit : iteration A (evaluateExpression A) tok rest0 nums ops with
        | none => rw [hit] at h; cases h
        | some r =>
          rw [hit] at h
          cases r with
          | error e => cases h
          | ok p =>
            obtain ⟨c, n, o⟩ := p
            have hadv := (iteration_advances A tok rest0 nums ops c n o hit).length_le
            have hrest := ih c (by omega) n o v rest h
            rw [hrest]
            -- the cursor after the pass closes the same level as the cursor before it
            unfold iteration at hit
            split at hit
            · next hα =>
              have hnp := isalpha_noParen hα
              split at hit
              · cases hit
              · next paren rest' =>
                split at hit
                · cases hit
                · next hp =>
                  have hp' : paren = ['('] := by simpa using hp
                  subst hp'
                  simp only [List.length_cons] at hlen
                  split at hit
                  · cases hit
                  · cases hit
                  · next arg rest'' hsub =>
                    have hsub' := ih rest' (by omega) [] [] arg rest'' hsub
                    split at hit
                    · cases hit
                    · simp only [Option.some.injEq, Except.ok.injEq, Prod.mk.injEq] at hit
                      rw [← hit.1, hsub', afterClose_other _ _ _ hnp.1 hnp.2, afterClose_open,
                        afterClose_succ rest'.length rest' (le_refl _) 0]
            · split at hit
              · next hopen =>
                subst hopen
                split at hit
                · cases hit
                · cases hit
                · next w rest'' hsub =>
                  have hsub' := ih rest0 hlen [] [] w rest'' hsub
                  simp only [Option.some.injEq, Except.ok.injEq, Prod.mk.injEq] at hit
                  rw [← hit.1, hsub', afterClose_open,
                    afterClose_succ rest0.length rest0 (le_refl _) 0]
              · next hopen =>
                split at hit
                · next hnum =>
                  split at hit
                  · cases hit
                  · simp only [Option.some.injEq, Except.ok.injEq, Prod.mk.injEq] at hit
                    rw [← hit.1, afterClose_other _ _ _ hopen hclose]
                · split at hit
                  · split at hit
                    · cases hit
                    · simp only [Option.some.injEq, Except.ok.injEq, Prod.mk.injEq] at hit
                      rw [← hit.1, afterClose_other _ _ _ hopen hclose]
                  · cases hit

/-- The shape of a token with respect to parentheses: it is `(`, or `)`, or
holds no parenthesis. -/
theorem lex_paren_tokens : ∀ (n : Nat) (eq : Str), eq.length ≤ n →
    ∀ (prev : Option Char) (cur : Str) (tokens out : List Str),
      lex prev eq cur tokens = some out →
      (∀ c ∈ cur, c ≠ '(' ∧ c ≠ ')') →
      (∀ t ∈ tokens, t = ['('] ∨ t = [')'] ∨ ∀ c ∈ t, c ≠ '(' ∧ c ≠ ')') →
      ∀ t ∈ out, t = ['('] ∨ t = [')'] ∨ ∀ c ∈ t, c ≠ '(' ∧ c ≠ ')' := by
  intro n
  induction n with
  | zero =>
    intro eq hlen prev cur tokens out h hcur htok t ht
    have : eq = [] := List.length_eq_zero.1 (Nat.le_zero.1 hlen)
    subst this
    rw [lex_nil] at h
    injection h with h
    subst h
    rcases flush_mem ht with h | ⟨rfl, _⟩
    · exact htok t h
    · exact Or.inr (Or.inr hcur)
  | succ n ih =>
    intro eq hlen prev cur tokens out h hcur htok
    have hflush : ∀ t ∈ flush cur tokens, t = ['('] ∨ t = [')'] ∨ ∀ c ∈ t, c ≠ '(' ∧ c ≠ ')' := by
      intro t ht
      rcases flush_mem ht with h | ⟨rfl, _⟩
      · exact htok t h
      · exact Or.inr (Or.inr hcur)
    cases eq with
    | nil =>
      rw [lex_nil] at h
      injection h with h
      subst h
      exact hflush
    | cons ch rest =>
      simp only [List.length_cons, Nat.add_le_add_iff_right] at hlen
      rw [lex_cons] at h
      split at h
      · exact ih rest hlen _ _ _ _ h hcur htok
      · split at h
        · next hα =>
          have hd := dropWhile_alpha_length rest hα
          refine ih _ (by omega) _ _ _ _ h (by simp) ?_
          intro t ht
          rcases List.mem_append.1 ht with ht | ht
          · exact hflush t ht
          · rw [List.mem_singleton.1 ht]
            refine Or.inr (Or.inr ?_)
            intro c hc
            have hca := List.mem_takeWhile_imp hc
            constructor
            · rintro rfl; revert hca; decide
            · rintro rfl; revert hca; decide
        · split at h
          · next hnum =>
            refine ih rest hlen _ _ _ _ h ?_ htok
            intro c hc
            rcases List.mem_append.1 hc with hc | hc
            · exact hcur c hc
            · rw [List.mem_singleton.1 hc]
              constructor
              · rintro rfl
                simp [show isdigit '(' = false by decide] at hnum
              · rintro rfl
                simp [show isdigit ')' = false by decide] at hnum
          · refine ih rest hlen _ _ _ _ h (by simp) ?_
            intro t ht
            rcases List.mem_append.1 ht with ht | ht
            · exact hflush t ht
            · rw [List.mem_singleton.1 ht]
              by_cases h1 : ch = '('
              · exact Or.inl (by rw [h1])
              · by_cases h2 : ch = ')'
                · exact Or.inr (Or.inl (by rw [h2]))
                · refine Or.inr (Or.inr ?_)
                  intro c hc
                  rw [List.mem_singleton.1 hc]
                  exact ⟨h1, h2⟩

/-- Whitespace does not count for the balance. -/
theorem checkParenthesesFrom_filter (s : Str) : ∀ bal : Int,
    checkParenthesesFrom bal (s.filter (fun c => !isspace c)) = checkParenthesesFrom bal s := by
  induction s with
  | nil => intro bal; rfl
  | cons c cs ih =>
    intro bal
    by_cases hs : isspace c = true
    · have hnp := isspace_noParen hs
      rw [List.filter_cons_of_neg (by simp [hs]), ih,
        checkParenthesesFrom_other _ c _ hnp.1 hnp.2]
    · rw [List.filter_cons_of_pos (by simpa using hs)]
      by_cases h1 : c = '('
      · subst h1
        rw [checkParenthesesFrom_open, checkParenthesesFrom_open, ih]
      · by_cases h2 : c = ')'
        · subst h2
          rw [checkParenthesesFrom_close, checkParenthesesFrom_close, ih]
        · rw [checkParenthesesFrom_other _ c _ h1 h2, checkParenthesesFrom_other _ c _ h1 h2, ih]

theorem flatten_cons_other (bal : Int) (t : Str) (ts : List Str)
    (h : ∀ c ∈ t, c ≠ '(' ∧ c ≠ ')') :
    checkParenthesesFrom bal (t :: ts).flatten = checkParenthesesFrom bal ts.flatten := by
  rw [List.flatten_cons, checkParenthesesFrom_skip t h]

theorem flatten_cons_open (bal : Int) (ts : List Str) :
    checkParenthesesFrom bal (['('] :: ts).flatten =
      checkParenthesesFrom (bal + 1) ts.flatten := by
  rw [List.flatten_cons, List.singleton_append, checkParenthesesFrom_open]

theorem flatten_cons_close (bal : Int) (ts : List Str) :
    checkParenthesesFrom bal ([')'] :: ts).flatten =
      if bal - 1 < 0 then false else checkParenthesesFrom (bal - 1) ts.flatten := by
  rw [List.flatten_cons, List.singleton_append, checkParenthesesFrom_close]

theorem paren_free_token {t : Str} (h : ∀ c ∈ t, c ≠ '(' ∧ c ≠ ')') :
    t ≠ ['('] ∧ t ≠ [')'] := by
  constructor
  · rintro rfl; exact (h '(' (List.mem_singleton.2 rfl)).1 rfl
  · rintro rfl; exact (h ')' (List.mem_singleton.2 rfl)).2 rfl

/-- In balanced tokens no `)` is left to close an outer level. -/
theorem afterClose_balanced (ts : List Str)
    (hshape : ∀ t ∈ ts, t = ['('] ∨ t = [')'] ∨ ∀ c ∈ t, c ≠ '(' ∧ c ≠ ')') :
    ∀ (bal : Int) (d : Nat), bal ≤ d → checkParenthesesFrom bal ts.flatten = true →
      afterClose d ts = [] := by
  induction ts with
  | nil => intro bal d _ _; rfl
  | cons t ts ih =>
    intro bal d hbd h
    have ih' := ih (fun x hx => hshape x (List.mem_cons_of_mem _ hx))
    rcases hshape t (List.mem_cons_self _ _) with rfl | rfl | hfree
    · rw [flatten_cons_open] at h
      rw [afterClose_open]
      exact ih' (bal + 1) (d + 1) (by push_cast; omega) h
    · rw [flatten_cons_close] at h
      split at h
      · cases h
      · next hnn =>
        cases d with
        | zero => push_cast at hbd; omega
        | succ d' =>
          rw [afterClose_close_succ]
          exact ih' (bal - 1) d' (by push_cast at hbd; omega) h
    · rw [flatten_cons_other _ _ _ hfree] at h
      obtain ⟨h1, h2⟩ := paren_free_token hfree
      rw [afterClose_other _ _ _ h1 h2]
      exact ih' bal d hbd h

/-- In tokens with more `)` than `(` the call ends just after the first
unmatched `)`, and the tokens before it are balanced. -/
theorem afterClose_matching (ts : List Str)
    (hshape : ∀ t ∈ ts, t = ['('] ∨ t = [')'] ∨ ∀ c ∈ t, c ≠ '(' ∧ c ≠ ')') :
    ∀ (bal : Int) (d : Nat), (d : Int) + 1 ≤ bal → checkParenthesesFrom bal ts.flatten = true →
      ∃ inner : List Str, ts = inner ++ [')'] :: afterClose d ts ∧
        checkParenthesesFrom d inner.flatten = true := by
  induction ts with
  | nil =>
    intro bal d hbd h
    simp only [List.flatten_nil, checkParenthesesFrom, beq_iff_eq] at h
    omega
  | cons t ts ih =>
    intro bal d hbd h
    have ih' := ih (fun x hx => hshape x (List.mem_cons_of_mem _ hx))
    rcases hshape t (List.mem_cons_self _ _) with rfl | rfl | hfree
    · rw [flatten_cons_open] at h
      obtain ⟨inner, hsplit, hin⟩ := ih' (bal + 1) (d + 1) (by push_cast; omega) h
      refine ⟨['('] :: inner, ?_, ?_⟩
      · rw [afterClose_open, List.cons_append, ← hsplit]
      · rw [flatten_cons_open]
        exact_mod_cast hin
    · rw [flatten_cons_close] at h
      split at h
      · cases h
      · next hnn =>
        cases d with
        | zero =>
          refine ⟨[], ?_, rfl⟩
          rw [afterClose_close_zero]
          rfl
        | succ d' =>
          obtain ⟨inner, hsplit, hin⟩ := ih' (bal - 1) d' (by push_cast at hbd; omega) h
          refine ⟨[')'] :: inner, ?_, ?_⟩
          · rw [afterClose_close_succ, List.cons_append, ← hsplit]
          · rw [flatten_cons_close]
            push_cast
            rw [if_neg (by omega)]
            have : ((d' : Int) + 1 - 1) = d' := by omega
            rw [this]
            exact hin
    · rw [flatten_cons_other _ _ _ hfree] at h
      obtain ⟨h1, h2⟩ := paren_free_token hfree
      obtain ⟨inner, hsplit, hin⟩ := ih' bal d hbd h
      refine ⟨t :: inner, ?_, ?_⟩
      · rw [afterClose_other _ _ _ h1 h2, List.cons_append, ← hsplit]
      · rw [flatten_cons_other _ _ _ hfree]
        exact hin

/-- The counter of the balance check after a first part of the text. -/
theorem checkParenthesesFrom_append (x y : Str) : ∀ bal : Int, 0 ≤ bal →
    checkParenthesesFrom bal (x ++ y) = true →
    ∃ bal' : Int, 0 ≤ bal' ∧ checkParenthesesFrom bal' y = true := by
  induction x with
  | nil => intro bal hb h; exact ⟨bal, hb, h⟩
  | cons c cs ih =>
    intro bal hb h
    rw [List.cons_append] at h
    by_cases h1 : c = '('
    · subst h1
      rw [checkParenthesesFrom_open] at h
      exact ih (bal + 1) (by omega) h
    · by_cases h2 : c = ')'
      · subst h2
        rw [checkParenthesesFrom_close] at h
        split at h
        · cases h
        · exact ih (bal - 1) (by omega) h
      · rw [checkParenthesesFrom_other _ c _ h1 h2] at h
        exact ih bal hb h

/-- C14 (no token is left unconsumed). For a line `s` with balanced
parentheses and its tokens `ts`: when the top-level call of
`evaluateExpression` returns a value it leaves the cursor at the end of `ts`;
and a call entered after any `(` token of `ts` that returns a value has
consumed a balanced run of tokens and the `)` after it, the matching one, and
leaves the cursor just behind that `)`. -/
theorem balanced_line_consumed (A : FloatOps F) (s : Str) (ts : List Str)
    (hbal : checkParentheses s = true) (htok : tokenize s = some ts) :
    (∀ (v : F) (rest : List Str), evaluateExpression A ts = some (.ok (v, rest)) → rest = []) ∧
      ∀ (pre toks rest : List Str) (v : F), ts = pre ++ ['('] :: toks →
        evaluateExpression A toks = some (.ok (v, rest)) →
        ∃ inner : List Str, toks = inner ++ [')'] :: rest ∧
          checkParentheses inner.flatten = true := by
  have hshape : ∀ t ∈ ts, t = ['('] ∨ t = [')'] ∨ ∀ c ∈ t, c ≠ '(' ∧ c ≠ ')' :=
    lex_paren_tokens s.length s (le_refl _) none [] [] ts htok (by simp) (by simp)
  have hflat : ts.flatten = s.filter (fun c => !isspace c) := by
    have := lex_flatten s.length s (le_refl _) none [] [] ts htok
    simpa using this
  have hbal' : checkParenthesesFrom 0 ts.flatten = true := by
    rw [hflat, checkParenthesesFrom_filter]
    exact hbal
  constructor
  · intro v rest h
    rw [run_cursor A ts.length ts (le_refl _) [] [] v rest h]
    exact afterClose_balanced ts hshape 0 0 (le_refl _) hbal'
  · intro pre toks rest v hsplit h
    have hrest := run_cursor A toks.length toks (le_refl _) [] [] v rest h
    have hshape' : ∀ t ∈ toks, t = ['('] ∨ t = [')'] ∨ ∀ c ∈ t, c ≠ '(' ∧ c ≠ ')' := by
      intro t ht
      refine hshape t ?_
      rw [hsplit]
      exact List.mem_append_right _ (List.mem_cons_of_mem _ ht)
    rw [hsplit, List.flatten_append] at hbal'
    obtain ⟨b, hb, hb'⟩ := checkParenthesesFrom_append _ _ 0 (le_refl _) hbal'
    rw [flatten_cons_open] at hb'
    obtain ⟨inner, hin, hinb⟩ := afterClose_matching toks hshape' (b + 1) 0 (by omega) hb'
    rw [← hrest] at hin
    exact ⟨inner, hin, hinb⟩

/-- Witness of C14 in exact arithmetic: the line `(2+3)*4` is balanced, the
top-level call returns `20` with the cursor at the end, and the call entered
after its `(` returns `5` with the cursor behind the matching `)`. -/
theorem balanced_line_consumed_witness :
    evaluateExpression exactOps [['('], ['2'], ['+'], ['3'], [')'], ['*'], ['4']] =
        some (.ok (20, [])) ∧
      evaluateExpression exactOps [['2'], ['+'], ['3'], [')'], ['*'], ['4']] =
        some (.ok (5, [['*'], ['4']])) ∧
      ∃ inner : List Str,
        [['2'], ['+'], ['3'], [')'], ['*'], ['4']] = inner ++ [')'] :: [['*'], ['4']] ∧
          checkParentheses inner.flatten = true :=
  have h := balanced_line_consumed exactOps "(2+3)*4".toList
    [['('], ['2'], ['+'], ['3'], [')'], ['*'], ['4']] (by decide) (by decide)
  have h₁ : evaluateExpression exactOps [['('], ['2'], ['+'], ['3'], [')'], ['*'], ['4']] =
      some (.ok (20, [])) := by decide!
  have h₂ : evaluateExpression exactOps [['2'], ['+'], ['3'], [')'], ['*'], ['4']] =
      some (.ok (5, [['*'], ['4']])) := by decide!
  ⟨h₁, h₂, h.2 [] _ _ 5 rfl h₂⟩

end CursorAndParentheses


/-! ## The precedence map is never written -/

section PrecedenceMapLemmas

variable {F : Type}

theorem mapCount_precedence (c : Char) : mapCount precedence c = precedenceCount c := rfl

/-- A lookup with a key of the map reads its level and inserts nothing. -/
theorem mapIndex_key (c : Char) (h : precedenceCount c = true) :
    mapIndex precedence c = (precedenceAt c, precedence) := by
  rcases (precedenceCount_iff c).1 h with rfl | rfl | rfl | rfl | rfl <;> rfl

theorem tokenizeOn_precedence : ∀ (fuel : Nat) (prev : Option Char) (eq cur : Str)
    (tokens : List Str),
    tokenizeOn precedence fuel prev eq cur tokens = tokenizeFrom fuel prev eq cur tokens := by
  intro fuel
  induction fuel with
  | zero => intro prev eq cur tokens; rfl
  | succ fuel ih =>
    intro prev eq cur tokens
    cases eq with
    | nil => rfl
    | cons ch rest =>
      rw [tokenizeFrom_cons]
      show (if isspace ch then tokenizeOn precedence fuel (some ch) rest cur tokens
        else if isalpha ch then
          tokenizeOn precedence fuel ((ch :: rest).takeWhile isalpha).getLast?
            ((ch :: rest).dropWhile isalpha) []
            (flush cur tokens ++ [(ch :: rest).takeWhile isalpha])
        else if isdigit ch || ch == '.' ||
            (ch == '-' && (prev == none || prev == some '(' ||
              (prev.map (mapCount precedence)).getD false)) then
          tokenizeOn precedence fuel (some ch) rest (cur ++ [ch]) tokens
        else
          tokenizeOn precedence fuel (some ch) rest [] (flush cur tokens ++ [[ch]])) = _
      simp only [ih]
      rfl

theorem popWhileOn_cons (A : FloatOps F) (op top : Char) (m : PrecedenceMap) (nums : List F)
    (ops : List Char) :
    popWhileOn A op m nums (top :: ops) =
      if (op = '^' ∧ (mapIndex m op).1 < (mapIndex (mapIndex m op).2 top).1) ∨
          (op ≠ '^' ∧ (mapIndex m op).1 ≤ (mapIndex (mapIndex m op).2 top).1) then
        match nums with
        | b :: a :: nums' =>
          match applyOperation A a b top with
          | .error e => (.error e, (mapIndex (mapIndex m op).2 top).2)
          | .ok r => popWhileOn A op (mapIndex (mapIndex m op).2 top).2 (r :: nums') ops
        | _ => (.error .undefinedBehaviour, (mapIndex (mapIndex m op).2 top).2)
      else (.ok (nums, top :: ops), (mapIndex (mapIndex m op).2 top).2) := by
  rfl

/-- The pop loop with an operator of the map on a stack of operators of the
map leaves the map as initialised. -/
theorem popWhileOn_precedence (A : FloatOps F) (op : Char) (hop : precedenceCount op = true) :
    ∀ (ops : List Char) (nums : List F), (∀ o ∈ ops, precedenceCount o = true) →
      popWhileOn A op precedence nums ops = (popWhile A op nums ops, precedence) := by
  intro ops
  induction ops with
  | nil => intro nums _; rfl
  | cons top ops ih =>
    intro nums hkeys
    have htop := hkeys top (List.mem_cons_self _ _)
    have hrest : ∀ o ∈ ops, precedenceCount o = true :=
      fun o ho => hkeys o (List.mem_cons_of_mem _ ho)
    rw [popWhileOn_cons, popWhile_cons, mapIndex_key op hop]
    simp only [mapIndex_key top htop]
    split
    · match nums with
      | [] => rfl
      | [_] => rfl
      | b :: a :: nums' =>
        simp only []
        cases applyOperation A a b top with
        | error e => rfl
        | ok r => exact ih _ hrest
    · rfl

theorem popWhile_keys (A : FloatOps F) (op : Char) (ops : List Char) (nums n : List F)
    (o : List Char) (hkeys : ∀ x ∈ ops, precedenceCount x = true)
    (h : popWhile A op nums ops = .ok (n, o)) : ∀ x ∈ o, precedenceCount x = true :=
  fun x hx => hkeys x ((popWhile_ok A op ops nums n o h).1.subset hx)

theorem evaluateExpressionOn_cons (A : FloatOps F) (fuel : Nat) (m : PrecedenceMap) (tok : Str)
    (rest : List Str) (nums : List F) (ops : List Char) :
    evaluateExpressionOn A (fuel + 1) m (tok :: rest) nums ops =
      if tok = [')'] then some (finish A nums ops rest, m)
      else if isalpha (firstChar tok) then
        match rest with
        | [] => some (.error (.thrown ("Error: Expected '(' after ".toList ++ tok)), m)
        | paren :: rest' =>
          if paren ≠ ['('] then
            some (.error (.thrown ("Error: Expected '(' after ".toList ++ tok)), m)
          else
            match evaluateExpressionOn A fuel m rest' [] [] with
            | none => none
            | some (.error e, m') => some (.error e, m')
            | some (.ok (arg, rest''), m') =>
              match applyFunction A tok arg with
              | .error e => some (.error e, m')
              | .ok v => evaluateExpressionOn A fuel m' rest'' (v :: nums) ops
      else if tok = ['('] then
        match evaluateExpressionOn A fuel m rest [] [] with
        | none => none
        | some (.error e, m') => some (.error e, m')
        | some (.ok (v, rest''), m') => evaluateExpressionOn A fuel m' rest'' (v :: nums) ops
      else if isNumberToken tok then
        match A.stod tok with
        | .error what => some (.error (.thrown what), m)
        | .ok v => evaluateExpressionOn A fuel m rest (v :: nums) ops
      else if decide (tok.length = 1) && mapCount m (firstChar tok) then
        match popWhileOn A (firstChar tok) m nums ops with
        | (.error e, m') => some (.error e, m')
        | (.ok (nums', ops'), m') =>
          evaluateExpressionOn A fuel m' rest nums' (firstChar tok :: ops')
      else some (.error (.thrown ("Error: Invalid token '".toList ++ tok ++ "'".toList)), m) := by
  rfl

/-- The evaluator started on the map as initialised, with operators of the
map on its stack, gives the outcome of the evaluator of the embedding and
leaves the map as initialised. -/
theorem evaluateExpressionOn_precedence (A : FloatOps F) :
    ∀ (fuel : Nat) (toks : List Str) (nums : List F) (ops : List Char),
      (∀ o ∈ ops, precedenceCount o = true) →
      evaluateExpressionOn A fuel precedence toks nums ops =
        (evaluateExpressionFrom A fuel toks nums ops).map (fun r => (r, precedence)) := by
  intro fuel
  induction fuel with
  | zero => intro toks nums ops _; rfl
  | succ fuel ih =>
    intro toks nums ops hkeys
    cases toks with
    | nil => rfl
    | cons tok rest =>
      rw [evaluateExpressionOn_cons, evaluateExpressionFrom_cons]
      split
      · rfl
      · split
        · cases rest with
          | nil => rfl
          | cons paren rest' =>
            simp only []
            split
            · rfl
            · rw [ih rest' [] [] (by simp)]
              cases evaluateExpressionFrom A fuel rest' [] [] with
              | none => rfl
              | some r =>
                cases r with
                | error e => rfl
                | ok p =>
                  obtain ⟨arg, rest''⟩ := p
                  simp only [Option.map_some']
                  cases applyFunction A tok arg with
                  | error e => rfl
                  | ok v => exact ih rest'' (v :: nums) ops hkeys
        · split
          · rw [ih rest [] [] (by simp)]
            cases evaluateExpressionFrom A fuel rest [] [] with
            | none => rfl
            | some r =>
              cases r with
              | error e => rfl
              | ok p =>
                obtain ⟨v, rest''⟩ := p
                simp only [Option.map_some']
                exact ih rest'' (v :: nums) ops hkeys
          · split
            · cases A.stod tok with
              | error what => rfl
              | ok v => exact ih rest (v :: nums) ops hkeys
            · rw [mapCount_precedence]
              show (if isOperatorToken tok = true then _ else _) = _
              split
              · next hop =>
                have hcount := (isOperatorToken_shape hop).2
                rw [popWhileOn_precedence A _ hcount ops nums hkeys]
                cases hpop : popWhile A (firstChar tok) nums ops with
                | error e => rfl
                | ok p =>
                  obtain ⟨nums', ops'⟩ := p
                  simp only []
                  refine ih rest nums' (firstChar tok :: ops') ?_
                  intro o ho
                  rcases List.mem_cons.1 ho with rfl | ho
                  · exact hcount
                  · exact popWhile_keys A _ ops nums nums' ops' hkeys hpop o ho
              · rfl

/-- The `try` block started on the map as initialised gives the outcome of
the `try` block of the embedding and leaves the map as initialised. -/
theorem argumentModeOn_precedence (A : FloatOps F) (s : Str) :
    argumentModeOn A precedence s = (argumentMode A s).map (fun r => (r, precedence)) := by
  unfold argumentModeOn argumentMode
  split
  · rfl
  · rw [tokenizeOn_precedence]
    show (match tokenize s with
      | none => none
      | some tokens =>
        match evaluateExpressionOn A (tokens.length + 1) precedence tokens [] [] with
        | none => none
        | some (r, m') => some (r.map Prod.fst, m')) = _
    cases tokenize s with
    | none => rfl
    | some tokens =>
      simp only []
      rw [evaluateExpressionOn_precedence A _ tokens [] [] (by simp)]
      unfold evaluate evaluateExpression run
      cases evaluateExpressionFrom A (tokens.length + 1) tokens [] [] with
      | none => rfl
      | some r => rfl

/-- Every operator on the stack of a call is a key of the map. -/
theorem reaches_keys (A : FloatOps F) {toks : List Str} {nums : List F} {ops : List Char}
    {c : List Str} {n : List F} {o : List Char} (h : Reaches A toks nums ops c n o)
    (hkeys : ∀ x ∈ ops, precedenceCount x = true) : ∀ x ∈ o, precedenceCount x = true := by
  induction h with
  | start => exact hkeys
  | pass tok rest nums ops c n o _ _ _ _ hit _ ih =>
    refine ih ?_
    unfold iteration at hit
    split at hit
    · split at hit
      · cases hit
      · split at hit
        · cases hit
        · split at hit
          · cases hit
          · cases hit
          · split at hit
            · cases hit
            · simp only [Option.some.injEq, Except.ok.injEq, Prod.mk.injEq] at hit
              rw [← hit.2.2]; exact hkeys
    · split at hit
      · split at hit
        · cases hit
        · cases hit
        · simp only [Option.some.injEq, Except.ok.injEq, Prod.mk.injEq] at hit
          rw [← hit.2.2]; exact hkeys
      · split at hit
        · split at hit
          · cases hit
          · simp only [Option.some.injEq, Except.ok.injEq, Prod.mk.injEq] at hit
            rw [← hit.2.2]; exact hkeys
        · split at hit
          · next hop =>
            split at hit
            · cases hit
            · next nums' ops' hpop =>
              simp only [Option.some.injEq, Except.ok.injEq, Prod.mk.injEq] at hit
              rw [← hit.2.2]
              intro x hx
              rcases List.mem_cons.1 hx with rfl | hx
              · exact (isOperatorToken_shape hop).2
              · exact popWhile_keys A _ ops nums nums' ops' hkeys hpop x hx
          · cases hit

/-- C15 (evaluation is repeatable; the precedence map is never written). Two
evaluations of the same line in succession both end, with the same outcome
(the same value or the same fault), and the map is as initialised after each:
`+`, `-` at level 1, `*`, `/` at level 2 and `^` at level 3. A lookup
`precedence[c]` with a key of the map reads its level and inserts nothing, and
the evaluator looks up only the incoming operator, which it has tested with
`count`, and operators of its stack, which are all keys of the map. -/
theorem evaluation_repeatable (A : FloatOps F) (s : Str) :
    (∃ r : Except Fault F, argumentMode A s = some r ∧
        evaluateTwice A s = some ((r, precedence), (r, precedence))) ∧
      precedence = [('+', 1), ('-', 1), ('*', 2), ('/', 2), ('^', 3)] ∧
      (∀ c : Char, mapCount precedence c = true →
        mapIndex precedence c = (precedenceAt c, precedence)) ∧
      ∀ (toks c : List Str) (nums n : List F) (o : List Char),
        Reaches A toks nums [] c n o → ∀ x ∈ o, mapCount precedence x = true := by
  refine ⟨?_, rfl, mapIndex_key, ?_⟩
  · obtain ⟨r, hr⟩ := argumentMode_isSome A s
    refine ⟨r, hr, ?_⟩
    have h := argumentModeOn_precedence A s
    rw [hr] at h
    simp only [evaluateTwice, h, Option.map_some']
  · intro toks c nums n o h
    exact reaches_keys A h (by simp)

/-- Witness of C15 in exact arithmetic: `2^3^2` gives `512` twice and `1/0`
the division-by-zero exception twice, the map being as initialised after each
evaluation; a lookup with a character that is no key would have inserted it. -/
theorem evaluation_repeatable_witness :
    evaluateTwice exactOps "2^3^2".toList =
        some ((.ok 512, precedence), (.ok 512, precedence)) ∧
      evaluateTwice exactOps "1/0".toList =
        some ((.error (.thrown "Error: Division by zero!".toList), precedence),
          (.error (.thrown "Error: Division by zero!".toList), precedence)) ∧
      mapIndex precedence '^' = (3, precedence) ∧
      mapIndex precedence '&' = (0, precedence ++ [('&', 0)]) :=
  ⟨(evaluation_repeatable exactOps "2^3^2".toList).1.elim (fun r h =>
      have hr : r = .ok 512 := Option.some.inj (h.1.symm.trans (by decide!))
      hr ▸ h.2),
    (evaluation_repeatable exactOps "1/0".toList).1.elim (fun r h =>
      have hr : r = .error (.thrown "Error: Division by zero!".toList) :=
        Option.some.inj (h.1.symm.trans (by decide!))
      hr ▸ h.2),
    (evaluation_repeatable exactOps "".toList).2.2.1 '^' (by decide), rfl⟩

end PrecedenceMapLemmas

end Calc
